import Mathlib

/-!
# HVAC-AI-App: the markdown renderer

A shallow embedding of `src/MarkdownRenderer.jsx`: the line-oriented block
parser `parseMarkdown` and the inline span resolver `parseInlineFormatting`,
and of the preprocessor `formatChatGPTAnalysis` of `src/DiagnosticResults.jsx`.

Modelling conventions.

* A JavaScript string is a `List Char`; one `Char` stands for one UTF-16 code
  unit.  Offsets (`match.index`, `lastIndex`, `substring` bounds) are positions
  in that list.
* A React element is kept as the data it is built from: an `InlineRun` for the
  children of a block (`<strong>`, `<em>`, `<code>` or a bare string), a `Block`
  for the elements pushed by `parseMarkdown` (`<h2>`, `<h3>`, `<p>`, `<ul>`,
  `<ol>`, the spacer `<div>`).  Keys and class names are presentation only and
  are left out.
* The three regular expressions of `parseInlineFormatting` all have the shape
  `D(.*?)D` for a literal delimiter `D`; `lazyUntil` and `execAll` are the
  matcher for that shape, with the `g` flag's `lastIndex` bookkeeping.
-/

namespace MarkdownRenderer

/-- A string of the program: a sequence of code units. -/
abbrev Str := List Char

/-- The backtick character (code unit 96). -/
def backtick : Char := Char.ofNat 96

/-! ## Character classes of the regular-expression engine -/

/-- Line terminators of ECMAScript: LF, CR, LS, PS.  The pattern `.` (without
the `s` flag) matches every code unit except these. -/
def isLineTerminator (c : Char) : Bool :=
  c.toNat = 0x0A || c.toNat = 0x0D || c.toNat = 0x2028 || c.toNat = 0x2029

/-- White space in the sense of `String.prototype.trim` and of the pattern `\s`:
the ECMAScript WhiteSpace code points together with the line terminators. -/
def isWhiteSpace (c : Char) : Bool :=
  c.toNat = 0x09 || c.toNat = 0x0A || c.toNat = 0x0B || c.toNat = 0x0C ||
  c.toNat = 0x0D || c.toNat = 0x20 || c.toNat = 0xA0 || c.toNat = 0x1680 ||
  (0x2000 ≤ c.toNat && c.toNat ≤ 0x200A) ||
  c.toNat = 0x2028 || c.toNat = 0x2029 || c.toNat = 0x202F ||
  c.toNat = 0x205F || c.toNat = 0x3000 || c.toNat = 0xFEFF

/-- The pattern `\d`: the ten ASCII digits. -/
def isDigit (c : Char) : Bool :=
  48 ≤ c.toNat && c.toNat ≤ 57

/-! ## String primitives -/

/-- The call `text.split('\n')`: the pieces between newline code units; the empty string
gives one empty piece. -/
def splitLines : Str → List Str
  | [] => [[]]
  | c :: cs =>
    if c = '\n' then [] :: splitLines cs
    else
      match splitLines cs with
      | l :: ls => (c :: l) :: ls
      | [] => [[c]]

/-- Removal of leading white space. -/
def trimStart (s : Str) : Str := s.dropWhile isWhiteSpace

/-- Removal of trailing white space. -/
def trimEnd (s : Str) : Str := (s.reverse.dropWhile isWhiteSpace).reverse

/-- The call `s.trim()`. -/
def trim (s : Str) : Str := trimEnd (trimStart s)

/-- The call `s.substring(a, b)` for `a ≤ b`. -/
def substring (s : Str) (a b : Nat) : Str := (s.drop a).take (b - a)

/-- The call `s.startsWith(p)`. -/
def startsWith (s p : Str) : Bool := p.isPrefixOf s

/-! ## Inline formatting -/

/-- The children of a block: a bare string, or the content of a `<strong>`,
`<em>` or `<code>` element. -/
inductive InlineRun where
  | plain (s : Str)
  | bold (s : Str)
  | italic (s : Str)
  | code (s : Str)
  deriving DecidableEq

/-- An entry of the `replacements` array. -/
structure Replacement where
  start : Nat
  endPos : Nat
  component : InlineRun
  original : Str
  deriving DecidableEq

/-- The tail `(.*?)D` of a pattern `D(.*?)D`, run on the text that follows the
opening delimiter: the lazy group takes as few code units as possible, none of
them a line terminator, until the closing delimiter `delim` starts.  Returns the
captured group. -/
def lazyUntil (delim : Str) : Str → Option Str
  | [] => if delim = [] then some [] else none
  | c :: cs =>
    if startsWith (c :: cs) delim then some []
    else if isLineTerminator c then none
    else (lazyUntil delim cs).map (c :: ·)

/-- The loop `while ((match = regex.exec(text)) !== null) replacements.push(..)`
for the global pattern `D(.*?)D` with `D = delim`.  `off` is the offset of the
head of the remaining text; `skip` is the number of code units still to pass
before `lastIndex` is reached (the rest of the previous match).  At an offset
where the pattern matches, the match is recorded and the search resumes at its
end; elsewhere the search moves one code unit on. -/
def execAll (delim : Str) (component : Str → InlineRun) :
    Nat → Nat → Str → List Replacement
  | _, _, [] => []
  | skip + 1, off, _ :: cs => execAll delim component skip (off + 1) cs
  | 0, off, c :: cs =>
    if startsWith (c :: cs) delim then
      match lazyUntil delim ((c :: cs).drop delim.length) with
      | some content =>
        let original := delim ++ content ++ delim
        { start := off, endPos := off + original.length,
          component := component content, original := original } ::
          execAll delim component (original.length - 1) (off + 1) cs
      | none => execAll delim component 0 (off + 1) cs
    else execAll delim component 0 (off + 1) cs

/-- Insertion of one entry into a list sorted by `start`, before the first
entry that does not start earlier. -/
def insertByStart (r : Replacement) : List Replacement → List Replacement
  | [] => [r]
  | x :: xs => if r.start ≤ x.start then r :: x :: xs else x :: insertByStart r xs

/-- The call `replacements.sort((a, b) => a.start - b.start)`: a stable sort by `start`
(entries with equal `start` keep their order of insertion). -/
def sortByStart (rs : List Replacement) : List Replacement :=
  rs.foldr insertByStart []

/-- One round of `replacements.forEach` in `parseInlineFormatting`; the state
is `(lastIndex, result)`. -/
def emit (text : Str) (st : Nat × List InlineRun) (replacement : Replacement) :
    Nat × List InlineRun :=
  let result :=
    if replacement.start > st.1 then
      st.2 ++ [InlineRun.plain (substring text st.1 replacement.start)]
    else st.2
  (replacement.endPos, result ++ [replacement.component])

/-- The function `parseInlineFormatting`.  The source returns the array `result`
when it is not empty and the string `text` itself otherwise; as the children of
a block that bare string is the single plain run holding it. -/
def parseInlineFormatting (text : Str) : List InlineRun :=
  let replacements :=
    execAll ['*', '*'] InlineRun.bold 0 0 text ++
    execAll ['*'] InlineRun.italic 0 0 text ++
    execAll [backtick] InlineRun.code 0 0 text
  let sorted := sortByStart replacements
  let st := sorted.foldl (emit text) (0, [])
  let result :=
    if st.1 < text.length then st.2 ++ [InlineRun.plain (text.drop st.1)] else st.2
  if result.length > 0 then result else [InlineRun.plain text]

/-! ## Block structure -/

/-- The elements pushed to `elements` by `parseMarkdown`: `<h2>` and `<h3>`
(a heading of level 2 or 3), `<p>`, `<ul>` and `<ol>` (a list, `ordered` for
`<ol>`, holding the children of its `<li>` items) and the spacer `<div>`. -/
inductive Block where
  | heading (level : Nat) (text : List InlineRun)
  | paragraph (text : List InlineRun)
  | list (ordered : Bool) (items : List (List InlineRun))
  | spacer
  deriving DecidableEq

/-- The two values of the variable `listType`. -/
inductive ListType where
  | ul
  | ol
  deriving DecidableEq

/-- The pattern `/^\d+\.\s/` at the start of `s`: one or more digits, a period
and one white-space code unit.  Returns the text after the match, which is
`s.replace(/^\d+\.\s/, '')` when the pattern matches; `none` is a failed
`test`. -/
def stripOrderedMarker (s : Str) : Option Str :=
  if (s.takeWhile isDigit).length > 0 then
    match s.dropWhile isDigit with
    | c :: w :: rest => if c = '.' && isWhiteSpace w then some rest else none
    | _ => none
  else none

/-- The mutable variables of `parseMarkdown`.  `currentList` is `null` (here
`false`) or `true`. -/
structure ParserState where
  elements : List Block
  currentList : Bool
  currentListItems : List (List InlineRun)
  listType : ListType
  deriving DecidableEq

/-- The block repeated in the blank-line, heading and paragraph branches and
after the loop: when a list is open, push it as `<ol>` or `<ul>` according to
`listType` and reset `currentList` and `currentListItems`. -/
def closeList (st : ParserState) : ParserState :=
  if st.currentList then
    { st with
      elements := st.elements ++ [Block.list (st.listType = ListType.ol) st.currentListItems],
      currentList := false,
      currentListItems := [] }
  else st

/-- The body of `lines.forEach` in `parseMarkdown`. -/
def processLine (st : ParserState) (line : Str) : ParserState :=
  let trimmedLine := trim line
  if trimmedLine.length = 0 then
    let st := closeList st
    { st with elements := st.elements ++ [Block.spacer] }
  else if startsWith trimmedLine ['#', '#', ' '] then
    let st := closeList st
    let headerText := trim (trimmedLine.drop 3)
    { st with elements := st.elements ++ [Block.heading 2 (parseInlineFormatting headerText)] }
  else if startsWith trimmedLine ['#', '#', '#', ' '] then
    let st := closeList st
    let headerText := trim (trimmedLine.drop 4)
    { st with elements := st.elements ++ [Block.heading 3 (parseInlineFormatting headerText)] }
  else if startsWith trimmedLine ['-', ' '] || startsWith trimmedLine ['*', ' '] then
    let listText := trim (trimmedLine.drop 2)
    let st :=
      if st.listType ≠ ListType.ul then
        let st :=
          if st.currentList then
            { st with
              elements := st.elements ++ [Block.list true st.currentListItems],
              currentListItems := [] }
          else st
        { st with listType := ListType.ul }
      else st
    { st with
      currentList := true,
      currentListItems := st.currentListItems ++ [parseInlineFormatting listText] }
  else
    match stripOrderedMarker trimmedLine with
    | some rest =>
      let listText := trim rest
      let st :=
        if st.listType ≠ ListType.ol then
          let st :=
            if st.currentList then
              { st with
                elements := st.elements ++ [Block.list false st.currentListItems],
                currentListItems := [] }
            else st
          { st with listType := ListType.ol }
        else st
      { st with
        currentList := true,
        currentListItems := st.currentListItems ++ [parseInlineFormatting listText] }
    | none =>
      let st := closeList st
      { st with elements := st.elements ++ [Block.paragraph (parseInlineFormatting trimmedLine)] }

/-- The values of the variables of `parseMarkdown` before the loop. -/
def initialState : ParserState :=
  { elements := [], currentList := false, currentListItems := [], listType := ListType.ul }

/-- The function `parseMarkdown`: split the text at newlines, run the loop body
on every line in order, close the list still open and return `elements`. -/
def parseMarkdown (text : Str) : List Block :=
  (closeList ((splitLines text).foldl processLine initialState)).elements

/-! ## The component and the preprocessor

`formatChatGPTAnalysis` of `src/DiagnosticResults.jsx` applies eight global
`replace` calls in a row.  A pattern is kept as a function that, run at the
head of the remaining text, returns the length of its match there and the
replacement text; `replaceAll` is the global `replace` loop.  In every pattern
the greedy quantifiers `\d+` and `\s*` are followed by something that no digit,
respectively no white-space code unit, can start, and no alternative of an
alternation begins another one, so the first attempt of the backtracking
matcher is the only one that can succeed. -/

/-- The component `MarkdownRenderer`: `null` (here `none`) when `content` is
absent or empty, otherwise the elements of `parseMarkdown(content)`. -/
def markdownRenderer (content : Option Str) : Option (List Block) :=
  match content with
  | none => none
  | some text => if text.length = 0 then none else some (parseMarkdown text)

/-- The blocks that a render of `content` shows: none at all when the component
returns `null`. -/
def renderedBlocks (content : Option Str) : List Block :=
  match markdownRenderer content with
  | none => []
  | some blocks => blocks

/-- Canonicalisation of a code unit under the `i` flag, as far as a comparison
with an ASCII pattern character can see it: an ASCII lower-case letter becomes
its upper-case letter; any other code unit stays apart from every ASCII
character (the engine never maps a code unit of value 128 or more to one
below 128). -/
def canonicalize (c : Char) : Char :=
  if 97 ≤ c.toNat ∧ c.toNat ≤ 122 then Char.ofNat (c.toNat - 32) else c

/-- A literal of a pattern with the `i` flag, at the head of `s`: the text after
the literal. -/
def matchLiteral : Str → Str → Option Str
  | [], s => some s
  | _ :: _, [] => none
  | p :: ps, c :: cs =>
    if canonicalize p = canonicalize c then matchLiteral ps cs else none

/-- An alternation `(A|B|..)` of literals with the `i` flag, at the head of `s`:
the captured text and the text after it, for the first alternative that
matches. -/
def matchAlternatives : List Str → Str → Option (Str × Str)
  | [], _ => none
  | a :: rest, s =>
    match matchLiteral a s with
    | some after => some (s.take a.length, after)
    | none => matchAlternatives rest s

/-- The call `text.replace(pattern, replacement)` for a global pattern that
never matches the empty string.  `skip` is the number of code units of the
previous match still to pass.  Where the pattern matches, the replacement is
written and the search resumes after the match; elsewhere the code unit is
copied. -/
def replaceAll (pattern : Str → Option (Nat × Str)) : Nat → Str → Str
  | _, [] => []
  | skip + 1, _ :: cs => replaceAll pattern skip cs
  | 0, c :: cs =>
    match pattern (c :: cs) with
    | some (len, replacement) => replacement ++ replaceAll pattern (len - 1) cs
    | none => c :: replaceAll pattern 0 cs

/-- The section names of the first pattern. -/
def sectionNames : List Str :=
  ["PRIMARY DIAGNOSIS".toList, "ROOT CAUSES".toList, "IMMEDIATE ACTIONS".toList,
   "SAFETY WARNINGS".toList, "REPAIR ESTIMATE".toList]

/-- The sub-section names of the second pattern. -/
def subsectionNames : List Str :=
  ["Compressor Failure".toList, "Refrigerant Leak".toList, "Electrical Issues".toList,
   "Fan Motor".toList, "Control Board".toList]

/-- The tool names of the fourth pattern. -/
def toolNames : List Str :=
  ["multimeter".toList, "manifold gauge".toList, "leak detector".toList, "ohmmeter".toList]

/-- The safety keywords of the fifth pattern. -/
def safetyKeywords : List Str :=
  ["Always".toList, "Never".toList, "Caution".toList, "Warning".toList, "Important".toList]

/-- The pattern `/(\d+\.\s*)(PRIMARY DIAGNOSIS|..|REPAIR ESTIMATE):/gi` with the
replacement `'\n## $2\n\n'`. -/
def sectionPattern (s : Str) : Option (Nat × Str) :=
  let digits := s.takeWhile isDigit
  if digits.length = 0 then none
  else
    match s.dropWhile isDigit with
    | c :: rest =>
      if c = '.' then
        let spaces := rest.takeWhile isWhiteSpace
        match matchAlternatives sectionNames (rest.dropWhile isWhiteSpace) with
        | some (name, c' :: _) =>
          if c' = ':' then
            some (digits.length + 1 + spaces.length + name.length + 1,
              ['\n', '#', '#', ' '] ++ name ++ ['\n', '\n'])
          else none
        | _ => none
      else none
    | [] => none

/-- The pattern `/(-\s*)(Compressor Failure|..|Control Board)/gi` with the
replacement `'\n### $2\n\n'`. -/
def subsectionPattern (s : Str) : Option (Nat × Str) :=
  match s with
  | c :: rest =>
    if c = '-' then
      let spaces := rest.takeWhile isWhiteSpace
      match matchAlternatives subsectionNames (rest.dropWhile isWhiteSpace) with
      | some (name, _) =>
        some (1 + spaces.length + name.length, ['\n', '#', '#', '#', ' '] ++ name ++ ['\n', '\n'])
      | none => none
    else none
  | [] => none

/-- The pattern `/\((\d+%\s*likelihood)\)/gi` with the replacement
`' **($1)**'`. -/
def likelihoodPattern (s : Str) : Option (Nat × Str) :=
  match s with
  | c :: rest =>
    if c = '(' then
      let digits := rest.takeWhile isDigit
      if digits.length = 0 then none
      else
        match rest.dropWhile isDigit with
        | p :: rest' =>
          if p = '%' then
            let spaces := rest'.takeWhile isWhiteSpace
            match matchLiteral "likelihood".toList (rest'.dropWhile isWhiteSpace) with
            | some (c' :: _) =>
              if c' = ')' then
                let group := rest.take (digits.length + 1 + spaces.length + 10)
                some (1 + group.length + 1, [' ', '*', '*', '('] ++ group ++ [')', '*', '*'])
              else none
            | _ => none
          else none
        | [] => none
    else none
  | [] => none

/-- The pattern `/(multimeter|manifold gauge|leak detector|ohmmeter)/gi` with
the replacement of `$1` between two backticks. -/
def toolPattern (s : Str) : Option (Nat × Str) :=
  match matchAlternatives toolNames s with
  | some (name, _) => some (name.length, [backtick] ++ name ++ [backtick])
  | none => none

/-- The pattern `/(Always|Never|Caution|Warning|Important)/gi` with the
replacement `'**$1**'`. -/
def safetyPattern (s : Str) : Option (Nat × Str) :=
  match matchAlternatives safetyKeywords s with
  | some (name, _) => some (name.length, ['*', '*'] ++ name ++ ['*', '*'])
  | none => none

/-- The pattern `/(\d+-\d+\s*hours?)/gi` with the replacement `'**$1**'`. -/
def hoursPattern (s : Str) : Option (Nat × Str) :=
  let digits := s.takeWhile isDigit
  if digits.length = 0 then none
  else
    match s.dropWhile isDigit with
    | c :: rest =>
      if c = '-' then
        let digits' := rest.takeWhile isDigit
        if digits'.length = 0 then none
        else
          let rest' := rest.dropWhile isDigit
          let spaces := rest'.takeWhile isWhiteSpace
          match matchLiteral "hour".toList (rest'.dropWhile isWhiteSpace) with
          | some after =>
            let plural :=
              match after with
              | c' :: _ => if canonicalize c' = 'S' then 1 else 0
              | [] => 0
            let len := digits.length + 1 + digits'.length + spaces.length + 4 + plural
            some (len, ['*', '*'] ++ s.take len ++ ['*', '*'])
          | none => none
      else none
    | [] => none

/-- The pattern `/\.\s*-\s*/g` with the replacement `'.\n\n- '`. -/
def bulletBreakPattern (s : Str) : Option (Nat × Str) :=
  match s with
  | c :: rest =>
    if c = '.' then
      let spaces := rest.takeWhile isWhiteSpace
      match rest.dropWhile isWhiteSpace with
      | h :: rest' =>
        if h = '-' then
          some (1 + spaces.length + 1 + (rest'.takeWhile isWhiteSpace).length,
            ['.', '\n', '\n', '-', ' '])
        else none
      | [] => none
    else none
  | [] => none

/-- The pattern `/\.\s*\d+\./g` with the replacement `'.\n\n$&'`, where `$&` is
the whole match. -/
def numberBreakPattern (s : Str) : Option (Nat × Str) :=
  match s with
  | c :: rest =>
    if c = '.' then
      let spaces := rest.takeWhile isWhiteSpace
      let rest' := rest.dropWhile isWhiteSpace
      let digits := rest'.takeWhile isDigit
      if digits.length = 0 then none
      else
        match rest'.dropWhile isDigit with
        | p :: _ =>
          if p = '.' then
            let len := 1 + spaces.length + digits.length + 1
            some (len, ['.', '\n', '\n'] ++ s.take len)
          else none
        | [] => none
    else none
  | [] => none

/-- The function `formatChatGPTAnalysis`: the empty string for an absent or
empty `analysis`, otherwise the eight replacements applied in order, each to
the output of the one before. -/
def formatChatGPTAnalysis (analysis : Option Str) : Str :=
  match analysis with
  | none => []
  | some text =>
    if text.length = 0 then []
    else
      let formatted := text
      let formatted := replaceAll sectionPattern 0 formatted
      let formatted := replaceAll subsectionPattern 0 formatted
      let formatted := replaceAll likelihoodPattern 0 formatted
      let formatted := replaceAll toolPattern 0 formatted
      let formatted := replaceAll safetyPattern 0 formatted
      let formatted := replaceAll hoursPattern 0 formatted
      let formatted := replaceAll bulletBreakPattern 0 formatted
      let formatted := replaceAll numberBreakPattern 0 formatted
      formatted

/-! ## Specification vocabulary -/

/-- One element of a flattened document: the blocks other than lists, and the
single items of the lists, each item tagged with the orderedness of its list. -/
inductive Elem where
  | spacer
  | heading (level : Nat) (text : List InlineRun)
  | item (ordered : Bool) (text : List InlineRun)
  | paragraph (text : List InlineRun)
  deriving DecidableEq

/-- The kind of an element, without its inline content. -/
inductive ElemKind where
  | spacer
  | heading2
  | heading3
  | unorderedItem
  | orderedItem
  | paragraph
  deriving DecidableEq

/-- The kind of an element.  A heading of a level other than 2 counts as level
3; `parseMarkdown` builds levels 2 and 3 only. -/
def Elem.kind : Elem → ElemKind
  | .spacer => .spacer
  | .heading level _ => if level = 2 then .heading2 else .heading3
  | .item ordered _ => if ordered then .orderedItem else .unorderedItem
  | .paragraph _ => .paragraph

/-- The elements of one block: a list gives its items in order. -/
def Block.elems : Block → List Elem
  | .heading level text => [Elem.heading level text]
  | .paragraph text => [Elem.paragraph text]
  | .list ordered items => items.map (Elem.item ordered)
  | .spacer => [Elem.spacer]

/-- Flattening of a document: every list block is replaced by its items. -/
def flatten : List Block → List Elem
  | [] => []
  | b :: bs => b.elems ++ flatten bs

/-- The classification table of the specification, applied to a string `t`:
spacer if `t` is empty or white space only, heading of level 2 if it starts with
`"## "`, heading of level 3 if it starts with `"### "`, unordered item if it
starts with `"- "` or `"* "`, ordered item if it matches `^\d+\.\s`, paragraph
otherwise. -/
def kindOf (t : Str) : ElemKind :=
  if t.all isWhiteSpace then .spacer
  else if startsWith t ['#', '#', ' '] then .heading2
  else if startsWith t ['#', '#', '#', ' '] then .heading3
  else if startsWith t ['-', ' '] || startsWith t ['*', ' '] then .unorderedItem
  else if (stripOrderedMarker t).isSome then .orderedItem
  else .paragraph

/-- The element that one line contributes to the flattened document, with its
inline content: the classification is made on the trimmed line. -/
def lineElem (line : Str) : Elem :=
  let t := trim line
  if t = [] then .spacer
  else if startsWith t ['#', '#', ' '] then .heading 2 (parseInlineFormatting (trim (t.drop 3)))
  else if startsWith t ['#', '#', '#', ' '] then .heading 3 (parseInlineFormatting (trim (t.drop 4)))
  else if startsWith t ['-', ' '] || startsWith t ['*', ' '] then
    .item false (parseInlineFormatting (trim (t.drop 2)))
  else
    match stripOrderedMarker t with
    | some rest => .item true (parseInlineFormatting (trim rest))
    | none => .paragraph (parseInlineFormatting t)

/-- The effect on the parser state of a line that contributes the element `e`:
a list item joins the open list of its type, after the open list of the other
type (if any) is pushed; every other element closes the open list and is
pushed. -/
def applyElem (st : ParserState) : Elem → ParserState
  | .spacer =>
    { closeList st with elements := (closeList st).elements ++ [Block.spacer] }
  | .heading level text =>
    { closeList st with elements := (closeList st).elements ++ [Block.heading level text] }
  | .paragraph text =>
    { closeList st with elements := (closeList st).elements ++ [Block.paragraph text] }
  | .item ordered text =>
    let ty := if ordered then ListType.ol else ListType.ul
    let st :=
      if st.listType ≠ ty then
        let st :=
          if st.currentList then
            { st with
              elements := st.elements ++ [Block.list (!ordered) st.currentListItems],
              currentListItems := [] }
          else st
        { st with listType := ty }
      else st
    { st with currentList := true, currentListItems := st.currentListItems ++ [text] }

/-- A block is well formed when, if it is a list, it has at least one item. -/
def Block.wellFormed : Block → Bool
  | .list _ items => !items.isEmpty
  | _ => true

/-- The list item that a line contributes, with the orderedness of its list;
`none` for a line that is not a list-item line. -/
def listItem (line : Str) : Option (Bool × List InlineRun) :=
  match lineElem line with
  | .item ordered text => some (ordered, text)
  | _ => none

/-- The maximal runs of a sequence of tagged items: consecutive items with the
same tag are collected into one group, and a group ends where the tag changes. -/
def groupRuns : List (Bool × List InlineRun) → List (Bool × List (List InlineRun))
  | [] => []
  | (o, x) :: rest =>
    match groupRuns rest with
    | (o', xs) :: gs => if o = o' then (o, x :: xs) :: gs else (o, [x]) :: (o', xs) :: gs
    | [] => [(o, [x])]

/-- The list block of one run. -/
def runBlock (g : Bool × List (List InlineRun)) : Block := Block.list g.1 g.2

/-- Two blocks are lists of different orderedness. -/
def SwitchesType (a b : Block) : Prop :=
  ∃ o items items', a = Block.list o items ∧ b = Block.list (!o) items'

/-- The string starts with one of the block markers of `parseMarkdown`: `"## "`,
`"### "`, `"- "`, `"* "` or a numbered-item marker `^\d+\.\s`. -/
def startsWithBlockMarker (t : Str) : Bool :=
  startsWith t ['#', '#', ' '] || startsWith t ['#', '#', '#', ' '] ||
  startsWith t ['-', ' '] || startsWith t ['*', ' '] || (stripOrderedMarker t).isSome

/-- The content of a run, without its delimiters. -/
def InlineRun.content : InlineRun → Str
  | .plain s => s
  | .bold s => s
  | .italic s => s
  | .code s => s

/-- The contents of the runs, concatenated in order. -/
def contents : List InlineRun → Str
  | [] => []
  | r :: rs => r.content ++ contents rs

/-- The pool of candidate matches of `parseInlineFormatting`: the matches of
the bold, the italic and the code pattern, in the order in which they are
pushed to `replacements`. -/
def candidateMatches (text : Str) : List Replacement :=
  execAll ['*', '*'] InlineRun.bold 0 0 text ++
  execAll ['*'] InlineRun.italic 0 0 text ++
  execAll [backtick] InlineRun.code 0 0 text

/-- Two matches do not overlap: one ends where or before the other starts. -/
@[reducible] def NonOverlapping (r r' : Replacement) : Prop :=
  r.endPos ≤ r'.start ∨ r'.endPos ≤ r.start

/-- A run written back as source text: a formatted run between its own
delimiters, a plain run as it is. -/
def InlineRun.rewrap : InlineRun → Str
  | .plain s => s
  | .bold s => ['*', '*'] ++ s ++ ['*', '*']
  | .italic s => ['*'] ++ s ++ ['*']
  | .code s => [backtick] ++ s ++ [backtick]

/-- The runs written back as source text, concatenated in order. -/
def rewrapAll : List InlineRun → Str
  | [] => []
  | r :: rs => r.rewrap ++ rewrapAll rs

/-- The content of a formatted run does not contain the run's own delimiter:
no `**` in a bold run, no `*` in an italic run, no backtick in a code run. -/
def InlineRun.DelimiterFree : InlineRun → Prop
  | .plain _ => True
  | .bold s => ¬ ['*', '*'] <:+: s
  | .italic s => '*' ∉ s
  | .code s => backtick ∉ s

/-- The string `w` is the string `name` written in some mix of upper and lower
case: the two have the same canonicalised code units. -/
@[reducible] def CaseVariant (name w : Str) : Prop :=
  w.map canonicalize = name.map canonicalize

/-- The run is a formatted run: bold, italic or code. -/
def InlineRun.isFormatted : InlineRun → Bool
  | .plain _ => false
  | _ => true

/-- The run is a bold run. -/
def InlineRun.isBold : InlineRun → Bool
  | .bold _ => true
  | _ => false

/-- The run is an italic run. -/
def InlineRun.isItalic : InlineRun → Bool
  | .italic _ => true
  | _ => false

/-- The run is a code run. -/
def InlineRun.isCode : InlineRun → Bool
  | .code _ => true
  | _ => false

/-- The fragment that `parseMarkdown` passes to `parseInlineFormatting` for one
line: `headerText`, `listText` or `trimmedLine`; none for a blank line. -/
def lineFragment (line : Str) : Option Str :=
  let t := trim line
  if t = [] then none
  else if startsWith t ['#', '#', ' '] then some (trim (t.drop 3))
  else if startsWith t ['#', '#', '#', ' '] then some (trim (t.drop 4))
  else if startsWith t ['-', ' '] || startsWith t ['*', ' '] then some (trim (t.drop 2))
  else
    match stripOrderedMarker t with
    | some rest => some (trim rest)
    | none => some t

/-- The inline content of an element; none for a spacer. -/
def Elem.text : Elem → Option (List InlineRun)
  | .spacer => none
  | .heading _ text => some text
  | .item _ text => some text
  | .paragraph text => some text

/-- Lines joined with a newline between two neighbours. -/
def joinLines : List Str → Str
  | [] => []
  | [l] => l
  | l :: l' :: ls => l ++ '\n' :: joinLines (l' :: ls)

/-- The text with every line trimmed. -/
def trimLines (text : Str) : Str :=
  joinLines ((splitLines text).map trim)

/-- The nine keywords of the fourth and fifth pattern. -/
def keywords : List Str := toolNames ++ safetyKeywords

/-- The text contains the keyword as a case-insensitive substring. -/
@[reducible] def ContainsKeyword (kw text : Str) : Prop :=
  kw.map canonicalize <:+: text.map canonicalize

/-! ## Invariants of the loop -/

/-- The elements seen so far: those of the blocks already pushed, followed by
the items of the list still open. -/
def pending (st : ParserState) : List Elem :=
  flatten st.elements ++ st.currentListItems.map (Elem.item (st.listType = ListType.ol))

/-- When no list is open, no items are waiting. -/
def ItemsClosed (st : ParserState) : Prop :=
  st.currentList = false → st.currentListItems = []

/-- Every pushed list has an item, and so has the open list. -/
def ListsNonEmpty (st : ParserState) : Prop :=
  st.elements.all Block.wellFormed = true ∧
    (st.currentList = true → st.currentListItems ≠ [])

/-- The items of the open list, tagged with its orderedness. -/
def openItems (st : ParserState) : List (Bool × List InlineRun) :=
  st.currentListItems.map (fun t => (decide (st.listType = ListType.ol), t))

/-! ## The loop body, line by line -/

theorem processLine_eq_applyElem (st : ParserState) (line : Str) :
    processLine st line = applyElem st (lineElem line) := by
  unfold processLine lineElem
  simp only [List.length_eq_zero]
  by_cases h1 : trim line = []
  · simp only [h1, if_true]; rfl
  simp only [h1, if_false]
  by_cases h2 : startsWith (trim line) ['#', '#', ' '] = true
  · simp only [h2, if_true]; rfl
  simp only [h2, if_false]
  by_cases h3 : startsWith (trim line) ['#', '#', '#', ' '] = true
  · simp only [h3, if_true]; rfl
  simp only [h3, if_false]
  by_cases h4 : (startsWith (trim line) ['-', ' '] || startsWith (trim line) ['*', ' ']) = true
  · simp only [h4, if_true]; rfl
  simp only [h4, if_false]
  cases h : stripOrderedMarker (trim line) <;> rfl

theorem flatten_append (a b : List Block) : flatten (a ++ b) = flatten a ++ flatten b := by
  induction a with
  | nil => rfl
  | cons x xs ih => simp [flatten, ih]

theorem itemsClosed_initial : ItemsClosed initialState := fun _ => rfl

theorem itemsClosed_applyElem (st : ParserState) (e : Elem) (h : ItemsClosed st) :
    ItemsClosed (applyElem st e) := by
  obtain ⟨els, cur, items, ty⟩ := st
  cases e <;> cases cur <;> simp_all [ItemsClosed, applyElem, closeList]

theorem pending_applyElem (st : ParserState) (e : Elem) (h : ItemsClosed st) :
    pending (applyElem st e) = pending st ++ [e] := by
  obtain ⟨els, cur, items, ty⟩ := st
  cases e with
  | item ordered text =>
    cases cur <;> cases ty <;> cases ordered <;>
      simp_all [ItemsClosed, applyElem, pending, flatten_append, flatten, Block.elems]
  | _ =>
    cases cur <;>
      simp_all [ItemsClosed, applyElem, closeList, pending, flatten_append, flatten, Block.elems]

theorem itemsClosed_foldl (lines : List Str) (st : ParserState) (h : ItemsClosed st) :
    ItemsClosed (lines.foldl processLine st) := by
  induction lines generalizing st with
  | nil => exact h
  | cons l ls ih =>
    rw [List.foldl_cons, processLine_eq_applyElem]
    exact ih _ (itemsClosed_applyElem st _ h)

theorem pending_foldl (lines : List Str) (st : ParserState) (h : ItemsClosed st) :
    pending (lines.foldl processLine st) = pending st ++ lines.map lineElem := by
  induction lines generalizing st with
  | nil => simp
  | cons l ls ih =>
    rw [List.foldl_cons, processLine_eq_applyElem,
      ih _ (itemsClosed_applyElem st _ h), pending_applyElem st _ h]
    simp

theorem flatten_closeList (st : ParserState) (h : ItemsClosed st) :
    flatten (closeList st).elements = pending st := by
  obtain ⟨els, cur, items, ty⟩ := st
  cases cur <;> simp_all [ItemsClosed, closeList, pending, flatten_append, flatten, Block.elems]

/-- The flattened document has one element per line, in line order. -/
theorem flatten_parseMarkdown (text : Str) :
    flatten (parseMarkdown text) = (splitLines text).map lineElem := by
  unfold parseMarkdown
  rw [flatten_closeList _ (itemsClosed_foldl _ _ itemsClosed_initial),
    pending_foldl _ _ itemsClosed_initial]
  simp [pending, initialState, flatten]

theorem dropWhile_head_false (p : Char → Bool) (l : Str) (a : Char) (d : Str)
    (h : l.dropWhile p = a :: d) : p a = false := by
  induction l with
  | nil => simp at h
  | cons x xs ih =>
    rw [List.dropWhile_cons] at h
    split at h
    · exact ih h
    · rename_i hx
      injection h with h1 h2
      subst h1
      simpa using hx

theorem trim_all_isWhiteSpace (s : Str) :
    (trim s).all isWhiteSpace = true ↔ trim s = [] := by
  constructor
  · intro h
    unfold trim trimEnd at *
    cases hd : (trimStart s).reverse.dropWhile isWhiteSpace with
    | nil => simp
    | cons a d =>
      have ha := dropWhile_head_false _ _ _ _ hd
      rw [hd] at h
      simp [ha] at h
  · intro h
    simp [h]

theorem kind_lineElem (line : Str) : (lineElem line).kind = kindOf (trim line) := by
  unfold lineElem kindOf
  by_cases h1 : trim line = []
  · simp [h1, Elem.kind]
  have h1' : ¬ (trim line).all isWhiteSpace = true := fun h =>
    h1 ((trim_all_isWhiteSpace line).1 h)
  simp only [h1, h1', if_false]
  by_cases h2 : startsWith (trim line) ['#', '#', ' '] = true
  · simp [h2, Elem.kind]
  simp only [h2, if_false]
  by_cases h3 : startsWith (trim line) ['#', '#', '#', ' '] = true
  · simp [h3, Elem.kind]
  simp only [h3, if_false]
  by_cases h4 : (startsWith (trim line) ['-', ' '] || startsWith (trim line) ['*', ' ']) = true
  · simp only [h4, if_true]; rfl
  simp only [h4, if_false]
  cases h : stripOrderedMarker (trim line) <;> simp [Elem.kind]

theorem listsNonEmpty_initial : ListsNonEmpty initialState := by
  simp [ListsNonEmpty, initialState]

theorem listsNonEmpty_applyElem (st : ParserState) (e : Elem) (h : ListsNonEmpty st) :
    ListsNonEmpty (applyElem st e) := by
  obtain ⟨els, cur, items, ty⟩ := st
  obtain ⟨h1, h2⟩ := h
  cases e with
  | item ordered text =>
    cases cur <;> cases items <;> cases ty <;> cases ordered <;>
      simp_all [ListsNonEmpty, applyElem, Block.wellFormed]
  | _ =>
    cases cur <;> cases items <;>
      simp_all [ListsNonEmpty, applyElem, closeList, Block.wellFormed]

theorem listsNonEmpty_foldl (lines : List Str) (st : ParserState) (h : ListsNonEmpty st) :
    ListsNonEmpty (lines.foldl processLine st) := by
  induction lines generalizing st with
  | nil => exact h
  | cons l ls ih =>
    rw [List.foldl_cons, processLine_eq_applyElem]
    exact ih _ (listsNonEmpty_applyElem st _ h)

theorem wellFormed_closeList (st : ParserState) (h : ListsNonEmpty st) :
    (closeList st).elements.all Block.wellFormed = true := by
  obtain ⟨els, cur, items, ty⟩ := st
  obtain ⟨h1, h2⟩ := h
  cases cur <;> cases items <;> simp_all [closeList, Block.wellFormed]

/-! ## Runs of list items -/

theorem groupRuns_cons_head (o : Bool) (x : List InlineRun) (rest : List (Bool × List InlineRun)) :
    ∃ xs gs, groupRuns ((o, x) :: rest) = (o, xs) :: gs := by
  simp only [groupRuns]
  cases h : groupRuns rest with
  | nil => exact ⟨_, _, rfl⟩
  | cons g gs =>
    obtain ⟨o', xs⟩ := g
    by_cases ho : o = o'
    · simp only [ho, if_true]; exact ⟨_, _, rfl⟩
    · simp only [ho, if_false]; exact ⟨_, _, rfl⟩

theorem groupRuns_same (o : Bool) (x : List InlineRun) (items : List (List InlineRun)) :
    groupRuns ((x :: items).map (fun t => (o, t))) = [(o, x :: items)] := by
  induction items generalizing x with
  | nil => rfl
  | cons y ys ih =>
    have := ih y
    simp only [List.map_cons] at this ⊢
    rw [groupRuns, this]
    simp

theorem groupRuns_switch (o o' : Bool) (h : o ≠ o') (x : List InlineRun)
    (items : List (List InlineRun)) (t : List InlineRun) (rest : List (Bool × List InlineRun)) :
    groupRuns ((x :: items).map (fun t => (o, t)) ++ (o', t) :: rest)
      = (o, x :: items) :: groupRuns ((o', t) :: rest) := by
  induction items generalizing x with
  | nil =>
    obtain ⟨xs, gs, hg⟩ := groupRuns_cons_head o' t rest
    simp only [List.map_cons, List.map_nil, List.cons_append, List.nil_append]
    rw [groupRuns, hg]
    simp [h]
  | cons y ys ih =>
    have := ih y
    simp only [List.map_cons, List.cons_append] at this ⊢
    rw [groupRuns, this]
    simp

theorem groupRuns_chain (l : List (Bool × List InlineRun)) :
    List.Chain' (fun g g' => g'.1 = !g.1) (groupRuns l) := by
  induction l with
  | nil => simp [groupRuns]
  | cons a rest ih =>
    obtain ⟨o, x⟩ := a
    simp only [groupRuns]
    cases h : groupRuns rest with
    | nil => simp
    | cons g gs =>
      obtain ⟨o', xs⟩ := g
      rw [h] at ih
      by_cases ho : o = o'
      · simp only [ho, if_true]
        cases gs with
        | nil => simp
        | cons g2 gs2 =>
          rw [List.chain'_cons] at ih ⊢
          exact ih
      · simp only [ho, if_false]
        rw [List.chain'_cons]
        refine ⟨?_, ih⟩
        cases o <;> cases o' <;> simp_all

theorem closeList_foldl_items (lines : List Str) (st : ParserState)
    (hc : ItemsClosed st) (hn : ListsNonEmpty st)
    (hl : ∀ line ∈ lines, (listItem line).isSome = true) :
    (closeList (lines.foldl processLine st)).elements
      = st.elements ++ (groupRuns (openItems st ++ lines.filterMap listItem)).map runBlock := by
  induction lines generalizing st with
  | nil =>
    obtain ⟨els, cur, items, ty⟩ := st
    cases cur
    · have : items = [] := hc rfl
      subst this
      simp [closeList, openItems, groupRuns]
    · cases items with
      | nil => exact absurd rfl (hn.2 rfl)
      | cons x xs =>
        simp only [List.foldl_nil, List.filterMap_nil, List.append_nil, openItems]
        rw [groupRuns_same]
        simp [closeList, runBlock]
  | cons l ls ih =>
    have hl' : ∀ line ∈ ls, (listItem line).isSome = true :=
      fun line hm => hl line (List.mem_cons_of_mem _ hm)
    have hhead := hl l (List.mem_cons_self _ _)
    rw [List.foldl_cons, processLine_eq_applyElem,
      ih _ (itemsClosed_applyElem st _ hc) (listsNonEmpty_applyElem st _ hn) hl']
    unfold listItem at hhead
    rw [List.filterMap_cons]
    cases he : lineElem l with
    | item o t =>
      simp only [listItem, he]
      obtain ⟨els, cur, items, ty⟩ := st
      cases cur
      · have : items = [] := hc rfl
        subst this
        cases ty <;> cases o <;> simp [applyElem, openItems]
      · cases items with
        | nil => exact absurd rfl (hn.2 rfl)
        | cons x xs =>
          cases ty <;> cases o
          · simp [applyElem, openItems]
          · have := groupRuns_switch false true (by decide) x xs t (ls.filterMap listItem)
            simp only [List.map_cons, List.cons_append] at this
            simp [applyElem, openItems, this, runBlock]
          · have := groupRuns_switch true false (by decide) x xs t (ls.filterMap listItem)
            simp only [List.map_cons, List.cons_append] at this
            simp [applyElem, openItems, this, runBlock]
          · simp [applyElem, openItems]
    | spacer => simp [he] at hhead
    | heading level text => simp [he] at hhead
    | paragraph text => simp [he] at hhead

/-! ## Lines of a text -/

theorem splitLines_of_not_mem (a : Str) (h : '\n' ∉ a) : splitLines a = [a] := by
  induction a with
  | nil => rfl
  | cons c cs ih =>
    have hc : c ≠ '\n' := fun e => h (by simp [e])
    have hcs : '\n' ∉ cs := fun m => h (List.mem_cons_of_mem _ m)
    simp [splitLines, hc, ih hcs]

theorem splitLines_append_newline (a rest : Str) (h : '\n' ∉ a) :
    splitLines (a ++ '\n' :: rest) = a :: splitLines rest := by
  induction a with
  | nil => simp [splitLines]
  | cons c cs ih =>
    have hc : c ≠ '\n' := fun e => h (by simp [e])
    have hcs : '\n' ∉ cs := fun m => h (List.mem_cons_of_mem _ m)
    simp [splitLines, hc, ih hcs]

theorem lineElem_of_listItem (line : Str) (o : Bool) (t : List InlineRun)
    (h : listItem line = some (o, t)) : lineElem line = Elem.item o t := by
  unfold listItem at h
  cases he : lineElem line <;> simp_all

theorem trim_of_all_isWhiteSpace (b : Str) (h : b.all isWhiteSpace = true) : trim b = [] := by
  have : trimStart b = [] := by
    unfold trimStart
    rw [List.dropWhile_eq_nil_iff]
    simpa using h
  simp [trim, this, trimEnd]

theorem lineElem_of_blank (b : Str) (h : b.all isWhiteSpace = true) :
    lineElem b = Elem.spacer := by
  simp [lineElem, trim_of_all_isWhiteSpace b h]

/-! ## The inline matcher on text without a closing delimiter -/

theorem startsWith_cons_of_not_mem (d : Char) (ds s : Str) (h : d ∉ s) :
    startsWith s (d :: ds) = false := by
  cases s with
  | nil => rfl
  | cons c cs =>
    have hc : d ≠ c := fun e => h (by simp [e])
    simp [startsWith, List.isPrefixOf, hc]

theorem lazyUntil_none_of_not_mem (d : Char) (ds s : Str) (h : d ∉ s) :
    lazyUntil (d :: ds) s = none := by
  induction s with
  | nil => simp [lazyUntil]
  | cons c cs ih =>
    have hcs : d ∉ cs := fun m => h (List.mem_cons_of_mem _ m)
    rw [lazyUntil, startsWith_cons_of_not_mem d ds _ h, ih hcs]
    simp

theorem execAll_nil_of_not_mem (d : Char) (ds : Str) (component : Str → InlineRun)
    (skip off : Nat) (s : Str) (h : d ∉ s) :
    execAll (d :: ds) component skip off s = [] := by
  induction s generalizing skip off with
  | nil => cases skip <;> rfl
  | cons c cs ih =>
    have hcs : d ∉ cs := fun m => h (List.mem_cons_of_mem _ m)
    cases skip with
    | zero =>
      rw [execAll, startsWith_cons_of_not_mem d ds _ h]
      simpa using ih 0 (off + 1) hcs
    | succ n =>
      rw [execAll]
      exact ih n (off + 1) hcs

theorem execAll_nil_of_single (d : Char) (component : Str → InlineRun)
    (off : Nat) (a b : Str) (ha : d ∉ a) (hb : d ∉ b) :
    execAll [d] component 0 off (a ++ d :: b) = [] := by
  induction a generalizing off with
  | nil =>
    simp only [List.nil_append]
    rw [execAll]
    simp [startsWith, List.isPrefixOf, lazyUntil_none_of_not_mem d [] b hb,
      execAll_nil_of_not_mem d [] component 0 (off + 1) b hb]
  | cons c cs ih =>
    have hc : d ≠ c := fun e => ha (by simp [e])
    have hcs : d ∉ cs := fun m => ha (List.mem_cons_of_mem _ m)
    simp only [List.cons_append]
    rw [execAll]
    simp [startsWith, List.isPrefixOf, hc, ih (off + 1) hcs]

theorem parseInlineFormatting_of_no_match (text : Str)
    (hb : execAll ['*', '*'] InlineRun.bold 0 0 text = [])
    (hi : execAll ['*'] InlineRun.italic 0 0 text = [])
    (hc : execAll [backtick] InlineRun.code 0 0 text = []) :
    parseInlineFormatting text = [InlineRun.plain text] := by
  unfold parseInlineFormatting
  rw [hb, hi, hc]
  cases text with
  | nil => simp [sortByStart]
  | cons c cs => simp [sortByStart]

/-! ## Trimming -/

theorem dropWhile_eq_self_cons (p : Char → Bool) (c : Char) (cs : Str)
    (h : (c :: cs).dropWhile p = c :: cs) : p c = false := by
  cases hp : p c with
  | false => rfl
  | true =>
    rw [List.dropWhile_cons, hp] at h
    have hlen := (List.dropWhile_suffix (l := cs) p).length_le
    rw [if_pos rfl] at h
    rw [h] at hlen
    simp at hlen

theorem length_trimEnd_le (x : Str) : (trimEnd x).length ≤ x.length := by
  unfold trimEnd
  have := (List.dropWhile_suffix (l := x.reverse) isWhiteSpace).length_le
  simpa using this

theorem trimStart_eq_self_of_trim (h : Str) (ht : trim h = h) : trimStart h = h := by
  apply (List.dropWhile_suffix (l := h) isWhiteSpace).eq_of_length_le
  have h1 := length_trimEnd_le (trimStart h)
  unfold trim at ht
  rw [ht] at h1
  exact h1

theorem trimEnd_eq_self_of_trim (h : Str) (ht : trim h = h) : trimEnd h = h := by
  have h1 := trimStart_eq_self_of_trim h ht
  unfold trim at ht
  rw [h1] at ht
  exact ht

theorem trimEnd_append_self (pre h : Str) (hne : h ≠ []) (ht : trimEnd h = h) :
    trimEnd (pre ++ h) = pre ++ h := by
  unfold trimEnd at *
  have hr : h.reverse.dropWhile isWhiteSpace = h.reverse := by
    have := congrArg List.reverse ht
    simpa using this
  rw [List.reverse_append]
  cases hrev : h.reverse with
  | nil => exact absurd (List.reverse_eq_nil_iff.1 hrev) hne
  | cons c cs =>
    rw [hrev] at hr
    have hc := dropWhile_eq_self_cons _ _ _ hr
    rw [List.cons_append, List.dropWhile_cons, hc]
    simp only [Bool.false_eq_true, if_false]
    rw [← List.cons_append, ← hrev]
    simp

theorem trim_cons_append_self (c : Char) (pre h : Str) (hc : isWhiteSpace c = false)
    (hne : h ≠ []) (ht : trim h = h) : trim (c :: (pre ++ h)) = c :: (pre ++ h) := by
  have h1 : trimStart (c :: (pre ++ h)) = c :: (pre ++ h) := by
    simp [trimStart, List.dropWhile_cons, hc]
  unfold trim
  rw [h1]
  exact trimEnd_append_self (c :: pre) h hne (trimEnd_eq_self_of_trim h ht)

theorem parseInlineFormatting_plain (s : Str) (hstar : '*' ∉ s) (hbt : backtick ∉ s) :
    parseInlineFormatting s = [InlineRun.plain s] :=
  parseInlineFormatting_of_no_match s
    (execAll_nil_of_not_mem _ _ _ _ _ _ hstar)
    (execAll_nil_of_not_mem _ _ _ _ _ _ hstar)
    (execAll_nil_of_not_mem _ _ _ _ _ _ hbt)

theorem lineElem_heading2 (h : Str) (hne : h ≠ []) (ht : trim h = h)
    (hstar : '*' ∉ h) (hbt : backtick ∉ h) :
    lineElem ('#' :: '#' :: ' ' :: h) = Elem.heading 2 [InlineRun.plain h] := by
  have htrim : trim ('#' :: '#' :: ' ' :: h) = '#' :: '#' :: ' ' :: h :=
    trim_cons_append_self '#' ['#', ' '] h (by decide) hne ht
  unfold lineElem
  simp only [htrim]
  simp [startsWith, List.isPrefixOf, ht, parseInlineFormatting_plain h hstar hbt]

theorem lineElem_heading3 (h : Str) (hne : h ≠ []) (ht : trim h = h)
    (hstar : '*' ∉ h) (hbt : backtick ∉ h) :
    lineElem ('#' :: '#' :: '#' :: ' ' :: h) = Elem.heading 3 [InlineRun.plain h] := by
  have htrim : trim ('#' :: '#' :: '#' :: ' ' :: h) = '#' :: '#' :: '#' :: ' ' :: h :=
    trim_cons_append_self '#' ['#', '#', ' '] h (by decide) hne ht
  unfold lineElem
  simp only [htrim]
  simp [startsWith, List.isPrefixOf, ht, parseInlineFormatting_plain h hstar hbt]

theorem lineElem_paragraph (p : Str) (hne : p ≠ []) (ht : trim p = p)
    (hstar : '*' ∉ p) (hbt : backtick ∉ p) (hm : startsWithBlockMarker p = false) :
    lineElem p = Elem.paragraph [InlineRun.plain p] := by
  unfold startsWithBlockMarker at hm
  simp only [Bool.or_eq_false_iff] at hm
  obtain ⟨⟨⟨⟨m1, m2⟩, m3⟩, m4⟩, m5⟩ := hm
  have m5' : stripOrderedMarker p = none := by
    cases hs : stripOrderedMarker p with
    | none => rfl
    | some r => rw [hs] at m5; simp at m5
  unfold lineElem
  simp only [ht]
  simp [hne, m1, m2, m3, m4, m5', parseInlineFormatting_plain p hstar hbt]

/-! ## Claims about the block parser -/

/-- C1 (as stated, refuted): the line `"- "` starts with `"- "`, so the stated
table makes it an unordered-list item, but `parseMarkdown` classifies the
trimmed line `"-"` and returns the paragraph `[Plain "-"]`. -/
theorem c1_raw_line_counterexample :
    parseMarkdown ("- ".toList) = [Block.paragraph [InlineRun.plain ['-']]] ∧
    (splitLines ("- ".toList)).map kindOf = [ElemKind.unorderedItem] ∧
    (flatten (parseMarkdown ("- ".toList))).map Elem.kind
      ≠ (splitLines ("- ".toList)).map kindOf := by
  decide

/-- C1 (amended): flattening `parseMarkdown text` yields exactly one element per
line of `text` split at newlines, in line order; the element of a line depends
on that line alone, and its kind is given by the specification's table applied
to the trimmed line. -/
theorem c1_flatten_one_element_per_line (text : Str) :
    flatten (parseMarkdown text) = (splitLines text).map lineElem ∧
    (flatten (parseMarkdown text)).map Elem.kind
      = (splitLines text).map (fun line => kindOf (trim line)) := by
  have h := flatten_parseMarkdown text
  refine ⟨h, ?_⟩
  rw [h, List.map_map]
  apply List.map_congr_left
  intro line _
  exact kind_lineElem line

/-- C2: for every input string `parseMarkdown` returns a document (the function
is total: it is defined by structural recursion, without fuel and without an
error result), and every list block of that document has at least one item. -/
theorem c2_parse_total_lists_nonempty (text : Str) :
    ∃ doc : List Block, parseMarkdown text = doc ∧ doc.all Block.wellFormed = true :=
  ⟨parseMarkdown text, rfl,
    wellFormed_closeList _ (listsNonEmpty_foldl _ _ listsNonEmpty_initial)⟩

/-- C3: for every input made only of list-item lines, `parseMarkdown` returns
exactly one list block per maximal run of consecutive lines of the same list
type, in order, holding that run's items with that run's orderedness; two
adjacent blocks of the result are lists of different orderedness. -/
theorem c3_one_list_per_run (text : Str)
    (h : ∀ line ∈ splitLines text, (listItem line).isSome = true) :
    parseMarkdown text
      = (groupRuns ((splitLines text).filterMap listItem)).map runBlock ∧
    List.Chain' SwitchesType (parseMarkdown text) := by
  have heq : parseMarkdown text
      = (groupRuns ((splitLines text).filterMap listItem)).map runBlock := by
    unfold parseMarkdown
    rw [closeList_foldl_items _ _ itemsClosed_initial listsNonEmpty_initial h]
    simp [initialState, openItems]
  refine ⟨heq, ?_⟩
  rw [heq, List.chain'_map]
  refine List.Chain'.imp ?_ (groupRuns_chain _)
  intro g g' hg
  exact ⟨g.1, g.2, g'.2, rfl, by simp [runBlock, hg]⟩

/-- C3, witness: `"- a\n1. b\n- c"` gives unordered[a], ordered[b],
unordered[c]. -/
theorem c3_one_list_per_run_witness :
    (∀ line ∈ splitLines ("- a\n1. b\n- c".toList), (listItem line).isSome = true) ∧
    parseMarkdown ("- a\n1. b\n- c".toList)
      = [Block.list false [[InlineRun.plain ['a']]],
         Block.list true [[InlineRun.plain ['b']]],
         Block.list false [[InlineRun.plain ['c']]]] ∧
    List.Chain' SwitchesType (parseMarkdown ("- a\n1. b\n- c".toList)) :=
  ⟨by decide,
   ((c3_one_list_per_run ("- a\n1. b\n- c".toList) (by decide)).1).trans (by decide),
   (c3_one_list_per_run ("- a\n1. b\n- c".toList) (by decide)).2⟩

/-- C4: two list-item lines `l1`, `l2` of the same list type separated by one
blank line `b` (empty or white space only) give two list blocks with a spacer
between them, not one merged list. -/
theorem c4_blank_line_splits_list (l1 b l2 : Str) (o : Bool) (i1 i2 : List InlineRun)
    (h1 : '\n' ∉ l1) (hb : '\n' ∉ b) (h2 : '\n' ∉ l2)
    (hblank : b.all isWhiteSpace = true)
    (hl1 : listItem l1 = some (o, i1)) (hl2 : listItem l2 = some (o, i2)) :
    parseMarkdown (l1 ++ '\n' :: (b ++ '\n' :: l2))
      = [Block.list o [i1], Block.spacer, Block.list o [i2]] := by
  unfold parseMarkdown
  rw [splitLines_append_newline _ _ h1, splitLines_append_newline _ _ hb,
    splitLines_of_not_mem _ h2]
  simp only [List.foldl_cons, List.foldl_nil, processLine_eq_applyElem,
    lineElem_of_listItem _ _ _ hl1, lineElem_of_listItem _ _ _ hl2,
    lineElem_of_blank _ hblank]
  cases o <;> simp [applyElem, closeList, initialState]

/-- C4, witness: `"- a\n\n- b"` gives unordered[a], spacer, unordered[b]. -/
theorem c4_blank_line_splits_list_witness :
    (listItem ("- a".toList) = some (false, [InlineRun.plain ['a']]) ∧
      listItem ("- b".toList) = some (false, [InlineRun.plain ['b']])) ∧
    parseMarkdown ("- a\n\n- b".toList)
      = [Block.list false [[InlineRun.plain ['a']]], Block.spacer,
         Block.list false [[InlineRun.plain ['b']]]] :=
  ⟨by decide,
   c4_blank_line_splits_list ("- a".toList) [] ("- b".toList) false
    [InlineRun.plain ['a']] [InlineRun.plain ['b']]
    (by decide) (by decide) (by decide) (by decide) (by decide) (by decide)⟩

/-- C5 (as stated, refuted): the heading text `"a\nb"` is non-empty, has no
leading or trailing white space and no `*` or backtick, and the paragraph text
`"c"` meets the stated conditions too, but `"## a\nb\nc"` has three lines and
parses to a heading and two paragraphs, not to the stated heading and
paragraph. -/
theorem c5_newline_counterexample :
    ("a\nb".toList ≠ [] ∧ trim ("a\nb".toList) = "a\nb".toList ∧
      '*' ∉ "a\nb".toList ∧ backtick ∉ "a\nb".toList) ∧
    ("c".toList ≠ [] ∧ trim ("c".toList) = "c".toList ∧
      '*' ∉ "c".toList ∧ backtick ∉ "c".toList ∧ startsWithBlockMarker ("c".toList) = false) ∧
    parseMarkdown ("## ".toList ++ "a\nb".toList ++ "\n".toList ++ "c".toList)
      = [Block.heading 2 [InlineRun.plain ['a']], Block.paragraph [InlineRun.plain ['b']],
         Block.paragraph [InlineRun.plain ['c']]] ∧
    parseMarkdown ("## ".toList ++ "a\nb".toList ++ "\n".toList ++ "c".toList)
      ≠ [Block.heading 2 [InlineRun.plain ("a\nb".toList)],
         Block.paragraph [InlineRun.plain ("c".toList)]] := by
  decide

/-- C5 (amended): for every non-empty heading text `h` and paragraph text `p`
that contain no newline, have no leading or trailing white space and contain no
`*` or backtick, `p` not starting with a block marker,
`parseMarkdown ("## " ++ h ++ "\n" ++ p)` is the level-2 heading `[Plain h]`
followed by the paragraph `[Plain p]`, and with `"### "` the heading has level 3
and the same text. -/
theorem c5_heading_then_paragraph (h p : Str)
    (hne : h ≠ []) (pne : p ≠ [])
    (hnl : '\n' ∉ h) (pnl : '\n' ∉ p)
    (hh : trim h = h) (hp : trim p = p)
    (hstar : '*' ∉ h) (hbt : backtick ∉ h)
    (pstar : '*' ∉ p) (pbt : backtick ∉ p)
    (hm : startsWithBlockMarker p = false) :
    parseMarkdown (['#', '#', ' '] ++ h ++ ['\n'] ++ p)
      = [Block.heading 2 [InlineRun.plain h], Block.paragraph [InlineRun.plain p]] ∧
    parseMarkdown (['#', '#', '#', ' '] ++ h ++ ['\n'] ++ p)
      = [Block.heading 3 [InlineRun.plain h], Block.paragraph [InlineRun.plain p]] := by
  have n2 : '\n' ∉ '#' :: '#' :: ' ' :: h := by
    simp only [List.mem_cons, not_or]
    exact ⟨by decide, by decide, by decide, hnl⟩
  have n3 : '\n' ∉ '#' :: '#' :: '#' :: ' ' :: h := by
    simp only [List.mem_cons, not_or]
    exact ⟨by decide, by decide, by decide, by decide, hnl⟩
  have s2 := splitLines_append_newline _ p n2
  have s3 := splitLines_append_newline _ p n3
  rw [splitLines_of_not_mem p pnl] at s2 s3
  simp only [List.cons_append] at s2 s3
  constructor
  · unfold parseMarkdown
    simp only [List.cons_append, List.nil_append, List.append_assoc]
    simp only [s2, List.foldl_cons, List.foldl_nil, processLine_eq_applyElem,
      lineElem_heading2 h hne hh hstar hbt, lineElem_paragraph p pne hp pstar pbt hm]
    simp [applyElem, closeList, initialState]
  · unfold parseMarkdown
    simp only [List.cons_append, List.nil_append, List.append_assoc]
    simp only [s3, List.foldl_cons, List.foldl_nil, processLine_eq_applyElem,
      lineElem_heading3 h hne hh hstar hbt, lineElem_paragraph p pne hp pstar pbt hm]
    simp [applyElem, closeList, initialState]

/-- C5, witness: `"## Root Causes\nSome text"`. -/
theorem c5_heading_then_paragraph_witness :
    parseMarkdown (['#', '#', ' '] ++ "Root Causes".toList ++ ['\n'] ++ "Some text".toList)
      = [Block.heading 2 [InlineRun.plain ("Root Causes".toList)],
         Block.paragraph [InlineRun.plain ("Some text".toList)]] ∧
    parseMarkdown (['#', '#', '#', ' '] ++ "Root Causes".toList ++ ['\n'] ++ "Some text".toList)
      = [Block.heading 3 [InlineRun.plain ("Root Causes".toList)],
         Block.paragraph [InlineRun.plain ("Some text".toList)]] :=
  c5_heading_then_paragraph ("Root Causes".toList) ("Some text".toList)
    (by decide) (by decide) (by decide) (by decide) (by decide) (by decide)
    (by decide) (by decide) (by decide) (by decide) (by decide)

/-! ## Claims about the inline resolver -/

/-- C6 (evaluation at the failing input): on the fragment
``"Check the **compressor** using a `multimeter`"`` the italic pattern matches
each `**` delimiter as an italic span with empty content, at offsets 10 and 22;
all matches are emitted, so the result holds two italic runs and the bold text
a second time as plain text, instead of `[Plain, Bold, Plain, Code]`. -/
theorem c6_bold_delimiters_matched_as_italic :
    (execAll ['*'] InlineRun.italic 0 0 ("Check the **compressor** using a `multimeter`".toList)).map
        (fun r => (r.start, r.endPos, r.component))
      = [(10, 12, InlineRun.italic []), (22, 24, InlineRun.italic [])] ∧
    parseInlineFormatting ("Check the **compressor** using a `multimeter`".toList)
      = [InlineRun.plain ("Check the ".toList), InlineRun.bold ("compressor".toList),
         InlineRun.italic [], InlineRun.plain ("compressor".toList), InlineRun.italic [],
         InlineRun.plain (" using a ".toList), InlineRun.code ("multimeter".toList)] := by
  decide

/-- C7 (evaluation at the failing inputs): on `"**a**"` the runs are
`[Bold a, Italic "", Plain a, Italic ""]`, whose contents concatenate to `"aa"`,
while the fragment without its delimiters is `"a"`; on `"*a**b**"`, where no two
matches start at the same offset, the contents concatenate to `"abb*"`. -/
theorem c7_contents_duplicated :
    parseInlineFormatting ("**a**".toList)
      = [InlineRun.bold ['a'], InlineRun.italic [], InlineRun.plain ['a'], InlineRun.italic []] ∧
    contents (parseInlineFormatting ("**a**".toList)) = "aa".toList ∧
    parseInlineFormatting ("*a**b**".toList)
      = [InlineRun.italic ['a'], InlineRun.bold ['b'], InlineRun.italic ['b'],
         InlineRun.plain ['*']] ∧
    contents (parseInlineFormatting ("*a**b**".toList)) = "abb*".toList := by
  decide

/-- C8: for every string `s` containing no `*` and no backtick,
`parseInlineFormatting s` is exactly the single run `[Plain s]`. -/
theorem c8_plain_text_single_run (s : Str) (hstar : '*' ∉ s) (hbt : backtick ∉ s) :
    parseInlineFormatting s = [InlineRun.plain s] :=
  parseInlineFormatting_plain s hstar hbt

/-- C8, witness: the fragment `"Some text"`. -/
theorem c8_plain_text_single_run_witness :
    ('*' ∉ "Some text".toList ∧ backtick ∉ "Some text".toList) ∧
    parseInlineFormatting ("Some text".toList) = [InlineRun.plain ("Some text".toList)] :=
  ⟨⟨by decide, by decide⟩, c8_plain_text_single_run ("Some text".toList) (by decide) (by decide)⟩

/-- C9 (evaluation at the failing input): on `"Use **caution"`, whose only
delimiter characters are one unterminated `**`, the bold pattern finds nothing
but the italic pattern records the span 4..6 with empty content; the result is
`[Plain "Use ", Italic "", Plain "caution"]`, in which the `**` is gone. -/
theorem c9_unterminated_bold_matched_as_italic :
    execAll ['*', '*'] InlineRun.bold 0 0 ("Use **caution".toList) = [] ∧
    (execAll ['*'] InlineRun.italic 0 0 ("Use **caution".toList)).map
        (fun r => (r.start, r.endPos, r.component)) = [(4, 6, InlineRun.italic [])] ∧
    parseInlineFormatting ("Use **caution".toList)
      = [InlineRun.plain ("Use ".toList), InlineRun.italic [],
         InlineRun.plain ("caution".toList)] := by
  decide

/-- C10: for every fragment whose only delimiter character is a single backtick
(`a` and `b` hold no backtick and no `*`), no span is recorded and the whole
fragment, backtick included, is returned as the single run `[Plain fragment]`. -/
theorem c10_single_backtick_literal (a b : Str)
    (ha : backtick ∉ a) (hb : backtick ∉ b) (hsa : '*' ∉ a) (hsb : '*' ∉ b) :
    execAll ['*', '*'] InlineRun.bold 0 0 (a ++ backtick :: b) ++
      execAll ['*'] InlineRun.italic 0 0 (a ++ backtick :: b) ++
      execAll [backtick] InlineRun.code 0 0 (a ++ backtick :: b) = [] ∧
    parseInlineFormatting (a ++ backtick :: b) = [InlineRun.plain (a ++ backtick :: b)] := by
  have hstar : '*' ∉ a ++ backtick :: b := by
    simp only [List.mem_append, List.mem_cons, not_or]
    exact ⟨hsa, by decide, hsb⟩
  have h1 := execAll_nil_of_not_mem '*' ['*'] InlineRun.bold 0 0 _ hstar
  have h2 := execAll_nil_of_not_mem '*' [] InlineRun.italic 0 0 _ hstar
  have h3 := execAll_nil_of_single backtick InlineRun.code 0 a b ha hb
  exact ⟨by rw [h1, h2, h3]; rfl, parseInlineFormatting_of_no_match _ h1 h2 h3⟩

/-- C10, witness: the fragment ``"Use the `meter"``. -/
theorem c10_single_backtick_literal_witness :
    (backtick ∉ "Use the ".toList ∧ backtick ∉ "meter".toList ∧
      '*' ∉ "Use the ".toList ∧ '*' ∉ "meter".toList) ∧
    parseInlineFormatting ("Use the ".toList ++ backtick :: "meter".toList)
      = [InlineRun.plain ("Use the `meter".toList)] :=
  ⟨by decide,
   (c10_single_backtick_literal ("Use the ".toList) ("meter".toList)
    (by decide) (by decide) (by decide) (by decide)).2⟩

/-! ## The replace loop -/

theorem replaceAll_skip (m : Str → Option (Nat × Str)) (n : Nat) (s : Str) :
    replaceAll m n s = replaceAll m 0 (s.drop n) := by
  induction n generalizing s with
  | zero => rfl
  | succ k ih =>
    cases s with
    | nil => rfl
    | cons c cs => rw [replaceAll, ih]; rfl

theorem replaceAll_of_match (m : Str → Option (Nat × Str)) (s : Str) (len : Nat) (rep : Str)
    (hlen : 1 ≤ len) (h : m s = some (len, rep)) (hs : s ≠ []) :
    replaceAll m 0 s = rep ++ replaceAll m 0 (s.drop len) := by
  cases s with
  | nil => exact absurd rfl hs
  | cons c cs =>
    rw [replaceAll, h]
    simp only
    rw [replaceAll_skip]
    obtain ⟨k, rfl⟩ : ∃ k, len = k + 1 := ⟨len - 1, by omega⟩
    simp

theorem replaceAll_quiet (m : Str → Option (Nat × Str)) (pre rest : Str)
    (h : ∀ a b, pre = a ++ b → b ≠ [] → m (b ++ rest) = none) :
    replaceAll m 0 (pre ++ rest) = pre ++ replaceAll m 0 rest := by
  induction pre with
  | nil => rfl
  | cons c cs ih =>
    have h0 : m (c :: cs ++ rest) = none := h [] (c :: cs) rfl (by simp)
    have h1 : ∀ a b, cs = a ++ b → b ≠ [] → m (b ++ rest) = none :=
      fun a b hab hb => h (c :: a) b (by simp [hab]) hb
    rw [List.cons_append, replaceAll, ← List.cons_append, h0]
    simp [ih h1]

theorem replaceAll_of_first (m : Str → Option (Nat × Str)) (first : Char → Bool)
    (hm : ∀ c cs, first c = false → m (c :: cs) = none) (pre rest : Str)
    (hpre : ∀ c ∈ pre, first c = false) :
    replaceAll m 0 (pre ++ rest) = pre ++ replaceAll m 0 rest := by
  apply replaceAll_quiet
  intro a b hab hb
  cases b with
  | nil => exact absurd rfl hb
  | cons c cs =>
    exact hm c _ (hpre c (by simp [hab]))

theorem replaceAll_id_of_first (m : Str → Option (Nat × Str)) (first : Char → Bool)
    (hm : ∀ c cs, first c = false → m (c :: cs) = none) (s : Str)
    (hs : ∀ c ∈ s, first c = false) : replaceAll m 0 s = s := by
  have := replaceAll_of_first m first hm s [] hs
  simpa [replaceAll] using this

/-! ## Digit runs -/

theorem takeWhile_digits_append (d : Str) (c : Char) (r : Str)
    (hd : ∀ x ∈ d, isDigit x = true) (hc : isDigit c = false) :
    (d ++ c :: r).takeWhile isDigit = d := by
  induction d with
  | nil => simp [List.takeWhile_cons, hc]
  | cons x xs ih =>
    have hx : isDigit x = true := hd x (by simp)
    have hxs : ∀ y ∈ xs, isDigit y = true := fun y hy => hd y (by simp [hy])
    simp [List.takeWhile_cons, hx, ih hxs]

theorem dropWhile_digits_append (d : Str) (c : Char) (r : Str)
    (hd : ∀ x ∈ d, isDigit x = true) (hc : isDigit c = false) :
    (d ++ c :: r).dropWhile isDigit = c :: r := by
  induction d with
  | nil => simp [List.dropWhile_cons, hc]
  | cons x xs ih =>
    have hx : isDigit x = true := hd x (by simp)
    have hxs : ∀ y ∈ xs, isDigit y = true := fun y hy => hd y (by simp [hy])
    simp [List.dropWhile_cons, hx, ih hxs]

/-! ## First code unit of a match -/

theorem sectionPattern_first (c : Char) (cs : Str) (h : isDigit c = false) :
    sectionPattern (c :: cs) = none := by
  simp [sectionPattern, List.takeWhile_cons, h]

theorem hoursPattern_first (c : Char) (cs : Str) (h : isDigit c = false) :
    hoursPattern (c :: cs) = none := by
  simp [hoursPattern, List.takeWhile_cons, h]

theorem subsectionPattern_first (c : Char) (cs : Str) (h : (c == '-') = false) :
    subsectionPattern (c :: cs) = none := by
  have hc : c ≠ '-' := by simpa using h
  simp [subsectionPattern, hc]

theorem likelihoodPattern_first (c : Char) (cs : Str) (h : (c == '(') = false) :
    likelihoodPattern (c :: cs) = none := by
  have hc : c ≠ '(' := by simpa using h
  simp [likelihoodPattern, hc]

theorem bulletBreakPattern_first (c : Char) (cs : Str) (h : (c == '.') = false) :
    bulletBreakPattern (c :: cs) = none := by
  have hc : c ≠ '.' := by simpa using h
  simp [bulletBreakPattern, hc]

theorem numberBreakPattern_first (c : Char) (cs : Str) (h : (c == '.') = false) :
    numberBreakPattern (c :: cs) = none := by
  have hc : c ≠ '.' := by simpa using h
  simp [numberBreakPattern, hc]

/-- The first code unit of a tool name, canonicalised: `M`, `L` or `O`. -/
theorem toolPattern_first (c : Char) (cs : Str)
    (h : (canonicalize c == 'M' || canonicalize c == 'L' || canonicalize c == 'O') = false) :
    toolPattern (c :: cs) = none := by
  simp only [Bool.or_eq_false_iff, beq_eq_false_iff_ne, ne_eq] at h
  obtain ⟨⟨h1, h2⟩, h3⟩ := h
  have e1 : canonicalize 'm' = 'M' := by decide
  have e2 : canonicalize 'l' = 'L' := by decide
  have e3 : canonicalize 'o' = 'O' := by decide
  simp [toolPattern, toolNames, matchAlternatives, matchLiteral, e1, e2, e3,
    Ne.symm h1, Ne.symm h2, Ne.symm h3]

/-- The first code unit of a safety keyword, canonicalised: `A`, `N`, `C`, `W`
or `I`. -/
theorem safetyPattern_first (c : Char) (cs : Str)
    (h : (canonicalize c == 'A' || canonicalize c == 'N' || canonicalize c == 'C' ||
      canonicalize c == 'W' || canonicalize c == 'I') = false) :
    safetyPattern (c :: cs) = none := by
  simp only [Bool.or_eq_false_iff, beq_eq_false_iff_ne, ne_eq] at h
  obtain ⟨⟨⟨⟨h1, h2⟩, h3⟩, h4⟩, h5⟩ := h
  have e1 : canonicalize 'A' = 'A' := by decide
  have e2 : canonicalize 'N' = 'N' := by decide
  have e3 : canonicalize 'C' = 'C' := by decide
  have e4 : canonicalize 'W' = 'W' := by decide
  have e5 : canonicalize 'I' = 'I' := by decide
  simp [safetyPattern, safetyKeywords, matchAlternatives, matchLiteral, e1, e2, e3, e4, e5,
    Ne.symm h1, Ne.symm h2, Ne.symm h3, Ne.symm h4, Ne.symm h5]

/-! ## Claims about the preprocessor -/

/-- C11: for absent or empty input `formatChatGPTAnalysis` returns the empty
string, and the component renders absent or empty content as `null`, that is
with zero blocks. -/
theorem c11_empty_input :
    formatChatGPTAnalysis none = [] ∧ formatChatGPTAnalysis (some []) = [] ∧
    markdownRenderer none = none ∧ markdownRenderer (some []) = none ∧
    renderedBlocks none = [] ∧ renderedBlocks (some []) = [] := by
  decide


theorem formatChatGPTAnalysis_some (text : Str) (h : text ≠ []) :
    formatChatGPTAnalysis (some text)
      = replaceAll numberBreakPattern 0 (replaceAll bulletBreakPattern 0
          (replaceAll hoursPattern 0 (replaceAll safetyPattern 0
            (replaceAll toolPattern 0 (replaceAll likelihoodPattern 0
              (replaceAll subsectionPattern 0 (replaceAll sectionPattern 0 text))))))) := by
  cases text with
  | nil => exact absurd rfl h
  | cons c cs => simp [formatChatGPTAnalysis]

theorem sectionPattern_digits_dot (d rest : Str) (hd : ∀ x ∈ d, isDigit x = true)
    (hne : d ≠ []) :
    sectionPattern (d ++ '.' :: rest)
      = match matchAlternatives sectionNames (rest.dropWhile isWhiteSpace) with
        | some (name, c' :: _) =>
          if c' = ':' then
            some (d.length + 1 + (rest.takeWhile isWhiteSpace).length + name.length + 1,
              ['\n', '#', '#', ' '] ++ name ++ ['\n', '\n'])
          else none
        | _ => none := by
  have hlen : d.length ≠ 0 := by simpa using hne
  unfold sectionPattern
  simp only [takeWhile_digits_append d '.' rest hd (by decide),
    dropWhile_digits_append d '.' rest hd (by decide), hlen, if_false, if_true]

theorem section_rewrite (d N : Str) (hd : ∀ x ∈ d, isDigit x = true) (hne : d ≠ [])
    (hN : N ∈ sectionNames) :
    replaceAll sectionPattern 0 (d ++ '.' :: ' ' :: (N ++ [':']))
      = ['\n', '#', '#', ' '] ++ N ++ ['\n', '\n'] := by
  have hm : sectionPattern (d ++ '.' :: ' ' :: (N ++ [':']))
      = some (d.length + 1 + 1 + N.length + 1, ['\n', '#', '#', ' '] ++ N ++ ['\n', '\n']) := by
    rw [sectionPattern_digits_dot d _ hd hne]
    simp only [sectionNames, List.mem_cons, List.mem_singleton, List.not_mem_nil, or_false] at hN
    rcases hN with rfl | rfl | rfl | rfl | rfl <;> rfl
  rw [replaceAll_of_match _ _ _ _ (by omega) hm (by simp)]
  have hdrop : (d ++ '.' :: ' ' :: (N ++ [':'])).drop (d.length + 1 + 1 + N.length + 1) = [] := by
    apply List.drop_eq_nil_of_le
    simp
    omega
  rw [hdrop]
  simp [replaceAll]

/-- C12 (as stated, refuted): for the section name `SAFETY WARNINGS` the fifth
rewrite finds the keyword `WARNING` inside the injected heading and wraps it in
bold delimiters, so the section name is not left unchanged. -/
theorem c12_safety_warnings_counterexample :
    formatChatGPTAnalysis (some ("3. SAFETY WARNINGS:".toList))
      = "\n## SAFETY **WARNING**S\n\n".toList ∧
    formatChatGPTAnalysis (some ("3".toList ++ ". ".toList ++ "SAFETY WARNINGS".toList ++ ":".toList))
      ≠ "\n## ".toList ++ "SAFETY WARNINGS".toList ++ "\n\n".toList := by
  decide

/-- C12 (amended): for every non-empty digit string `d` and every section name
`N` among PRIMARY DIAGNOSIS, ROOT CAUSES, IMMEDIATE ACTIONS and REPAIR ESTIMATE,
`formatChatGPTAnalysis (d ++ ". " ++ N ++ ":")` is `"\n## " ++ N ++ "\n\n"`; for
SAFETY WARNINGS it is `"\n## SAFETY **WARNING**S\n\n"`. -/
theorem c12_section_heading (d : Str) (hd : ∀ x ∈ d, isDigit x = true) (hne : d ≠ []) :
    (∀ N ∈ ["PRIMARY DIAGNOSIS".toList, "ROOT CAUSES".toList, "IMMEDIATE ACTIONS".toList,
        "REPAIR ESTIMATE".toList],
      formatChatGPTAnalysis (some (d ++ ['.', ' '] ++ N ++ [':']))
        = ['\n', '#', '#', ' '] ++ N ++ ['\n', '\n']) ∧
    formatChatGPTAnalysis (some (d ++ ['.', ' '] ++ "SAFETY WARNINGS".toList ++ [':']))
      = "\n## SAFETY **WARNING**S\n\n".toList := by
  have key : ∀ N ∈ sectionNames,
      formatChatGPTAnalysis (some (d ++ ['.', ' '] ++ N ++ [':']))
        = replaceAll numberBreakPattern 0 (replaceAll bulletBreakPattern 0
          (replaceAll hoursPattern 0 (replaceAll safetyPattern 0
            (replaceAll toolPattern 0 (replaceAll likelihoodPattern 0
              (replaceAll subsectionPattern 0 (['\n', '#', '#', ' '] ++ N ++ ['\n', '\n']))))))) := by
    intro N hN
    rw [formatChatGPTAnalysis_some _ (by simp [hne])]
    have := section_rewrite d N hd hne hN
    simp only [List.append_assoc, List.cons_append, List.nil_append] at this ⊢
    rw [this]
  constructor
  · intro N hN
    have hN' : N ∈ sectionNames := by
      simp only [List.mem_cons, List.mem_singleton, List.not_mem_nil, or_false] at hN
      rcases hN with rfl | rfl | rfl | rfl <;> decide
    rw [key N hN']
    simp only [List.mem_cons, List.mem_singleton, List.not_mem_nil, or_false] at hN
    rcases hN with rfl | rfl | rfl | rfl <;> decide
  · rw [key _ (by decide)]
    decide

/-- C12, witness: the digit string `"12"`. -/
theorem c12_section_heading_witness :
    formatChatGPTAnalysis (some ("12. ROOT CAUSES:".toList)) = "\n## ROOT CAUSES\n\n".toList ∧
    formatChatGPTAnalysis (some ("12. SAFETY WARNINGS:".toList))
      = "\n## SAFETY **WARNING**S\n\n".toList :=
  ⟨(c12_section_heading ("12".toList) (by decide) (by decide)).1 ("ROOT CAUSES".toList)
      (by decide),
   (c12_section_heading ("12".toList) (by decide) (by decide)).2⟩


/-! ## Texts with a digit run in the middle -/

theorem digit_ne (x y : Char) (hx : isDigit x = true) (hy : isDigit y = false) : x ≠ y := by
  intro e
  rw [e, hy] at hx
  exact Bool.false_ne_true hx

theorem digit_beq (x y : Char) (hx : isDigit x = true) (hy : isDigit y = false) :
    (x == y) = false := by
  simpa using digit_ne x y hx hy

theorem canonicalize_digit (x : Char) (hx : isDigit x = true) : canonicalize x = x := by
  unfold isDigit at hx
  simp only [Bool.and_eq_true, decide_eq_true_eq] at hx
  unfold canonicalize
  rw [if_neg]
  omega

theorem replaceAll_over_digits (m : Str → Option (Nat × Str)) (d rest : Str)
    (hd : ∀ x ∈ d, isDigit x = true)
    (hm : ∀ b : Str, (∀ x ∈ b, isDigit x = true) → b ≠ [] → m (b ++ rest) = none) :
    replaceAll m 0 (d ++ rest) = d ++ replaceAll m 0 rest := by
  apply replaceAll_quiet
  intro a b hab hb
  exact hm b (fun x hx => hd x (by simp [hab, hx])) hb

/-- A pattern that no digit can start, and that matches nowhere in the fixed
parts `A` and `T`, leaves `A ++ d ++ T` unchanged for every digit run `d`. -/
theorem replaceAll_id_around_digits (m : Str → Option (Nat × Str)) (first : Char → Bool)
    (hm : ∀ c cs, first c = false → m (c :: cs) = none)
    (hdig : ∀ x, isDigit x = true → first x = false)
    (A d T : Str) (hA : ∀ c ∈ A, first c = false) (hd : ∀ x ∈ d, isDigit x = true)
    (hT : replaceAll m 0 T = T) :
    replaceAll m 0 (A ++ (d ++ T)) = A ++ (d ++ T) := by
  rw [replaceAll_of_first m first hm A _ hA,
    replaceAll_of_first m first hm d _ (fun x hx => hdig x (hd x hx)), hT]

theorem sectionPattern_digits_other (b : Str) (c : Char) (r : Str)
    (hb : ∀ x ∈ b, isDigit x = true) (hc : isDigit c = false) (hc' : c ≠ '.') :
    sectionPattern (b ++ c :: r) = none := by
  unfold sectionPattern
  simp [takeWhile_digits_append b c r hb hc, dropWhile_digits_append b c r hb hc, hc']

theorem hoursPattern_digits_other (b : Str) (c : Char) (r : Str)
    (hb : ∀ x ∈ b, isDigit x = true) (hc : isDigit c = false) (hc' : c ≠ '-') :
    hoursPattern (b ++ c :: r) = none := by
  unfold hoursPattern
  simp [takeWhile_digits_append b c r hb hc, dropWhile_digits_append b c r hb hc, hc']

/-- A pattern that starts with a digit run and then needs a code unit other
than `c` leaves `A ++ d ++ c :: T` unchanged when it matches nowhere in the
fixed parts. -/
theorem replaceAll_id_digits_then (m : Str → Option (Nat × Str))
    (hm : ∀ c cs, isDigit c = false → m (c :: cs) = none)
    (A d : Str) (c : Char) (T : Str)
    (hA : ∀ x ∈ A, isDigit x = false) (hd : ∀ x ∈ d, isDigit x = true)
    (hrun : ∀ b : Str, (∀ x ∈ b, isDigit x = true) → m (b ++ c :: T) = none)
    (hT : replaceAll m 0 (c :: T) = c :: T) :
    replaceAll m 0 (A ++ (d ++ c :: T)) = A ++ (d ++ c :: T) := by
  rw [replaceAll_of_first m isDigit hm A _ hA,
    replaceAll_over_digits m d _ hd (fun b hb _ => hrun b hb), hT]

theorem likelihoodPattern_digits (d : Str) (hd : ∀ x ∈ d, isDigit x = true) (hne : d ≠ []) :
    likelihoodPattern ('(' :: (d ++ "% likelihood)".toList))
      = some (1 + (d ++ "% likelihood".toList).length + 1,
          [' ', '*', '*', '('] ++ (d ++ "% likelihood".toList) ++ [')', '*', '*']) := by
  have hlen : d.length ≠ 0 := by simpa using hne
  have e : "% likelihood)".toList = '%' :: " likelihood)".toList := by decide
  unfold likelihoodPattern
  simp only [e, takeWhile_digits_append d '%' _ hd (by decide),
    dropWhile_digits_append d '%' _ hd (by decide), hlen, if_true, if_false]
  have hm : matchLiteral "likelihood".toList (List.dropWhile isWhiteSpace " likelihood)".toList)
      = some [')'] := by decide
  have hs : List.takeWhile isWhiteSpace " likelihood)".toList = [' '] := by decide
  simp only [hm, hs, if_true, List.length_singleton]
  have ht : List.take (d.length + 1 + 1 + 10) (d ++ '%' :: " likelihood)".toList)
      = d ++ "% likelihood".toList := by
    rw [List.take_append_eq_append_take]
    have h1 : d.length + 1 + 1 + 10 - d.length = 12 := by omega
    rw [h1, List.take_of_length_le (by omega)]
    rfl
  rw [ht]

theorem likelihood_rewrite (d : Str) (hd : ∀ x ∈ d, isDigit x = true) (hne : d ≠ []) :
    replaceAll likelihoodPattern 0 ('(' :: (d ++ "% likelihood)".toList))
      = [' ', '*', '*', '('] ++ (d ++ "% likelihood".toList) ++ [')', '*', '*'] := by
  rw [replaceAll_of_match _ _ _ _ (by omega) (likelihoodPattern_digits d hd hne) (by simp)]
  have hdrop : ('(' :: (d ++ "% likelihood)".toList)).drop
      (1 + (d ++ "% likelihood".toList).length + 1) = [] := by
    apply List.drop_eq_nil_of_le
    simp
    omega
  rw [hdrop]
  simp [replaceAll]


theorem digit_not_tool_first (x : Char) (hx : isDigit x = true) :
    (canonicalize x == 'M' || canonicalize x == 'L' || canonicalize x == 'O') = false := by
  rw [canonicalize_digit x hx]
  simp [digit_beq x 'M' hx (by decide), digit_beq x 'L' hx (by decide),
    digit_beq x 'O' hx (by decide)]

theorem digit_not_safety_first (x : Char) (hx : isDigit x = true) :
    (canonicalize x == 'A' || canonicalize x == 'N' || canonicalize x == 'C' ||
      canonicalize x == 'W' || canonicalize x == 'I') = false := by
  rw [canonicalize_digit x hx]
  simp [digit_beq x 'A' hx (by decide), digit_beq x 'N' hx (by decide),
    digit_beq x 'C' hx (by decide), digit_beq x 'W' hx (by decide),
    digit_beq x 'I' hx (by decide)]

/-- The rewrites after the likelihood rewrite leave `A ++ d ++ "% likelihood)" ++ B`
unchanged for every digit run `d`, when they match nowhere in the fixed parts. -/
theorem later_rewrites_id_around_digits (A d T : Str) (hd : ∀ x ∈ d, isDigit x = true)
    (hA4 : ∀ c ∈ A,
      (canonicalize c == 'M' || canonicalize c == 'L' || canonicalize c == 'O') = false)
    (hA5 : ∀ c ∈ A, (canonicalize c == 'A' || canonicalize c == 'N' || canonicalize c == 'C' ||
      canonicalize c == 'W' || canonicalize c == 'I') = false)
    (hA6 : ∀ c ∈ A, isDigit c = false)
    (hA7 : ∀ c ∈ A, (c == '.') = false)
    (hT4 : replaceAll toolPattern 0 ('%' :: T) = '%' :: T)
    (hT5 : replaceAll safetyPattern 0 ('%' :: T) = '%' :: T)
    (hT6 : replaceAll hoursPattern 0 ('%' :: T) = '%' :: T)
    (hT7 : replaceAll bulletBreakPattern 0 ('%' :: T) = '%' :: T)
    (hT8 : replaceAll numberBreakPattern 0 ('%' :: T) = '%' :: T) :
    replaceAll numberBreakPattern 0 (replaceAll bulletBreakPattern 0
      (replaceAll hoursPattern 0 (replaceAll safetyPattern 0
        (replaceAll toolPattern 0 (A ++ (d ++ '%' :: T))))))
      = A ++ (d ++ '%' :: T) := by
  rw [replaceAll_id_around_digits toolPattern _ toolPattern_first digit_not_tool_first
      A d _ hA4 hd hT4,
    replaceAll_id_around_digits safetyPattern _ safetyPattern_first digit_not_safety_first
      A d _ hA5 hd hT5,
    replaceAll_id_digits_then hoursPattern hoursPattern_first A d '%' T hA6 hd
      (fun b hb => hoursPattern_digits_other b '%' T hb (by decide) (by decide)) hT6,
    replaceAll_id_around_digits bulletBreakPattern _ bulletBreakPattern_first
      (fun x hx => digit_beq x '.' hx (by decide)) A d _ hA7 hd hT7,
    replaceAll_id_around_digits numberBreakPattern _ numberBreakPattern_first
      (fun x hx => digit_beq x '.' hx (by decide)) A d _ hA7 hd hT8]

/-- The likelihood rewrite on its own input, for every digit run. -/
theorem formatChatGPTAnalysis_likelihood (d : Str) (hd : ∀ x ∈ d, isDigit x = true)
    (hne : d ≠ []) :
    formatChatGPTAnalysis (some ('(' :: (d ++ "% likelihood)".toList)))
      = " **(".toList ++ (d ++ "% likelihood)**".toList) := by
  rw [formatChatGPTAnalysis_some _ (by simp)]
  have e : "% likelihood)".toList = '%' :: " likelihood)".toList := by decide
  have r1 : replaceAll sectionPattern 0 ('(' :: (d ++ "% likelihood)".toList))
      = '(' :: (d ++ "% likelihood)".toList) := by
    rw [e]
    exact replaceAll_id_digits_then sectionPattern sectionPattern_first ['('] d '%' _
      (by decide) hd
      (fun b hb => sectionPattern_digits_other b '%' _ hb (by decide) (by decide)) (by decide)
  have r2 : replaceAll subsectionPattern 0 ('(' :: (d ++ "% likelihood)".toList))
      = '(' :: (d ++ "% likelihood)".toList) :=
    replaceAll_id_around_digits subsectionPattern _ subsectionPattern_first
      (fun x hx => digit_beq x '-' hx (by decide)) ['('] d _ (by decide) hd (by decide)
  have r3 := likelihood_rewrite d hd hne
  have e3 : [' ', '*', '*', '('] ++ (d ++ "% likelihood".toList) ++ [')', '*', '*']
      = " **(".toList ++ (d ++ '%' :: " likelihood)**".toList) := by
    simp
  rw [r1, r2, r3, e3]
  rw [later_rewrites_id_around_digits (" **(".toList) d (" likelihood)**".toList) hd
    (by decide) (by decide) (by decide) (by decide)
    (by decide) (by decide) (by decide) (by decide) (by decide)]
  rfl

/-- C15 (as stated, refuted): the replacement text of the likelihood pattern
starts with a space, so `"(85% likelihood)"` becomes `" **(85% likelihood)**"`. -/
theorem c15_leading_space_counterexample :
    formatChatGPTAnalysis (some ("(85% likelihood)".toList)) = " **(85% likelihood)**".toList ∧
    formatChatGPTAnalysis (some ("(".toList ++ "85".toList ++ "% likelihood)".toList))
      ≠ "**(".toList ++ "85".toList ++ "% likelihood)**".toList := by
  decide

/-- C15 (amended): for every non-empty digit string `d`,
`formatChatGPTAnalysis ("(" ++ d ++ "% likelihood)")` is
`" **(" ++ d ++ "% likelihood)**"`: one space, then the parenthesised likelihood
in bold delimiters. -/
theorem c15_likelihood_bold (d : Str) (hd : ∀ x ∈ d, isDigit x = true) (hne : d ≠ []) :
    formatChatGPTAnalysis (some ("(".toList ++ d ++ "% likelihood)".toList))
      = " **(".toList ++ d ++ "% likelihood)**".toList := by
  have := formatChatGPTAnalysis_likelihood d hd hne
  simpa using this

/-- C15, witness: the digit string `"85"`. -/
theorem c15_likelihood_bold_witness :
    ((∀ x ∈ "85".toList, isDigit x = true) ∧ "85".toList ≠ []) ∧
    formatChatGPTAnalysis (some ("(".toList ++ "85".toList ++ "% likelihood)".toList))
      = " **(".toList ++ "85".toList ++ "% likelihood)**".toList :=
  ⟨by decide, c15_likelihood_bold ("85".toList) (by decide) (by decide)⟩

/-- C14 (evaluation at the failing input): the last pattern matches `".2."` and
its replacement `'.\n\n$&'` writes a period, two newlines and then the whole
match, period included; the text becomes `"Step one.\n\n.2. Step two"`, whose
last line starts with a period and is parsed as a paragraph. -/
theorem c14_period_written_twice :
    numberBreakPattern (".2. Step two".toList) = some (3, ".\n\n.2.".toList) ∧
    formatChatGPTAnalysis (some ("Step one.2. Step two".toList))
      = "Step one.\n\n.2. Step two".toList ∧
    parseMarkdown (formatChatGPTAnalysis (some ("Step one.2. Step two".toList)))
      = [Block.paragraph [InlineRun.plain ("Step one.".toList)], Block.spacer,
         Block.paragraph [InlineRun.plain (".2. Step two".toList)]] := by
  decide


/-! ## Lines that are only a list marker -/

theorem digit_not_whiteSpace (x : Char) (hx : isDigit x = true) : isWhiteSpace x = false := by
  unfold isDigit at hx
  simp only [Bool.and_eq_true, decide_eq_true_eq] at hx
  unfold isWhiteSpace
  simp only [Bool.or_eq_false_iff, Bool.and_eq_false_imp, decide_eq_false_iff_not,
    decide_eq_true_eq]
  omega

theorem trimEnd_append_space (s : Str) : trimEnd (s ++ [' ']) = trimEnd s := by
  unfold trimEnd
  rw [List.reverse_append]
  have : isWhiteSpace ' ' = true := by decide
  simp [List.dropWhile_cons, this]

theorem trim_digits_dot_space (d : Str) (hd : ∀ x ∈ d, isDigit x = true) (hne : d ≠ []) :
    trim (d ++ ['.', ' ']) = d ++ ['.'] := by
  cases d with
  | nil => exact absurd rfl hne
  | cons x xs =>
    have hx : isWhiteSpace x = false := digit_not_whiteSpace x (hd x (by simp))
    have h1 : trimStart (x :: xs ++ ['.', ' ']) = x :: xs ++ ['.', ' '] := by
      simp [trimStart, List.dropWhile_cons, hx]
    have h2 : x :: xs ++ ['.', ' '] = (x :: xs ++ ['.']) ++ [' '] := by simp
    unfold trim
    rw [h1, h2, trimEnd_append_space]
    exact trimEnd_append_self (x :: xs) ['.'] (by simp) (by decide)

theorem stripOrderedMarker_digits_dot (d : Str) (hd : ∀ x ∈ d, isDigit x = true) :
    stripOrderedMarker (d ++ ['.']) = none := by
  unfold stripOrderedMarker
  simp [takeWhile_digits_append d '.' [] hd (by decide),
    dropWhile_digits_append d '.' [] hd (by decide)]

theorem lineElem_digits_dot_space (d : Str) (hd : ∀ x ∈ d, isDigit x = true) (hne : d ≠ []) :
    lineElem (d ++ ['.', ' ']) = Elem.paragraph [InlineRun.plain (d ++ ['.'])] := by
  have hstar : '*' ∉ d ++ ['.'] := by
    simp only [List.mem_append, List.mem_singleton, not_or]
    exact ⟨fun h => digit_ne _ _ (hd _ h) (by decide) rfl, by decide⟩
  have hbt : backtick ∉ d ++ ['.'] := by
    simp only [List.mem_append, List.mem_singleton, not_or]
    exact ⟨fun h => digit_ne _ _ (hd _ h) (by decide) rfl, by decide⟩
  unfold lineElem
  simp only [trim_digits_dot_space d hd hne, stripOrderedMarker_digits_dot d hd,
    parseInlineFormatting_plain _ hstar hbt]
  cases d with
  | nil => exact absurd rfl hne
  | cons x xs =>
    have hx := hd x (by simp)
    have n1 : x ≠ '#' := digit_ne x '#' hx (by decide)
    have n2 : x ≠ '-' := digit_ne x '-' hx (by decide)
    have n3 : x ≠ '*' := digit_ne x '*' hx (by decide)
    simp [startsWith, List.isPrefixOf, Ne.symm n1, Ne.symm n2, Ne.symm n3]

theorem parseMarkdown_single_line (line : Str) (h : '\n' ∉ line) :
    parseMarkdown line = (closeList (applyElem initialState (lineElem line))).elements := by
  unfold parseMarkdown
  rw [splitLines_of_not_mem line h]
  simp [processLine_eq_applyElem]

/-- C18 (as stated, refuted): the line `"- "` is trimmed to `"-"`, which does not
start with `"- "`; the document is the paragraph `[Plain "-"]` and holds no
list. -/
theorem c18_marker_only_counterexample :
    parseMarkdown ("- ".toList) = [Block.paragraph [InlineRun.plain ['-']]] ∧
    parseMarkdown ("- ".toList) ≠ [Block.list false [[]]] ∧
    parseMarkdown ("- ".toList) ≠ [Block.list false [[InlineRun.plain []]]] := by
  decide

/-- C18 (amended): a line that is purely a list marker with no trailing text
gives a paragraph holding the marker without its trailing space: `"-"` for
`"- "`, `"*"` for `"* "`, and `d ++ "."` for digits `d` followed by `". "`. -/
theorem c18_marker_only_is_paragraph :
    parseMarkdown ("- ".toList) = [Block.paragraph [InlineRun.plain ['-']]] ∧
    parseMarkdown ("* ".toList) = [Block.paragraph [InlineRun.plain ['*']]] ∧
    ∀ d : Str, (∀ x ∈ d, isDigit x = true) → d ≠ [] →
      parseMarkdown (d ++ ['.', ' ']) = [Block.paragraph [InlineRun.plain (d ++ ['.'])]] := by
  refine ⟨by decide, by decide, ?_⟩
  intro d hd hne
  have hnl : '\n' ∉ d ++ ['.', ' '] := by
    simp only [List.mem_append, List.mem_cons, List.mem_singleton, List.not_mem_nil,
      or_false, not_or]
    exact ⟨fun h => digit_ne _ _ (hd _ h) (by decide) rfl, by decide, by decide⟩
  rw [parseMarkdown_single_line _ hnl, lineElem_digits_dot_space d hd hne]
  simp [applyElem, closeList, initialState]

/-- C18, witness: the line `"12. "`. -/
theorem c18_marker_only_is_paragraph_witness :
    ((∀ x ∈ "12".toList, isDigit x = true) ∧ "12".toList ≠ []) ∧
    parseMarkdown ("12".toList ++ ['.', ' '])
      = [Block.paragraph [InlineRun.plain ("12".toList ++ ['.'])]] :=
  ⟨by decide, c18_marker_only_is_paragraph.2.2 ("12".toList) (by decide) (by decide)⟩


/-! ## The inline matcher: what a match is -/

theorem startsWith_eq_append (s delim : Str) (h : startsWith s delim = true) :
    s = delim ++ s.drop delim.length := by
  unfold startsWith at h
  rw [ List.isPrefixOf_iff_prefix] at h
  exact ( List.prefix_iff_eq_append.1 h).symm

theorem startsWith_append_self (delim rest : Str) : startsWith (delim ++ rest) delim = true := by
  unfold startsWith
  rw [ List.isPrefixOf_iff_prefix]
  exact List.prefix_append _ _

/-- A successful lazy capture splits the text into the captured group, the
closing delimiter and the rest. -/
theorem lazyUntil_eq_append (delim : Str) (s content : Str)
    (h : lazyUntil delim s = some content) : ∃ rest, s = content ++ delim ++ rest := by
  induction s generalizing content with
  | nil =>
    unfold lazyUntil at h
    split at h
    · rename_i hd
      injection h with h
      subst h; subst hd
      exact ⟨[], rfl⟩
    · exact absurd h (by simp)
  | cons c cs ih =>
    unfold lazyUntil at h
    split at h
    · rename_i hp
      injection h with h
      subst h
      exact ⟨(c :: cs).drop delim.length, by simpa using startsWith_eq_append _ _ hp⟩
    · split at h
      · exact absurd h (by simp)
      · cases hl : lazyUntil delim cs with
        | none => rw [hl] at h; exact absurd h (by simp)
        | some content' =>
          rw [hl] at h
          simp only [Option.map_some'] at h
          injection h with h
          subst h
          obtain ⟨rest, hrest⟩ := ih content' hl
          exact ⟨rest, by simp [hrest]⟩

/-- The lazy capture is minimal: the closing delimiter does not occur inside
the captured group. -/
theorem lazyUntil_no_infix (delim : Str) (hd : delim ≠ []) (s content : Str)
    (h : lazyUntil delim s = some content) : ¬ delim <:+: content := by
  induction s generalizing content with
  | nil =>
    unfold lazyUntil at h
    simp [hd] at h
  | cons c cs ih =>
    unfold lazyUntil at h
    split at h
    · injection h with h
      subst h
      intro hin
      exact hd (List.eq_nil_of_infix_nil hin)
    · rename_i hp
      split at h
      · exact absurd h (by simp)
      · cases hl : lazyUntil delim cs with
        | none => rw [hl] at h; exact absurd h (by simp)
        | some content' =>
          rw [hl] at h
          simp only [Option.map_some'] at h
          injection h with h
          subst h
          obtain ⟨rest, hrest⟩ := lazyUntil_eq_append delim cs content' hl
          intro hin
          obtain ⟨a, b, hab⟩ := hin
          cases a with
          | nil =>
            apply hp
            have : c :: cs = delim ++ (b ++ delim ++ rest) := by
              rw [hrest]
              simp only [List.nil_append] at hab
              rw [← List.cons_append, ← List.cons_append, ← hab]
              simp
            rw [this]
            exact startsWith_append_self _ _
          | cons x a' =>
            simp only [List.cons_append, List.cons.injEq] at hab
            exact ih content' hl ⟨a', b, by simpa using hab.2⟩

theorem execAll_skip (delim : Str) (component : Str → InlineRun) (n off : Nat) (s : Str) :
    execAll delim component n off s = execAll delim component 0 (off + n) (s.drop n) := by
  induction n generalizing off s with
  | zero => rfl
  | succ k ih =>
    cases s with
    | nil => simp [execAll]
    | cons c cs =>
      rw [execAll, ih]
      simp only [List.drop_succ_cons]
      congr 1
      omega

/-- Every recorded match lies in the text at its offsets: the text before it
has `start - off` code units, the match is an opening delimiter, a lazily
captured group and a closing delimiter, and it is found after the skipped
part. -/
theorem execAll_mem (delim : Str) (component : Str → InlineRun) (skip off : Nat) (s : Str)
    (r : Replacement) (h : r ∈ execAll delim component skip off s) :
    ∃ content a b, s = a ++ (delim ++ content ++ delim) ++ b ∧
      r.start = off + a.length ∧ skip ≤ a.length ∧
      r.endPos = r.start + (delim ++ content ++ delim).length ∧
      r.component = component content ∧
      lazyUntil delim (content ++ delim ++ b) = some content := by
  induction s generalizing skip off with
  | nil => cases skip <;> simp [execAll] at h
  | cons c cs ih =>
    cases skip with
    | succ k =>
      rw [execAll] at h
      obtain ⟨content, a, b, hs, hst, hk, hen, hco, hl⟩ := ih k (off + 1) h
      exact ⟨content, c :: a, b, by simp [hs], by simp [hst]; omega, by simp; omega, hen, hco, hl⟩
    | zero =>
      rw [execAll] at h
      split at h
      · rename_i hp
        split at h
        · rename_i content hl
          simp only [List.mem_cons] at h
          rcases h with h | h
          · obtain ⟨rest, hrest⟩ := lazyUntil_eq_append delim _ content hl
            have hs := startsWith_eq_append _ _ hp
            refine ⟨content, [], rest, ?_, by simp [h], by simp, by simp [h], by simp [h], ?_⟩
            · rw [hs, hrest]; simp
            · rw [← hrest]; exact hl
          · obtain ⟨content', a, b, hs, hst, hk, hen, hco, hl'⟩ := ih _ (off + 1) h
            exact ⟨content', c :: a, b, by simp [hs], by simp [hst]; omega, by simp, hen, hco, hl'⟩
        · obtain ⟨content', a, b, hs, hst, hk, hen, hco, hl'⟩ := ih _ (off + 1) h
          exact ⟨content', c :: a, b, by simp [hs], by simp [hst]; omega, by simp, hen, hco, hl'⟩
      · obtain ⟨content', a, b, hs, hst, hk, hen, hco, hl'⟩ := ih _ (off + 1) h
        exact ⟨content', c :: a, b, by simp [hs], by simp [hst]; omega, by simp, hen, hco, hl'⟩


/-! ## Sorting and emitting -/

theorem perm_insertByStart (r : Replacement) (l : List Replacement) :
    (insertByStart r l).Perm (r :: l) := by
  induction l with
  | nil => exact List.Perm.refl _
  | cons x xs ih =>
    unfold insertByStart
    split
    · exact List.Perm.refl _
    · exact (List.Perm.cons x ih).trans (List.Perm.swap r x xs)

theorem perm_sortByStart (rs : List Replacement) : (sortByStart rs).Perm rs := by
  induction rs with
  | nil => exact List.Perm.refl _
  | cons r rs ih =>
    show (insertByStart r (sortByStart rs)).Perm (r :: rs)
    exact (perm_insertByStart r _).trans (List.Perm.cons r ih)

theorem sorted_insertByStart (r : Replacement) (l : List Replacement)
    (h : l.Pairwise (fun a b => a.start ≤ b.start)) :
    (insertByStart r l).Pairwise (fun a b => a.start ≤ b.start) := by
  induction l with
  | nil => simp [insertByStart]
  | cons x xs ih =>
    rw [List.pairwise_cons] at h
    unfold insertByStart
    split
    · rename_i hle
      rw [List.pairwise_cons]
      refine ⟨?_, List.pairwise_cons.2 h⟩
      intro y hy
      rcases List.mem_cons.1 hy with hy | hy
      · rw [hy]; exact hle
      · exact Nat.le_trans hle (h.1 y hy)
    · rename_i hle
      rw [List.pairwise_cons]
      refine ⟨?_, ih h.2⟩
      intro y hy
      rcases List.mem_cons.1 ((perm_insertByStart r xs).subset hy) with hy | hy
      · rw [hy]; omega
      · exact h.1 y hy

theorem sorted_sortByStart (rs : List Replacement) :
    (sortByStart rs).Pairwise (fun a b => a.start ≤ b.start) := by
  induction rs with
  | nil => simp [sortByStart]
  | cons r rs ih => exact sorted_insertByStart r _ ih

theorem mem_foldl_emit (text : Str) (sorted : List Replacement) (st : Nat × List InlineRun)
    (run : InlineRun) (h : run ∈ (sorted.foldl (emit text) st).2) :
    run ∈ st.2 ∨ (∃ s, run = InlineRun.plain s) ∨ ∃ r ∈ sorted, run = r.component := by
  induction sorted generalizing st with
  | nil => exact Or.inl h
  | cons r rs ih =>
    rw [List.foldl_cons] at h
    rcases ih _ h with h | h | ⟨r', hr', h⟩
    · unfold emit at h
      simp only [List.mem_append, List.mem_singleton] at h
      rcases h with h | h
      · split at h
        · simp only [List.mem_append, List.mem_singleton] at h
          rcases h with h | h
          · exact Or.inl h
          · exact Or.inr (Or.inl ⟨_, h⟩)
        · exact Or.inl h
      · exact Or.inr (Or.inr ⟨r, by simp, h⟩)
    · exact Or.inr (Or.inl h)
    · exact Or.inr (Or.inr ⟨r', by simp [hr'], h⟩)

/-- Every run of the result is a plain run or the component of a candidate
match. -/
theorem mem_parseInlineFormatting (text : Str) (run : InlineRun)
    (h : run ∈ parseInlineFormatting text) :
    (∃ s, run = InlineRun.plain s) ∨ ∃ r ∈ candidateMatches text, run = r.component := by
  unfold parseInlineFormatting at h
  simp only at h
  have key : ∀ run, run ∈ ((sortByStart (candidateMatches text)).foldl (emit text) (0, [])).2 →
      (∃ s, run = InlineRun.plain s) ∨ ∃ r ∈ candidateMatches text, run = r.component := by
    intro run hrun
    rcases mem_foldl_emit text _ _ run hrun with h | h | ⟨r, hr, h⟩
    · simp at h
    · exact Or.inl h
    · exact Or.inr ⟨r, (perm_sortByStart _).subset hr, h⟩
  split_ifs at h
  all_goals first
    | exact key run h
    | exact Or.inl ⟨_, List.mem_singleton.1 h⟩
    | exact (List.mem_append.1 h).elim (key run) (fun h' => Or.inl ⟨_, List.mem_singleton.1 h'⟩)

theorem singleton_infix_of_mem (a : Char) (l : Str) (h : a ∈ l) : [a] <:+: l := by
  obtain ⟨s, t, hst⟩ := List.mem_iff_append.1 h
  exact ⟨s, t, by simp [hst]⟩

/-- C19: for every fragment, the content of a formatted run of
`parseInlineFormatting` does not contain the run's own delimiter: no `**` in a
bold run, no `*` in an italic run, no backtick in a code run. -/
theorem c19_content_without_own_delimiter (text : Str) (run : InlineRun)
    (h : run ∈ parseInlineFormatting text) : run.DelimiterFree := by
  rcases mem_parseInlineFormatting text run h with ⟨s, hs⟩ | ⟨r, hr, hrun⟩
  · rw [hs]; trivial
  · unfold candidateMatches at hr
    simp only [List.mem_append] at hr
    rcases hr with (hr | hr) | hr
    · obtain ⟨content, a, b, _, _, _, _, hco, hl⟩ := execAll_mem _ _ _ _ _ r hr
      rw [hrun, hco]
      exact lazyUntil_no_infix _ (by simp) _ _ hl
    · obtain ⟨content, a, b, _, _, _, _, hco, hl⟩ := execAll_mem _ _ _ _ _ r hr
      rw [hrun, hco]
      have := lazyUntil_no_infix _ (by simp) _ _ hl
      intro hm
      exact this (singleton_infix_of_mem _ _ hm)
    · obtain ⟨content, a, b, _, _, _, _, hco, hl⟩ := execAll_mem _ _ _ _ _ r hr
      rw [hrun, hco]
      have := lazyUntil_no_infix _ (by simp) _ _ hl
      intro hm
      exact this (singleton_infix_of_mem _ _ hm)

/-- C19, witness: the bold run of `"a **b*c** d"` has the content `"b*c"`. -/
theorem c19_content_without_own_delimiter_witness :
    InlineRun.bold ("b*c".toList) ∈ parseInlineFormatting ("a **b*c** d".toList) ∧
    ¬ ['*', '*'] <:+: "b*c".toList :=
  ⟨by decide,
   c19_content_without_own_delimiter ("a **b*c** d".toList) (InlineRun.bold ("b*c".toList))
    (by decide)⟩


/-! ## Writing the runs back -/

theorem rewrapAll_append (xs ys : List InlineRun) :
    rewrapAll (xs ++ ys) = rewrapAll xs ++ rewrapAll ys := by
  induction xs with
  | nil => rfl
  | cons x xs ih => simp [rewrapAll, ih]

/-- Every candidate match sits in the text at its offsets, and is the source
text of its own component. -/
theorem candidateMatches_spec (text : Str) (r : Replacement) (h : r ∈ candidateMatches text) :
    ∃ a b, text = a ++ r.component.rewrap ++ b ∧ a.length = r.start ∧
      r.endPos = r.start + r.component.rewrap.length ∧ r.start < r.endPos := by
  unfold candidateMatches at h
  simp only [List.mem_append] at h
  rcases h with (h | h) | h
  all_goals
    obtain ⟨content, a, b, hs, hst, _, hen, hco, _⟩ := execAll_mem _ _ _ _ _ r h
    refine ⟨a, b, ?_, by omega, ?_, ?_⟩
    · rw [hco]; exact hs
    · rw [hco]; exact hen
    · rw [hen]; simp

theorem execAll_pairwise (delim : Str) (hd : delim ≠ []) (component : Str → InlineRun)
    (skip off : Nat) (s : Str) :
    (execAll delim component skip off s).Pairwise (fun r r' => r.endPos ≤ r'.start) := by
  induction s generalizing skip off with
  | nil => cases skip <;> simp [execAll]
  | cons c cs ih =>
    cases skip with
    | succ k => rw [execAll]; exact ih k (off + 1)
    | zero =>
      rw [execAll]
      split
      · split
        · rename_i content hl
          rw [List.pairwise_cons]
          refine ⟨?_, ih _ _⟩
          intro r' hr'
          obtain ⟨_, a, _, _, hst, hk, _, _, _⟩ := execAll_mem _ _ _ _ _ r' hr'
          have hpos : 0 < delim.length := List.length_pos.2 hd
          simp only [List.length_append] at hk ⊢
          omega
        · exact ih _ _
      · exact ih _ _

theorem take_of_split (text a w b : Str) (h : text = a ++ w ++ b) :
    text.take a.length = a ∧ text.take (a.length + w.length) = a ++ w := by
  subst h
  constructor
  · rw [List.append_assoc, List.take_left]
  · have : a.length + w.length = (a ++ w).length := by simp
    rw [this, List.take_left]

theorem rewrapAll_foldl_emit (text : Str) (sorted : List Replacement)
    (st : Nat × List InlineRun)
    (hst : rewrapAll st.2 = text.take st.1)
    (hsorted : sorted.Pairwise (fun r r' => r.endPos ≤ r'.start))
    (hfirst : ∀ r ∈ sorted, st.1 ≤ r.start)
    (hspec : ∀ r ∈ sorted, ∃ a b, text = a ++ r.component.rewrap ++ b ∧ a.length = r.start ∧
      r.endPos = r.start + r.component.rewrap.length ∧ r.start < r.endPos) :
    rewrapAll (sorted.foldl (emit text) st).2 = text.take (sorted.foldl (emit text) st).1 := by
  induction sorted generalizing st with
  | nil => exact hst
  | cons r rs ih =>
    rw [List.foldl_cons]
    rw [List.pairwise_cons] at hsorted
    obtain ⟨a, b, htext, hlen, hend, _⟩ := hspec r (by simp)
    have hle : st.1 ≤ r.start := hfirst r (by simp)
    obtain ⟨t1, t2⟩ := take_of_split text a _ b htext
    apply ih
    · show rewrapAll ((if r.start > st.1 then
          st.2 ++ [InlineRun.plain (substring text st.1 r.start)] else st.2)
          ++ [r.component]) = text.take r.endPos
      rw [rewrapAll_append]
      have hgap : rewrapAll (if r.start > st.1 then
          st.2 ++ [InlineRun.plain (substring text st.1 r.start)] else st.2)
          = text.take r.start := by
        split
        · rw [rewrapAll_append, hst]
          simp only [rewrapAll, InlineRun.rewrap, List.append_nil, substring]
          have : r.start = st.1 + (r.start - st.1) := by omega
          conv_rhs => rw [this, List.take_add]
        · have : r.start = st.1 := by omega
          rw [hst, this]
      rw [hgap, hend, ← hlen, t1, t2]
      simp [rewrapAll]
    · exact hsorted.2
    · intro r' hr'
      exact hsorted.1 r' hr'
    · intro r' hr'
      exact hspec r' (by simp [hr'])

theorem parseInlineFormatting_eq (text : Str) (st : Nat × List InlineRun)
    (h : st = (sortByStart (candidateMatches text)).foldl (emit text) (0, [])) :
    parseInlineFormatting text
      = if (if st.1 < text.length then st.2 ++ [InlineRun.plain (text.drop st.1)]
            else st.2).length > 0 then
          (if st.1 < text.length then st.2 ++ [InlineRun.plain (text.drop st.1)] else st.2)
        else [InlineRun.plain text] := by
  subst h
  rfl

/-- When the candidate matches are sorted by offset and do not overlap, the
runs written back give the text. -/
theorem rewrapAll_parseInlineFormatting (text : Str)
    (h : (candidateMatches text).Pairwise NonOverlapping) :
    rewrapAll (parseInlineFormatting text) = text := by
  have hperm := perm_sortByStart (candidateMatches text)
  have hspec : ∀ r ∈ sortByStart (candidateMatches text),
      ∃ a b, text = a ++ r.component.rewrap ++ b ∧ a.length = r.start ∧
        r.endPos = r.start + r.component.rewrap.length ∧ r.start < r.endPos :=
    fun r hr => candidateMatches_spec text r (hperm.subset hr)
  have hno : (sortByStart (candidateMatches text)).Pairwise NonOverlapping := by
    refine (List.Perm.pairwise_iff ?_ hperm).2 h
    intro x y hxy
    exact hxy.symm
  have hsorted : (sortByStart (candidateMatches text)).Pairwise
      (fun r r' => r.endPos ≤ r'.start) := by
    refine List.Pairwise.imp_of_mem ?_ ((sorted_sortByStart _).and hno)
    intro x y _ hy hxy
    obtain ⟨_, _, _, _, _, hlt⟩ := hspec y hy
    rcases hxy.2 with h1 | h1
    · exact h1
    · have := hxy.1
      omega
  have key := rewrapAll_foldl_emit text (sortByStart (candidateMatches text)) (0, [])
    (by simp [rewrapAll]) hsorted (fun _ _ => Nat.zero_le _) hspec
  obtain ⟨st, hst⟩ : ∃ st, st = (sortByStart (candidateMatches text)).foldl (emit text) (0, []) :=
    ⟨_, rfl⟩
  rw [← hst] at key
  rw [parseInlineFormatting_eq text st hst]
  have hres : rewrapAll (if st.1 < text.length then
      st.2 ++ [InlineRun.plain (text.drop st.1)] else st.2) = text := by
    split
    · rw [rewrapAll_append, key]
      simp [rewrapAll, InlineRun.rewrap]
    · rw [key, List.take_of_length_le (by omega)]
  generalize (if st.1 < text.length then
      st.2 ++ [InlineRun.plain (text.drop st.1)] else st.2) = result at hres ⊢
  cases result with
  | nil => simp [rewrapAll, InlineRun.rewrap]
  | cons x xs => simpa using hres

/-- C20: for every fragment whose candidate matches of the three kinds are
pairwise non-overlapping, and in particular for every fragment without `*`, the
runs of `parseInlineFormatting`, each formatted run written back between its own
delimiters, concatenate to the fragment. -/
theorem c20_rewrapped_runs_give_fragment (text : Str) :
    ((candidateMatches text).Pairwise NonOverlapping →
      rewrapAll (parseInlineFormatting text) = text) ∧
    ('*' ∉ text → rewrapAll (parseInlineFormatting text) = text) := by
  refine ⟨rewrapAll_parseInlineFormatting text, ?_⟩
  intro hstar
  apply rewrapAll_parseInlineFormatting
  unfold candidateMatches
  rw [execAll_nil_of_not_mem '*' ['*'] _ 0 0 text hstar,
    execAll_nil_of_not_mem '*' [] _ 0 0 text hstar]
  simp only [List.nil_append]
  exact (execAll_pairwise _ (by simp) _ 0 0 text).imp (fun h => Or.inl h)

/-- C20, witness: the fragment ``"Use `a` and `b`."`` has two code matches and no
`*`. -/
theorem c20_rewrapped_runs_give_fragment_witness :
    ((candidateMatches ("Use `a` and `b`.".toList)).Pairwise NonOverlapping ∧
      '*' ∉ "Use `a` and `b`.".toList) ∧
    rewrapAll (parseInlineFormatting ("Use `a` and `b`.".toList)) = "Use `a` and `b`.".toList :=
  ⟨⟨by decide, by decide⟩,
   (c20_rewrapped_runs_give_fragment ("Use `a` and `b`.".toList)).2 (by decide)⟩


/-! ## The inline matcher on a text with one span -/

theorem execAll_append_of_not_mem (d : Char) (ds : Str) (component : Str → InlineRun)
    (off : Nat) (pre rest : Str) (h : d ∉ pre) :
    execAll (d :: ds) component 0 off (pre ++ rest)
      = execAll (d :: ds) component 0 (off + pre.length) rest := by
  induction pre generalizing off with
  | nil => rfl
  | cons c cs ih =>
    have hcs : d ∉ cs := fun m => h (List.mem_cons_of_mem _ m)
    have hne : d ≠ c := fun e => h (by simp [e])
    rw [List.cons_append, execAll]
    have hp : startsWith (c :: (cs ++ rest)) (d :: ds) = false := by
      simp [startsWith, List.isPrefixOf, hne]
    rw [hp]
    simp only [Bool.false_eq_true, if_false]
    rw [ih (off + 1) hcs]
    congr 1
    simp
    omega

theorem lazyUntil_append_of_not_mem (d : Char) (ds : Str) (inner rest : Str)
    (h : d ∉ inner) (hlt : ∀ c ∈ inner, isLineTerminator c = false) :
    lazyUntil (d :: ds) (inner ++ (d :: ds) ++ rest) = some inner := by
  induction inner with
  | nil =>
    simp only [List.nil_append, List.cons_append]
    rw [lazyUntil]
    have := startsWith_append_self (d :: ds) rest
    simp only [List.cons_append] at this
    rw [this]
    rfl
  | cons c cs ih =>
    have hcs : d ∉ cs := fun m => h (List.mem_cons_of_mem _ m)
    have hne : d ≠ c := fun e => h (by simp [e])
    have hc : isLineTerminator c = false := hlt c (by simp)
    have ih' := ih hcs (fun x hx => hlt x (by simp [hx]))
    simp only [List.cons_append, List.append_assoc] at ih' ⊢
    rw [lazyUntil]
    have hp : startsWith (c :: (cs ++ d :: (ds ++ rest))) (d :: ds) = false := by
      simp [startsWith, List.isPrefixOf, hne]
    rw [hp, hc, ih']
    rfl

theorem execAll_match_head (d : Char) (ds : Str) (component : Str → InlineRun) (off : Nat)
    (content rest : Str)
    (h : lazyUntil (d :: ds) (content ++ (d :: ds) ++ rest) = some content) :
    execAll (d :: ds) component 0 off ((d :: ds) ++ (content ++ (d :: ds) ++ rest))
      = { start := off, endPos := off + ((d :: ds) ++ content ++ (d :: ds)).length,
          component := component content, original := (d :: ds) ++ content ++ (d :: ds) } ::
        execAll (d :: ds) component 0 (off + ((d :: ds) ++ content ++ (d :: ds)).length) rest := by
  have hp := startsWith_append_self (d :: ds) (content ++ (d :: ds) ++ rest)
  have hdrop : ((d :: ds) ++ (content ++ (d :: ds) ++ rest)).drop (d :: ds).length
      = content ++ (d :: ds) ++ rest := List.drop_left _ _
  simp only [List.cons_append] at hp hdrop
  simp only [List.cons_append]
  rw [execAll, hp]
  simp only [if_true]
  rw [hdrop, h]
  simp only
  rw [execAll_skip]
  congr 2
  · simp only [List.length_cons, List.length_append]
    omega
  · have e : ds ++ (content ++ d :: ds ++ rest) = (ds ++ (content ++ d :: ds)) ++ rest := by
      simp
    rw [e]
    apply List.drop_left'
    simp only [List.length_cons, List.length_append]
    omega

/-- The candidate matches of a text with one bold span between parts without
`*` and backtick: the bold match, and the two `**` delimiters as italic matches
with empty content. -/
theorem candidateMatches_bold (a b c : Str)
    (ha : '*' ∉ a) (hb : '*' ∉ b) (hc : '*' ∉ c)
    (ha' : backtick ∉ a) (hb' : backtick ∉ b) (hc' : backtick ∉ c)
    (hlt : ∀ x ∈ b, isLineTerminator x = false) :
    candidateMatches (a ++ (['*', '*'] ++ (b ++ ['*', '*'] ++ c)))
      = [{ start := a.length, endPos := a.length + (b.length + 4),
           component := InlineRun.bold b, original := ['*', '*'] ++ b ++ ['*', '*'] },
         { start := a.length, endPos := a.length + 2,
           component := InlineRun.italic [], original := ['*', '*'] },
         { start := a.length + 2 + b.length, endPos := a.length + 2 + b.length + 2,
           component := InlineRun.italic [], original := ['*', '*'] }] := by
  have hbt : backtick ∉ a ++ (['*', '*'] ++ (b ++ ['*', '*'] ++ c)) := by
    simp only [List.mem_append, List.mem_cons, List.not_mem_nil, or_false, not_or]
    exact ⟨ha', ⟨by decide, by decide⟩, ⟨hb', by decide, by decide⟩, hc'⟩
  have hbold : execAll ['*', '*'] InlineRun.bold 0 0 (a ++ (['*', '*'] ++ (b ++ ['*', '*'] ++ c)))
      = [{ start := a.length, endPos := a.length + (b.length + 4),
           component := InlineRun.bold b, original := ['*', '*'] ++ b ++ ['*', '*'] }] := by
    rw [execAll_append_of_not_mem '*' ['*'] _ 0 a _ ha,
      execAll_match_head '*' ['*'] _ _ b c (lazyUntil_append_of_not_mem '*' ['*'] b c hb hlt),
      execAll_nil_of_not_mem '*' ['*'] _ 0 _ c hc]
    simp
  have hitalic : execAll ['*'] InlineRun.italic 0 0 (a ++ (['*', '*'] ++ (b ++ ['*', '*'] ++ c)))
      = [{ start := a.length, endPos := a.length + 2,
           component := InlineRun.italic [], original := ['*', '*'] },
         { start := a.length + 2 + b.length, endPos := a.length + 2 + b.length + 2,
           component := InlineRun.italic [], original := ['*', '*'] }] := by
    have e1 : (['*', '*'] ++ (b ++ ['*', '*'] ++ c) : Str)
        = ['*'] ++ ([] ++ ['*'] ++ (b ++ (['*'] ++ ([] ++ ['*'] ++ c)))) := by simp
    rw [execAll_append_of_not_mem '*' [] _ 0 a _ ha, e1,
      execAll_match_head '*' [] _ _ [] _
        (lazyUntil_append_of_not_mem '*' [] [] _ (by simp) (by simp)),
      execAll_append_of_not_mem '*' [] _ _ b _ hb,
      execAll_match_head '*' [] _ _ [] c
        (lazyUntil_append_of_not_mem '*' [] [] _ (by simp) (by simp)),
      execAll_nil_of_not_mem '*' [] _ 0 _ c hc]
    simp
  unfold candidateMatches
  rw [hbold, hitalic, execAll_nil_of_not_mem backtick [] _ 0 0 _ hbt]
  rfl


/-- The runs of a text with one bold span between parts without `*` and
backtick: the bold run is followed by an empty italic run, the bold text once
more as plain text, and a second empty italic run. -/
theorem parseInlineFormatting_bold (a b c : Str)
    (ha : '*' ∉ a) (hb : '*' ∉ b) (hc : '*' ∉ c)
    (ha' : backtick ∉ a) (hb' : backtick ∉ b) (hc' : backtick ∉ c)
    (hlt : ∀ x ∈ b, isLineTerminator x = false) (hbne : b ≠ []) :
    parseInlineFormatting (a ++ (['*', '*'] ++ (b ++ ['*', '*'] ++ c)))
      = (if a = [] then [] else [InlineRun.plain a]) ++
        [InlineRun.bold b, InlineRun.italic [], InlineRun.plain b, InlineRun.italic []] ++
        (if c = [] then [] else [InlineRun.plain c]) := by
  have hblen : 0 < b.length := List.length_pos.2 hbne
  have s1 : substring (a ++ (['*', '*'] ++ (b ++ ['*', '*'] ++ c))) 0 a.length = a := by
    simp [substring]
  have s2 : substring (a ++ (['*', '*'] ++ (b ++ ['*', '*'] ++ c)))
      (a.length + 2) (a.length + 2 + b.length) = b := by
    have e : a ++ (['*', '*'] ++ (b ++ ['*', '*'] ++ c))
        = (a ++ ['*', '*']) ++ (b ++ (['*', '*'] ++ c)) := by simp
    unfold substring
    rw [e, List.drop_left' (by simp)]
    have : a.length + 2 + b.length - (a.length + 2) = b.length := by omega
    rw [this, List.take_left]
  have s3 : (a ++ (['*', '*'] ++ (b ++ ['*', '*'] ++ c))).drop (a.length + 2 + b.length + 2)
      = c := by
    have e : a ++ (['*', '*'] ++ (b ++ ['*', '*'] ++ c))
        = (a ++ ['*', '*'] ++ b ++ ['*', '*']) ++ c := by simp
    have hl : (a ++ ['*', '*'] ++ b ++ ['*', '*']).length = a.length + 2 + b.length + 2 := by
      simp only [List.length_append, List.length_cons, List.length_nil]
    rw [e, List.drop_left' hl]
  have hsort := candidateMatches_bold a b c ha hb hc ha' hb' hc' hlt
  rw [parseInlineFormatting_eq _ _ rfl, hsort]
  have hs : sortByStart
      [{ start := a.length, endPos := a.length + (b.length + 4),
         component := InlineRun.bold b, original := ['*', '*'] ++ b ++ ['*', '*'] },
       { start := a.length, endPos := a.length + 2,
         component := InlineRun.italic [], original := ['*', '*'] },
       { start := a.length + 2 + b.length, endPos := a.length + 2 + b.length + 2,
         component := InlineRun.italic [], original := ['*', '*'] }]
      = [{ start := a.length, endPos := a.length + (b.length + 4),
           component := InlineRun.bold b, original := ['*', '*'] ++ b ++ ['*', '*'] },
         { start := a.length, endPos := a.length + 2,
           component := InlineRun.italic [], original := ['*', '*'] },
         { start := a.length + 2 + b.length, endPos := a.length + 2 + b.length + 2,
           component := InlineRun.italic [], original := ['*', '*'] }] := by
    have h1 : a.length ≤ a.length + 2 + b.length := by omega
    simp [sortByStart, insertByStart, h1]
  rw [hs]
  simp only [List.foldl_cons, List.foldl_nil, emit]
  have c1 : ¬ (a.length > a.length + (b.length + 4)) := by omega
  have c2 : a.length + 2 + b.length > a.length + 2 := by omega
  simp only [c1, c2, if_true, if_false, s1, s2, s3]
  have hlen : (a ++ (['*', '*'] ++ (b ++ ['*', '*'] ++ c))).length
      = a.length + 2 + b.length + 2 + c.length := by
    simp only [List.length_append, List.length_cons, List.length_nil]
    omega
  rw [hlen]
  by_cases hA : a = [] <;> by_cases hC : c = []
  · subst hA; subst hC; simp
  · subst hA
    have : 0 < c.length := List.length_pos.2 hC
    simp [hC, this]
  · subst hC
    have : 0 < a.length := List.length_pos.2 hA
    simp [hA, this]
  · have h1 : 0 < a.length := List.length_pos.2 hA
    have h2 : 0 < c.length := List.length_pos.2 hC
    simp [hA, hC, h1, h2]


/-! ## The section heading example -/

/-- The rewrites after the likelihood rewrite leave `A ++ d ++ "%" ++ T`
unchanged for every digit run `d`, when they pass over the fixed part `A`
whatever follows it and leave `"%" ++ T` unchanged. -/
theorem later_rewrites_id (A d T : Str) (hd : ∀ x ∈ d, isDigit x = true)
    (hA4 : ∀ X, replaceAll toolPattern 0 (A ++ X) = A ++ replaceAll toolPattern 0 X)
    (hA5 : ∀ X, replaceAll safetyPattern 0 (A ++ X) = A ++ replaceAll safetyPattern 0 X)
    (hA6 : ∀ X, replaceAll hoursPattern 0 (A ++ X) = A ++ replaceAll hoursPattern 0 X)
    (hA7 : ∀ X, replaceAll bulletBreakPattern 0 (A ++ X) = A ++ replaceAll bulletBreakPattern 0 X)
    (hA8 : ∀ X, replaceAll numberBreakPattern 0 (A ++ X) = A ++ replaceAll numberBreakPattern 0 X)
    (hT4 : replaceAll toolPattern 0 ('%' :: T) = '%' :: T)
    (hT5 : replaceAll safetyPattern 0 ('%' :: T) = '%' :: T)
    (hT6 : replaceAll hoursPattern 0 ('%' :: T) = '%' :: T)
    (hT7 : replaceAll bulletBreakPattern 0 ('%' :: T) = '%' :: T)
    (hT8 : replaceAll numberBreakPattern 0 ('%' :: T) = '%' :: T) :
    replaceAll numberBreakPattern 0 (replaceAll bulletBreakPattern 0
      (replaceAll hoursPattern 0 (replaceAll safetyPattern 0
        (replaceAll toolPattern 0 (A ++ (d ++ '%' :: T))))))
      = A ++ (d ++ '%' :: T) := by
  have h := later_rewrites_id_around_digits [] d T hd (by simp) (by simp) (by simp) (by simp)
    hT4 hT5 hT6 hT7 hT8
  simp only [List.nil_append] at h
  have e4 : replaceAll toolPattern 0 (d ++ '%' :: T) = d ++ '%' :: T := by
    have := replaceAll_id_around_digits toolPattern _ toolPattern_first digit_not_tool_first
      [] d _ (by simp) hd hT4
    simpa using this
  have e5 : replaceAll safetyPattern 0 (d ++ '%' :: T) = d ++ '%' :: T := by
    have := replaceAll_id_around_digits safetyPattern _ safetyPattern_first
      digit_not_safety_first [] d _ (by simp) hd hT5
    simpa using this
  have e6 : replaceAll hoursPattern 0 (d ++ '%' :: T) = d ++ '%' :: T := by
    have := replaceAll_id_digits_then hoursPattern hoursPattern_first [] d '%' T (by simp) hd
      (fun b hb => hoursPattern_digits_other b '%' T hb (by decide) (by decide)) hT6
    simpa using this
  have e7 : replaceAll bulletBreakPattern 0 (d ++ '%' :: T) = d ++ '%' :: T := by
    have := replaceAll_id_around_digits bulletBreakPattern _ bulletBreakPattern_first
      (fun x hx => digit_beq x '.' hx (by decide)) [] d _ (by simp) hd hT7
    simpa using this
  have e8 : replaceAll numberBreakPattern 0 (d ++ '%' :: T) = d ++ '%' :: T := by
    have := replaceAll_id_around_digits numberBreakPattern _ numberBreakPattern_first
      (fun x hx => digit_beq x '.' hx (by decide)) [] d _ (by simp) hd hT8
    simpa using this
  rw [hA4, e4, hA5, e5, hA6, e6, hA7, e7, hA8, e8]

/-- The preprocessed text of the section heading example, for every pair of
digit runs. -/
theorem formatChatGPTAnalysis_primary (d1 d2 : Str)
    (h1 : ∀ x ∈ d1, isDigit x = true) (n1 : d1 ≠ [])
    (h2 : ∀ x ∈ d2, isDigit x = true) (n2 : d2 ≠ []) :
    formatChatGPTAnalysis (some (d1 ++ (". PRIMARY DIAGNOSIS: Compressor failure likely (".toList
        ++ (d2 ++ "% likelihood)".toList))))
      = "\n## PRIMARY DIAGNOSIS\n\n Compressor failure likely  **(".toList
        ++ (d2 ++ "% likelihood)**".toList) := by
  rw [formatChatGPTAnalysis_some _ (by simp [n1])]
  have e : "% likelihood)".toList = '%' :: " likelihood)".toList := by decide
  -- the section rewrite
  have m1 : sectionPattern (d1 ++ '.' ::
      (" PRIMARY DIAGNOSIS: Compressor failure likely (".toList ++ (d2 ++ "% likelihood)".toList)))
      = some (d1.length + 1 + 1 + 17 + 1, "\n## PRIMARY DIAGNOSIS\n\n".toList) := by
    rw [sectionPattern_digits_dot d1 _ h1 n1]
    rfl
  have hdrop : (d1 ++ '.' ::
      (" PRIMARY DIAGNOSIS: Compressor failure likely (".toList ++ (d2 ++ "% likelihood)".toList))).drop
        (d1.length + 1 + 1 + 17 + 1)
      = " Compressor failure likely (".toList ++ (d2 ++ "% likelihood)".toList) := by
    have e' : d1 ++ '.' :: (" PRIMARY DIAGNOSIS: Compressor failure likely (".toList
          ++ (d2 ++ "% likelihood)".toList))
        = (d1 ++ ". PRIMARY DIAGNOSIS:".toList)
          ++ (" Compressor failure likely (".toList ++ (d2 ++ "% likelihood)".toList)) := by
      simp
    have hl : (d1 ++ ". PRIMARY DIAGNOSIS:".toList).length = d1.length + 1 + 1 + 17 + 1 := by
      simp only [List.length_append]
      rfl
    rw [e', List.drop_left' hl]
  have r1 : replaceAll sectionPattern 0 (d1 ++
      (". PRIMARY DIAGNOSIS: Compressor failure likely (".toList ++ (d2 ++ "% likelihood)".toList)))
      = "\n## PRIMARY DIAGNOSIS\n\n Compressor failure likely (".toList
        ++ (d2 ++ "% likelihood)".toList) := by
    have e0 : ". PRIMARY DIAGNOSIS: Compressor failure likely (".toList ++ (d2 ++ "% likelihood)".toList)
        = '.' :: (" PRIMARY DIAGNOSIS: Compressor failure likely (".toList
          ++ (d2 ++ "% likelihood)".toList)) := rfl
    rw [e0, replaceAll_of_match _ _ _ _ (by omega) m1 (by simp), hdrop, e,
      replaceAll_id_digits_then sectionPattern sectionPattern_first
        (" Compressor failure likely (".toList) d2 '%' _ (by decide) h2
        (fun b hb => sectionPattern_digits_other b '%' _ hb (by decide) (by decide))
        (by decide)]
    rfl
  -- the sub-section rewrite finds no hyphen
  have r2 : replaceAll subsectionPattern 0
      ("\n## PRIMARY DIAGNOSIS\n\n Compressor failure likely (".toList
        ++ (d2 ++ "% likelihood)".toList))
      = "\n## PRIMARY DIAGNOSIS\n\n Compressor failure likely (".toList
        ++ (d2 ++ "% likelihood)".toList) :=
    replaceAll_id_around_digits subsectionPattern _ subsectionPattern_first
      (fun x hx => digit_beq x '-' hx (by decide)) _ d2 _ (by decide) h2 (by decide)
  -- the likelihood rewrite
  have r3 : replaceAll likelihoodPattern 0
      ("\n## PRIMARY DIAGNOSIS\n\n Compressor failure likely (".toList
        ++ (d2 ++ "% likelihood)".toList))
      = "\n## PRIMARY DIAGNOSIS\n\n Compressor failure likely  **(".toList
        ++ (d2 ++ '%' :: " likelihood)**".toList) := by
    have e3 : "\n## PRIMARY DIAGNOSIS\n\n Compressor failure likely (".toList
          ++ (d2 ++ "% likelihood)".toList)
        = "\n## PRIMARY DIAGNOSIS\n\n Compressor failure likely ".toList
          ++ ('(' :: (d2 ++ "% likelihood)".toList)) := by
      simp
    rw [e3, replaceAll_of_first likelihoodPattern _ likelihoodPattern_first _ _ (by decide),
      likelihood_rewrite d2 h2 n2]
    simp
  rw [r1, r2, r3]
  rw [later_rewrites_id _ d2 _ h2 (fun _ => rfl) (fun _ => rfl) (fun _ => rfl) (fun _ => rfl)
    (fun _ => rfl) (by decide) (by decide) (by decide) (by decide) (by decide)]
  rfl


theorem lineElem_likelihood_paragraph (d2 : Str) (h2 : ∀ x ∈ d2, isDigit x = true) :
    lineElem (" Compressor failure likely  **(".toList ++ (d2 ++ "% likelihood)**".toList))
      = Elem.paragraph
          [InlineRun.plain ("Compressor failure likely  ".toList),
           InlineRun.bold ('(' :: (d2 ++ "% likelihood)".toList)), InlineRun.italic [],
           InlineRun.plain ('(' :: (d2 ++ "% likelihood)".toList)), InlineRun.italic []] := by
  have hstart : trimStart (" Compressor failure likely  **(".toList
        ++ (d2 ++ "% likelihood)**".toList))
      = "Compressor failure likely  **(".toList ++ (d2 ++ "% likelihood)**".toList) := rfl
  have hend : trimEnd ("Compressor failure likely  **(".toList ++ (d2 ++ "% likelihood)**".toList))
      = "Compressor failure likely  **(".toList ++ (d2 ++ "% likelihood)**".toList) := by
    have := trimEnd_append_self ("Compressor failure likely  **(".toList ++ d2)
      ("% likelihood)**".toList) (by decide) (by decide)
    simpa using this
  have htrim : trim (" Compressor failure likely  **(".toList ++ (d2 ++ "% likelihood)**".toList))
      = "Compressor failure likely  **(".toList ++ (d2 ++ "% likelihood)**".toList) := by
    unfold trim
    rw [hstart, hend]
  have hshape : "Compressor failure likely  **(".toList ++ (d2 ++ "% likelihood)**".toList)
      = "Compressor failure likely  ".toList
        ++ (['*', '*'] ++ (('(' :: (d2 ++ "% likelihood)".toList)) ++ ['*', '*'] ++ [])) := by
    simp
  have hd : ∀ y, isDigit y = false → y ∉ d2 := fun y hy hm => digit_ne _ _ (h2 _ hm) hy rfl
  have hstar : '*' ∉ '(' :: (d2 ++ "% likelihood)".toList) := by
    simp only [List.mem_cons, List.mem_append, not_or]
    exact ⟨by decide, hd _ (by decide), by decide⟩
  have hbt : backtick ∉ '(' :: (d2 ++ "% likelihood)".toList) := by
    simp only [List.mem_cons, List.mem_append, not_or]
    exact ⟨by decide, hd _ (by decide), by decide⟩
  have hlt : ∀ x ∈ '(' :: (d2 ++ "% likelihood)".toList), isLineTerminator x = false := by
    intro x hx
    simp only [List.mem_cons, List.mem_append] at hx
    rcases hx with hx | hx | hx
    · rw [hx]; decide
    · have := h2 x hx
      unfold isDigit at this
      simp only [Bool.and_eq_true, decide_eq_true_eq] at this
      unfold isLineTerminator
      simp only [Bool.or_eq_false_iff, decide_eq_false_iff_not]
      omega
    · revert x
      decide
  have hruns := parseInlineFormatting_bold ("Compressor failure likely  ".toList)
    ('(' :: (d2 ++ "% likelihood)".toList)) [] (by decide) hstar (by simp) (by decide) hbt
    (by simp) hlt (by simp)
  rw [← hshape] at hruns
  have hne : ("Compressor failure likely  ".toList = []) = False := by decide
  simp only [hne, if_false, if_true, List.append_nil] at hruns
  unfold lineElem
  simp only [htrim, hruns]
  rfl

/-- C13: for the input `"1. PRIMARY DIAGNOSIS: Compressor failure likely (85% likelihood)"`,
and for any digit runs `d1`, `d2` in place of `1` and `85`, the parsed
preprocessed text holds a level-2 heading `[Plain "PRIMARY DIAGNOSIS"]` followed
later by a paragraph whose runs include `Bold "(d2% likelihood)"`; the document
and the paragraph's runs are given in full. -/
theorem c13_section_heading_example (d1 d2 : Str)
    (h1 : ∀ x ∈ d1, isDigit x = true) (n1 : d1 ≠ [])
    (h2 : ∀ x ∈ d2, isDigit x = true) (n2 : d2 ≠ []) :
    parseMarkdown (formatChatGPTAnalysis (some (d1 ++
        (". PRIMARY DIAGNOSIS: Compressor failure likely (".toList
          ++ (d2 ++ "% likelihood)".toList)))))
      = [Block.spacer, Block.heading 2 [InlineRun.plain ("PRIMARY DIAGNOSIS".toList)],
         Block.spacer,
         Block.paragraph
          [InlineRun.plain ("Compressor failure likely  ".toList),
           InlineRun.bold ('(' :: (d2 ++ "% likelihood)".toList)), InlineRun.italic [],
           InlineRun.plain ('(' :: (d2 ++ "% likelihood)".toList)), InlineRun.italic []]] ∧
    ∃ before between after runs,
      parseMarkdown (formatChatGPTAnalysis (some (d1 ++
        (". PRIMARY DIAGNOSIS: Compressor failure likely (".toList
          ++ (d2 ++ "% likelihood)".toList)))))
        = before ++ [Block.heading 2 [InlineRun.plain ("PRIMARY DIAGNOSIS".toList)]] ++ between
          ++ [Block.paragraph runs] ++ after ∧
      InlineRun.bold ('(' :: (d2 ++ "% likelihood)".toList)) ∈ runs := by
  have hdoc : parseMarkdown (formatChatGPTAnalysis (some (d1 ++
        (". PRIMARY DIAGNOSIS: Compressor failure likely (".toList
          ++ (d2 ++ "% likelihood)".toList)))))
      = [Block.spacer, Block.heading 2 [InlineRun.plain ("PRIMARY DIAGNOSIS".toList)],
         Block.spacer,
         Block.paragraph
          [InlineRun.plain ("Compressor failure likely  ".toList),
           InlineRun.bold ('(' :: (d2 ++ "% likelihood)".toList)), InlineRun.italic [],
           InlineRun.plain ('(' :: (d2 ++ "% likelihood)".toList)), InlineRun.italic []]] := by
    rw [formatChatGPTAnalysis_primary d1 d2 h1 n1 h2 n2]
    have hsplit : "\n## PRIMARY DIAGNOSIS\n\n Compressor failure likely  **(".toList
          ++ (d2 ++ "% likelihood)**".toList)
        = [] ++ '\n' :: ("## PRIMARY DIAGNOSIS".toList ++ '\n' :: ([] ++ '\n' ::
            (" Compressor failure likely  **(".toList ++ (d2 ++ "% likelihood)**".toList)))) :=
      rfl
    have hnl : '\n' ∉ " Compressor failure likely  **(".toList ++ (d2 ++ "% likelihood)**".toList) := by
      simp only [List.mem_append, not_or]
      exact ⟨by decide, fun hm => digit_ne _ _ (h2 _ hm) (by decide) rfl, by decide⟩
    unfold parseMarkdown
    rw [hsplit, splitLines_append_newline _ _ (by simp), splitLines_append_newline _ _ (by decide),
      splitLines_append_newline _ _ (by simp), splitLines_of_not_mem _ hnl]
    simp only [List.foldl_cons, List.foldl_nil, processLine_eq_applyElem,
      lineElem_likelihood_paragraph d2 h2]
    have e1 : lineElem [] = Elem.spacer := by decide
    have e2 : lineElem ("## PRIMARY DIAGNOSIS".toList)
        = Elem.heading 2 [InlineRun.plain ("PRIMARY DIAGNOSIS".toList)] := by decide
    rw [e1, e2]
    simp [applyElem, closeList, initialState]
  refine ⟨hdoc, [Block.spacer], [Block.spacer], [],
    [InlineRun.plain ("Compressor failure likely  ".toList),
     InlineRun.bold ('(' :: (d2 ++ "% likelihood)".toList)), InlineRun.italic [],
     InlineRun.plain ('(' :: (d2 ++ "% likelihood)".toList)), InlineRun.italic []], ?_, ?_⟩
  · rw [hdoc]
    rfl
  · simp

/-- C13, witness: the input of the specification,
`"1. PRIMARY DIAGNOSIS: Compressor failure likely (85% likelihood)"`. -/
theorem c13_section_heading_example_witness :
    formatChatGPTAnalysis (some
        ("1. PRIMARY DIAGNOSIS: Compressor failure likely (85% likelihood)".toList))
      = "\n## PRIMARY DIAGNOSIS\n\n Compressor failure likely  **(85% likelihood)**".toList ∧
    parseMarkdown (formatChatGPTAnalysis (some ("1".toList ++
        (". PRIMARY DIAGNOSIS: Compressor failure likely (".toList
          ++ ("85".toList ++ "% likelihood)".toList)))))
      = [Block.spacer, Block.heading 2 [InlineRun.plain ("PRIMARY DIAGNOSIS".toList)],
         Block.spacer,
         Block.paragraph
          [InlineRun.plain ("Compressor failure likely  ".toList),
           InlineRun.bold ("(85% likelihood)".toList), InlineRun.italic [],
           InlineRun.plain ("(85% likelihood)".toList), InlineRun.italic []]] :=
  ⟨by decide,
   (c13_section_heading_example ("1".toList) ("85".toList)
    (by decide) (by decide) (by decide) (by decide)).1⟩


/-! ## Patterns with the `i` flag -/

theorem matchLiteral_isSome (lit s : Str) :
    (matchLiteral lit s).isSome = (lit.map canonicalize).isPrefixOf (s.map canonicalize) := by
  induction lit generalizing s with
  | nil => simp [matchLiteral]
  | cons p ps ih =>
    cases s with
    | nil => simp [matchLiteral, List.isPrefixOf]
    | cons c cs =>
      by_cases h : canonicalize p = canonicalize c
      · simp [matchLiteral, List.isPrefixOf, h, ih]
      · simp [matchLiteral, List.isPrefixOf, h]

theorem matchLiteral_none_of_canon (lit s : Str)
    (h : (lit.map canonicalize).isPrefixOf (s.map canonicalize) = false) :
    matchLiteral lit s = none := by
  have := matchLiteral_isSome lit s
  rw [h] at this
  cases hm : matchLiteral lit s with
  | none => rfl
  | some r => rw [hm] at this; simp at this

theorem matchLiteral_of_caseVariant (lit w rest : Str) (h : CaseVariant lit w) :
    matchLiteral lit (w ++ rest) = some rest := by
  unfold CaseVariant at h
  induction lit generalizing w with
  | nil =>
    cases w with
    | nil => rfl
    | cons c cs => simp at h
  | cons p ps ih =>
    cases w with
    | nil => simp at h
    | cons c cs =>
      simp only [List.map_cons, List.cons.injEq] at h
      simp [matchLiteral, h.1, ih cs h.2]

theorem length_of_caseVariant (lit w : Str) (h : CaseVariant lit w) : w.length = lit.length := by
  have := congrArg List.length h
  simpa using this

theorem matchAlternatives_cons_none (a : Str) (alts : List Str) (s : Str)
    (h : (a.map canonicalize).isPrefixOf (s.map canonicalize) = false) :
    matchAlternatives (a :: alts) s = matchAlternatives alts s := by
  rw [matchAlternatives, matchLiteral_none_of_canon a s h]

theorem matchAlternatives_cons_caseVariant (a : Str) (alts : List Str) (w : Str)
    (h : CaseVariant a w) : matchAlternatives (a :: alts) w = some (w, []) := by
  have hm := matchLiteral_of_caseVariant a w [] h
  rw [List.append_nil] at hm
  rw [matchAlternatives, hm]
  simp [List.take_of_length_le, length_of_caseVariant a w h]

theorem matchAlternatives_none_of_canon (alts : List Str) (s : Str)
    (h : alts.all (fun a => !(a.map canonicalize).isPrefixOf (s.map canonicalize)) = true) :
    matchAlternatives alts s = none := by
  induction alts with
  | nil => rfl
  | cons a rest ih =>
    simp only [List.all_cons, Bool.and_eq_true, Bool.not_eq_true'] at h
    rw [matchAlternatives_cons_none a rest s h.1]
    exact ih h.2

/-- A pattern that is an alternation of literals matches nowhere in a text when
no alternative, canonicalised, starts a tail of the canonicalised text. -/
theorem replaceAll_id_of_canon (m : Str → Option (Nat × Str)) (alts : List Str)
    (hm : ∀ s, matchAlternatives alts s = none → m s = none) (s : Str)
    (h : (s.map canonicalize).tails.all (fun t =>
      alts.all (fun a => !(a.map canonicalize).isPrefixOf t)) = true) :
    replaceAll m 0 s = s := by
  have key := replaceAll_quiet m s [] (by
    intro a b hab _
    rw [List.append_nil]
    apply hm
    apply matchAlternatives_none_of_canon
    rw [List.all_eq_true] at h
    apply h
    rw [List.mem_tails, hab, List.map_append]
    exact List.suffix_append _ _)
  simpa [replaceAll] using key

theorem toolPattern_none (s : Str) (h : matchAlternatives toolNames s = none) :
    toolPattern s = none := by
  simp [toolPattern, h]

theorem safetyPattern_none (s : Str) (h : matchAlternatives safetyKeywords s = none) :
    safetyPattern s = none := by
  simp [safetyPattern, h]

/-- A property of code units that canonicalisation keeps fails on every code
unit of `w` when it fails on the canonicalised code units. -/
theorem forall_of_canon (q : Char → Bool) (hq : ∀ c, q c = true → q (canonicalize c) = true)
    (w : Str) (h : (w.map canonicalize).all (fun y => !q y) = true) :
    ∀ c ∈ w, q c = false := by
  intro c hc
  rw [List.all_eq_true] at h
  have := h (canonicalize c) (List.mem_map_of_mem _ hc)
  cases hqc : q c with
  | false => rfl
  | true =>
    rw [hq c hqc] at this
    simp at this

theorem canonicalize_lineTerminator (c : Char) (h : isLineTerminator c = true) :
    canonicalize c = c := by
  unfold isLineTerminator at h
  simp only [Bool.or_eq_true, decide_eq_true_eq] at h
  unfold canonicalize
  rw [if_neg]
  omega

theorem beq_canon (x : Char) (hx : canonicalize x = x) (c : Char) (h : (c == x) = true) :
    (canonicalize c == x) = true := by
  have : c = x := by simpa using h
  rw [this, hx]
  simp


/-- The runs of a text that is one code span: the single code run. -/
theorem parseInlineFormatting_code (w : Str) (hstar : '*' ∉ w) (hbt : backtick ∉ w)
    (hlt : ∀ x ∈ w, isLineTerminator x = false) :
    parseInlineFormatting ([backtick] ++ (w ++ [backtick])) = [InlineRun.code w] := by
  have hs : '*' ∉ [backtick] ++ (w ++ [backtick]) := by
    simp only [List.mem_append, List.mem_singleton, not_or]
    exact ⟨by decide, hstar, by decide⟩
  have hcode : execAll [backtick] InlineRun.code 0 0 ([backtick] ++ (w ++ [backtick]))
      = [{ start := 0, endPos := w.length + 2, component := InlineRun.code w,
           original := [backtick] ++ w ++ [backtick] }] := by
    have h := execAll_match_head backtick [] InlineRun.code 0 w []
      (lazyUntil_append_of_not_mem backtick [] w [] hbt hlt)
    simp only [List.append_nil] at h
    rw [h]
    simp [execAll]
  have hcand : candidateMatches ([backtick] ++ (w ++ [backtick]))
      = [{ start := 0, endPos := w.length + 2, component := InlineRun.code w,
           original := [backtick] ++ w ++ [backtick] }] := by
    unfold candidateMatches
    rw [execAll_nil_of_not_mem '*' ['*'] _ 0 0 _ hs, execAll_nil_of_not_mem '*' [] _ 0 0 _ hs,
      hcode]
    rfl
  rw [parseInlineFormatting_eq _ _ rfl, hcand]
  simp [sortByStart, insertByStart, emit]

/-- The preprocessor and the resolver on a tool name `w` in some mix of upper
and lower case, given the canonicalised name `N`. -/
theorem tool_name_case (w N : Str) (hw : w.map canonicalize = N)
    (hplain : N.all (fun y => !isDigit y && !(y == '-') && !(y == '(') && !(y == '.') &&
      !(y == '*') && !(y == backtick) && !isLineTerminator y) = true)
    (hne : N ≠ [])
    (htool : matchAlternatives toolNames w = some (w, []))
    (hsafe : (canonicalize backtick :: (N ++ [canonicalize backtick])).tails.all (fun t =>
      safetyKeywords.all (fun a => !(a.map canonicalize).isPrefixOf t)) = true) :
    formatChatGPTAnalysis (some w) = [backtick] ++ w ++ [backtick] ∧
    parseInlineFormatting ([backtick] ++ w ++ [backtick]) = [InlineRun.code w] := by
  have hall : ∀ (q : Char → Bool), (∀ c, q c = true → q (canonicalize c) = true) →
      N.all (fun y => !q y) = true → ∀ c ∈ w, q c = false := by
    intro q hq hN
    exact forall_of_canon q hq w (by rw [hw]; exact hN)
  rw [List.all_eq_true] at hplain
  have hp : ∀ (q : Char → Bool), (∀ y, (!isDigit y && !(y == '-') && !(y == '(') &&
      !(y == '.') && !(y == '*') && !(y == backtick) && !isLineTerminator y) = true →
        q y = false) → N.all (fun y => !q y) = true := by
    intro q hq
    rw [List.all_eq_true]
    intro y hy
    simp [hq y (hplain y hy)]
  have hdig : ∀ c ∈ w, isDigit c = false :=
    hall isDigit (fun c hc => by rw [canonicalize_digit c hc]; exact hc)
      (hp _ (fun y hy => by simp at hy; simp [hy]))
  have hhyp : ∀ c ∈ w, (c == '-') = false :=
    hall _ (beq_canon '-' (by decide)) (hp _ (fun y hy => by simp at hy; simp [hy]))
  have hpar : ∀ c ∈ w, (c == '(') = false :=
    hall _ (beq_canon '(' (by decide)) (hp _ (fun y hy => by simp at hy; simp [hy]))
  have hdot : ∀ c ∈ w, (c == '.') = false :=
    hall _ (beq_canon '.' (by decide)) (hp _ (fun y hy => by simp at hy; simp [hy]))
  have hstar : ∀ c ∈ w, (c == '*') = false :=
    hall _ (beq_canon '*' (by decide)) (hp _ (fun y hy => by simp at hy; simp [hy]))
  have hbt : ∀ c ∈ w, (c == backtick) = false :=
    hall _ (beq_canon backtick (by decide)) (hp _ (fun y hy => by simp at hy; simp [hy]))
  have hlt : ∀ c ∈ w, isLineTerminator c = false :=
    hall isLineTerminator (fun c hc => by rw [canonicalize_lineTerminator c hc]; exact hc)
      (hp _ (fun y hy => by simp at hy; simp [hy]))
  have hwne : w ≠ [] := by
    intro e
    rw [e] at hw
    exact hne hw.symm
  have hstar' : '*' ∉ w := fun hm => by simpa using hstar _ hm
  have hbt' : backtick ∉ w := fun hm => by simpa using hbt _ hm
  have wrap : ∀ (q : Char → Bool), q backtick = false → (∀ c ∈ w, q c = false) →
      ∀ c ∈ [backtick] ++ w ++ [backtick], q c = false := by
    intro q hq hw' c hc
    simp only [List.mem_append, List.mem_singleton] at hc
    rcases hc with (hc | hc) | hc
    · rw [hc]; exact hq
    · exact hw' c hc
    · rw [hc]; exact hq
  have r1 := replaceAll_id_of_first sectionPattern isDigit sectionPattern_first w hdig
  have r2 := replaceAll_id_of_first subsectionPattern _ subsectionPattern_first w hhyp
  have r3 := replaceAll_id_of_first likelihoodPattern _ likelihoodPattern_first w hpar
  have m4 : toolPattern w = some (w.length, [backtick] ++ w ++ [backtick]) := by
    simp [toolPattern, htool]
  have r4 : replaceAll toolPattern 0 w = [backtick] ++ w ++ [backtick] := by
    rw [replaceAll_of_match _ _ _ _ (List.length_pos.2 hwne) m4 hwne]
    simp [replaceAll]
  have r5 : replaceAll safetyPattern 0 ([backtick] ++ w ++ [backtick])
      = [backtick] ++ w ++ [backtick] := by
    apply replaceAll_id_of_canon safetyPattern safetyKeywords safetyPattern_none
    simp only [List.map_append, List.map_cons, List.map_nil, hw, List.cons_append,
      List.nil_append]
    exact hsafe
  have r6 := replaceAll_id_of_first hoursPattern isDigit hoursPattern_first _
    (wrap isDigit (by decide) hdig)
  have r7 := replaceAll_id_of_first bulletBreakPattern _ bulletBreakPattern_first _
    (wrap _ (by decide) hdot)
  have r8 := replaceAll_id_of_first numberBreakPattern _ numberBreakPattern_first _
    (wrap _ (by decide) hdot)
  constructor
  · rw [formatChatGPTAnalysis_some w hwne, r1, r2, r3, r4, r5, r6, r7, r8]
  · have := parseInlineFormatting_code w hstar' hbt' hlt
    simpa using this

/-- C17: for each tool name (multimeter, manifold gauge, leak detector,
ohmmeter) written in any mix of upper and lower case as `w`,
`formatChatGPTAnalysis w` is `w` between two backticks, with the casing of `w`
kept, and `parseInlineFormatting` of that result is `[Code w]`. -/
theorem c17_tool_name_code (name w : Str) (hname : name ∈ toolNames)
    (hw : CaseVariant name w) :
    formatChatGPTAnalysis (some w) = [backtick] ++ w ++ [backtick] ∧
    parseInlineFormatting (formatChatGPTAnalysis (some w)) = [InlineRun.code w] := by
  have key : formatChatGPTAnalysis (some w) = [backtick] ++ w ++ [backtick] ∧
      parseInlineFormatting ([backtick] ++ w ++ [backtick]) = [InlineRun.code w] := by
    simp only [toolNames, List.mem_cons, List.mem_singleton, List.not_mem_nil, or_false] at hname
    rcases hname with rfl | rfl | rfl | rfl
    · have hN : w.map canonicalize = "MULTIMETER".toList := by rw [hw]; decide
      exact tool_name_case w _ hN (by decide) (by decide)
        (matchAlternatives_cons_caseVariant _ _ w hw) (by decide)
    · have hN : w.map canonicalize = "MANIFOLD GAUGE".toList := by rw [hw]; decide
      refine tool_name_case w _ hN (by decide) (by decide) ?_ (by decide)
      unfold toolNames
      rw [matchAlternatives_cons_none _ _ w (by rw [hN]; decide)]
      exact matchAlternatives_cons_caseVariant _ _ w hw
    · have hN : w.map canonicalize = "LEAK DETECTOR".toList := by rw [hw]; decide
      refine tool_name_case w _ hN (by decide) (by decide) ?_ (by decide)
      unfold toolNames
      rw [matchAlternatives_cons_none _ _ w (by rw [hN]; decide),
        matchAlternatives_cons_none _ _ w (by rw [hN]; decide)]
      exact matchAlternatives_cons_caseVariant _ _ w hw
    · have hN : w.map canonicalize = "OHMMETER".toList := by rw [hw]; decide
      refine tool_name_case w _ hN (by decide) (by decide) ?_ (by decide)
      unfold toolNames
      rw [matchAlternatives_cons_none _ _ w (by rw [hN]; decide),
        matchAlternatives_cons_none _ _ w (by rw [hN]; decide),
        matchAlternatives_cons_none _ _ w (by rw [hN]; decide)]
      exact matchAlternatives_cons_caseVariant _ _ w hw
  exact ⟨key.1, by rw [key.1]; exact key.2⟩

/-- C17, witness: the tool name written `"Manifold GAUGE"`. -/
theorem c17_tool_name_code_witness :
    ("manifold gauge".toList ∈ toolNames ∧
      CaseVariant ("manifold gauge".toList) ("Manifold GAUGE".toList)) ∧
    formatChatGPTAnalysis (some ("Manifold GAUGE".toList)) = "`Manifold GAUGE`".toList ∧
    parseInlineFormatting (formatChatGPTAnalysis (some ("Manifold GAUGE".toList)))
      = [InlineRun.code ("Manifold GAUGE".toList)] :=
  ⟨⟨by decide, by decide⟩,
   (c17_tool_name_code ("manifold gauge".toList) ("Manifold GAUGE".toList)
    (by decide) (by decide)).1.trans (by decide),
   (c17_tool_name_code ("manifold gauge".toList) ("Manifold GAUGE".toList)
    (by decide) (by decide)).2⟩


/-! ## The bullet break -/

theorem dropWhile_head_mem (p : Char → Bool) (l : Str) (h : Char) (r : Str)
    (hd : l.dropWhile p = h :: r) : h ∈ l := by
  have := (List.dropWhile_suffix (l := l) p).subset
  exact this (by rw [hd]; simp)

/-- The bullet-break pattern does not match at the head of `b ++ "." ++ rest`
when `b` holds no hyphen: the code unit after the period and the white space is
one of `b` or the period. -/
theorem bulletBreakPattern_none_before_dot (b rest : Str) (hb : '-' ∉ b) (hne : b ≠ []) :
    bulletBreakPattern (b ++ '.' :: rest) = none := by
  cases b with
  | nil => exact absurd rfl hne
  | cons c b' =>
    have hb' : '-' ∉ b' := fun m => hb (List.mem_cons_of_mem _ m)
    simp only [List.cons_append, bulletBreakPattern]
    split
    · cases hd : (b' ++ '.' :: rest).dropWhile isWhiteSpace with
      | nil => rfl
      | cons h r =>
        have hmem : h ∈ b' ∨ h = '.' := by
          rw [List.dropWhile_append] at hd
          split at hd
          · have hdot : isWhiteSpace '.' = false := by decide
            rw [List.dropWhile_cons, hdot] at hd
            simp only [Bool.false_eq_true, if_false, List.cons.injEq] at hd
            exact Or.inr hd.1.symm
          · rename_i hE
            cases hd' : b'.dropWhile isWhiteSpace with
            | nil => exact absurd (by simp [hd']) hE
            | cons h' r' =>
              rw [hd'] at hd
              simp only [List.cons_append, List.cons.injEq] at hd
              rw [← hd.1]
              exact Or.inl (dropWhile_head_mem _ _ _ _ hd')
        have hh : h ≠ '-' := by
          rcases hmem with hm | hm
          · intro e; exact hb' (e ▸ hm)
          · rw [hm]; decide
        simp [hh]
    · rfl

theorem bulletBreakPattern_none_of_no_hyphen (s : Str) (hs : '-' ∉ s) :
    bulletBreakPattern s = none := by
  cases s with
  | nil => rfl
  | cons c rest =>
    have hr : '-' ∉ rest := fun m => hs (List.mem_cons_of_mem _ m)
    simp only [bulletBreakPattern]
    split
    · cases hd : rest.dropWhile isWhiteSpace with
      | nil => rfl
      | cons h r =>
        have hh : h ≠ '-' := fun e => hr (e ▸ dropWhile_head_mem _ _ _ _ hd)
        simp [hh]
    · rfl

/-- The bullet-break rewrite on `x ++ ". - " ++ y`, when `x` and `y` hold no
hyphen and `y` does not start with white space. -/
theorem bulletBreak_rewrite (x y : Str) (hx : '-' ∉ x) (hy : '-' ∉ y)
    (hys : trimStart y = y) :
    replaceAll bulletBreakPattern 0 (x ++ ('.' :: ' ' :: '-' :: ' ' :: y))
      = x ++ ('.' :: '\n' :: '\n' :: '-' :: ' ' :: y) := by
  have hquiet : ∀ z : Str, '-' ∉ z → replaceAll bulletBreakPattern 0 z = z := by
    intro z hz
    have := replaceAll_quiet bulletBreakPattern z [] (by
      intro a b hab _
      rw [List.append_nil]
      exact bulletBreakPattern_none_of_no_hyphen b (fun m => hz (by simp [hab, m])))
    simpa [replaceAll] using this
  have htake : (y.takeWhile isWhiteSpace).length = 0 := by
    cases y with
    | nil => rfl
    | cons c r =>
      have hc := dropWhile_eq_self_cons isWhiteSpace c r hys
      simp [List.takeWhile_cons, hc]
  have hm : bulletBreakPattern ('.' :: ' ' :: '-' :: ' ' :: y)
      = some (4, ['.', '\n', '\n', '-', ' ']) := by
    have h1 : isWhiteSpace ' ' = true := by decide
    have h2 : isWhiteSpace '-' = false := by decide
    simp [bulletBreakPattern, List.takeWhile_cons, List.dropWhile_cons, h1, h2, htake]
  rw [replaceAll_quiet bulletBreakPattern x _ (fun a b hab hb =>
      bulletBreakPattern_none_before_dot b _ (fun m => hx (by simp [hab, m])) hb),
    replaceAll_of_match _ _ _ _ (by omega) hm (by simp)]
  simp [hquiet y hy]


theorem trimEnd_eq_nil_iff (s : Str) : trimEnd s = [] ↔ ∀ c ∈ s, isWhiteSpace c = true := by
  unfold trimEnd
  rw [List.reverse_eq_nil_iff, List.dropWhile_eq_nil_iff]
  simp

theorem trimEnd_cons (c : Char) (s : Str) (h : trimEnd s ≠ []) :
    trimEnd (c :: s) = c :: trimEnd s := by
  unfold trimEnd at *
  rw [List.reverse_cons, List.dropWhile_append]
  have hE : ¬ (List.dropWhile isWhiteSpace s.reverse).isEmpty = true := by
    intro e
    apply h
    rw [List.isEmpty_iff] at e
    rw [e]
    rfl
  rw [if_neg hE]
  simp

theorem trimEnd_idempotent (s : Str) : trimEnd (trimEnd s) = trimEnd s := by
  unfold trimEnd
  rw [List.reverse_reverse, List.dropWhile_idempotent]

theorem trim_eq_nil_imp (s : Str) (h : trim s = []) : ∀ c ∈ s, isWhiteSpace c = true := by
  unfold trim at h
  have h1 := (trimEnd_eq_nil_iff _).1 h
  have h2 : trimStart s = [] := by
    cases hd : trimStart s with
    | nil => rfl
    | cons a r =>
      have ha := dropWhile_head_false isWhiteSpace s a r hd
      have := h1 a (by rw [hd]; simp)
      rw [ha] at this
      exact absurd this (by simp)
  unfold trimStart at h2
  rw [List.dropWhile_eq_nil_iff] at h2
  exact h2

theorem lineElem_of_not_marker (line : Str) (hne : trim line ≠ [])
    (hm : startsWithBlockMarker (trim line) = false) :
    lineElem line = Elem.paragraph (parseInlineFormatting (trim line)) := by
  unfold startsWithBlockMarker at hm
  simp only [Bool.or_eq_false_iff] at hm
  obtain ⟨⟨⟨⟨m1, m2⟩, m3⟩, m4⟩, m5⟩ := hm
  have m5' : stripOrderedMarker (trim line) = none := by
    cases hs : stripOrderedMarker (trim line) with
    | none => rfl
    | some r => rw [hs] at m5; simp at m5
  unfold lineElem
  simp [hne, m1, m2, m3, m4, m5']

/-- A bullet line whose text starts with a code unit that is not white space is
an unordered-list item holding the trimmed text. -/
theorem lineElem_bullet (y : Str) (hne : y ≠ []) (hys : trimStart y = y) :
    lineElem ('-' :: ' ' :: y) = Elem.item false (parseInlineFormatting (trim y)) := by
  cases y with
  | nil => exact absurd rfl hne
  | cons c r =>
    have hc : isWhiteSpace c = false := dropWhile_eq_self_cons isWhiteSpace c r hys
    have hE : trimEnd (c :: r) ≠ [] := by
      intro e
      have := (trimEnd_eq_nil_iff _).1 e c (by simp)
      rw [hc] at this
      exact absurd this (by simp)
    have hhead : ∃ r', trimEnd (c :: r) = c :: r' := by
      by_cases hr : trimEnd r = []
      · refine ⟨[], ?_⟩
        unfold trimEnd at hr ⊢
        rw [List.reverse_eq_nil_iff] at hr
        rw [List.reverse_cons, List.dropWhile_append, hr]
        simp [List.dropWhile_cons, hc]
      · exact ⟨trimEnd r, trimEnd_cons c r hr⟩
    obtain ⟨r', hr'⟩ := hhead
    have ht : trim (c :: r) = trimEnd (c :: r) := by
      unfold trim
      rw [hys]
    have h1 : trimEnd (' ' :: c :: r) = ' ' :: trimEnd (c :: r) := trimEnd_cons _ _ hE
    have h2 : trimEnd ('-' :: ' ' :: c :: r) = '-' :: ' ' :: trimEnd (c :: r) := by
      rw [trimEnd_cons _ _ (by rw [h1]; simp), h1]
    have h3 : trimStart ('-' :: ' ' :: c :: r) = '-' :: ' ' :: c :: r := by
      have : isWhiteSpace '-' = false := by decide
      simp [trimStart, List.dropWhile_cons, this]
    have htrim : trim ('-' :: ' ' :: c :: r) = '-' :: ' ' :: trimEnd (c :: r) := by
      unfold trim
      rw [h3, h2]
    have hinner : trim (trimEnd (c :: r)) = trimEnd (c :: r) := by
      unfold trim
      have : trimStart (trimEnd (c :: r)) = trimEnd (c :: r) := by
        rw [hr']
        simp [trimStart, List.dropWhile_cons, hc]
      rw [this, trimEnd_idempotent]
    unfold lineElem
    simp only [htrim]
    simp [startsWith, List.isPrefixOf, hinner, ht]

/-- C16 (as stated, refuted): with `x = "a"` and `y = " b"` no other rewrite
changes the text, yet the bullet-break pattern takes the white space that
starts `y` into its match, so the result is `"a.\n\n- b"` and not
`x ++ ".\n\n- " ++ y`; with `y = ""` the line `"- "` is trimmed to `"-"` and
parsed as a paragraph, not as a list item. -/
theorem c16_leading_space_counterexample :
    (replaceAll sectionPattern 0 ("a. -  b".toList) = "a. -  b".toList ∧
      replaceAll subsectionPattern 0 ("a. -  b".toList) = "a. -  b".toList ∧
      replaceAll likelihoodPattern 0 ("a. -  b".toList) = "a. -  b".toList ∧
      replaceAll toolPattern 0 ("a. -  b".toList) = "a. -  b".toList ∧
      replaceAll safetyPattern 0 ("a. -  b".toList) = "a. -  b".toList ∧
      replaceAll hoursPattern 0 ("a. -  b".toList) = "a. -  b".toList ∧
      replaceAll numberBreakPattern 0 ("a.\n\n- b".toList) = "a.\n\n- b".toList) ∧
    formatChatGPTAnalysis (some ("a".toList ++ ". - ".toList ++ " b".toList))
      = "a.\n\n- b".toList ∧
    formatChatGPTAnalysis (some ("a".toList ++ ". - ".toList ++ " b".toList))
      ≠ "a".toList ++ ".\n\n- ".toList ++ " b".toList ∧
    parseMarkdown (formatChatGPTAnalysis (some ("a".toList ++ ". - ".toList ++ "".toList)))
      = [Block.paragraph [InlineRun.plain ("a.".toList)], Block.spacer,
         Block.paragraph [InlineRun.plain ("-".toList)]] := by
  decide

/-- C16 (amended): for every text `x ++ ". - " ++ y` where `x` and `y` are
single lines without a hyphen, no other rewrite changes the text, `y` is not
empty and does not start with white space, and `x ++ "."` does not start with a
block marker, `formatChatGPTAnalysis` returns `x ++ ".\n\n- " ++ y`, and parsing
that result gives the paragraph of `x ++ "."`, a spacer, and an unordered list
whose single item is `y`. -/
theorem c16_bullet_break (x y : Str)
    (q1 : replaceAll sectionPattern 0 (x ++ ". - ".toList ++ y) = x ++ ". - ".toList ++ y)
    (q2 : replaceAll subsectionPattern 0 (x ++ ". - ".toList ++ y) = x ++ ". - ".toList ++ y)
    (q3 : replaceAll likelihoodPattern 0 (x ++ ". - ".toList ++ y) = x ++ ". - ".toList ++ y)
    (q4 : replaceAll toolPattern 0 (x ++ ". - ".toList ++ y) = x ++ ". - ".toList ++ y)
    (q5 : replaceAll safetyPattern 0 (x ++ ". - ".toList ++ y) = x ++ ". - ".toList ++ y)
    (q6 : replaceAll hoursPattern 0 (x ++ ". - ".toList ++ y) = x ++ ". - ".toList ++ y)
    (q8 : replaceAll numberBreakPattern 0 (x ++ ".\n\n- ".toList ++ y)
      = x ++ ".\n\n- ".toList ++ y)
    (hx : '-' ∉ x) (hy : '-' ∉ y) (nx : '\n' ∉ x) (ny : '\n' ∉ y)
    (hyne : y ≠ []) (hys : trimStart y = y)
    (hpar : startsWithBlockMarker (trim (x ++ ['.'])) = false) :
    formatChatGPTAnalysis (some (x ++ ". - ".toList ++ y)) = x ++ ".\n\n- ".toList ++ y ∧
    parseMarkdown (formatChatGPTAnalysis (some (x ++ ". - ".toList ++ y)))
      = [Block.paragraph (parseInlineFormatting (trim (x ++ ['.']))), Block.spacer,
         Block.list false [parseInlineFormatting (trim y)]] := by
  have hpre : formatChatGPTAnalysis (some (x ++ ". - ".toList ++ y))
      = x ++ ".\n\n- ".toList ++ y := by
    rw [formatChatGPTAnalysis_some _ (by simp), q1, q2, q3, q4, q5, q6]
    have e1 : x ++ ". - ".toList ++ y = x ++ ('.' :: ' ' :: '-' :: ' ' :: y) := by simp
    have e2 : x ++ ".\n\n- ".toList ++ y = x ++ ('.' :: '\n' :: '\n' :: '-' :: ' ' :: y) := by
      simp
    rw [e1, bulletBreak_rewrite x y hx hy hys, ← e2, q8]
  refine ⟨hpre, ?_⟩
  rw [hpre]
  have e3 : x ++ ".\n\n- ".toList ++ y
      = (x ++ ['.']) ++ '\n' :: ([] ++ '\n' :: ('-' :: ' ' :: y)) := by simp
  have n1 : '\n' ∉ x ++ ['.'] := by
    simp only [List.mem_append, List.mem_singleton, not_or]
    exact ⟨nx, by decide⟩
  have n3 : '\n' ∉ '-' :: ' ' :: y := by
    simp only [List.mem_cons, not_or]
    exact ⟨by decide, by decide, ny⟩
  have hne1 : trim (x ++ ['.']) ≠ [] := by
    intro e
    have := trim_eq_nil_imp _ e '.' (by simp)
    exact absurd this (by decide)
  unfold parseMarkdown
  rw [e3, splitLines_append_newline _ _ n1, splitLines_append_newline _ _ (by simp),
    splitLines_of_not_mem _ n3]
  simp only [List.foldl_cons, List.foldl_nil, processLine_eq_applyElem,
    lineElem_of_not_marker _ hne1 hpar, lineElem_bullet y hyne hys]
  have e0 : lineElem [] = Elem.spacer := by decide
  rw [e0]
  simp [applyElem, closeList, initialState]

/-- C16, witness: the text `"Check the filter. - Replace it"`. -/
theorem c16_bullet_break_witness :
    formatChatGPTAnalysis (some ("Check the filter".toList ++ ". - ".toList ++ "Replace it".toList))
      = "Check the filter.\n\n- Replace it".toList ∧
    parseMarkdown (formatChatGPTAnalysis
        (some ("Check the filter".toList ++ ". - ".toList ++ "Replace it".toList)))
      = [Block.paragraph [InlineRun.plain ("Check the filter.".toList)], Block.spacer,
         Block.list false [[InlineRun.plain ("Replace it".toList)]]] :=
  ⟨(c16_bullet_break ("Check the filter".toList) ("Replace it".toList)
      (by decide) (by decide) (by decide) (by decide) (by decide) (by decide) (by decide)
      (by decide) (by decide) (by decide) (by decide) (by decide) (by decide) (by decide)).1.trans
      (by decide),
   (c16_bullet_break ("Check the filter".toList) ("Replace it".toList)
      (by decide) (by decide) (by decide) (by decide) (by decide) (by decide) (by decide)
      (by decide) (by decide) (by decide) (by decide) (by decide) (by decide) (by decide)).2.trans
      (by decide)⟩


/-! ## One formatted run per candidate match -/

theorem filter_of_imp (p q : InlineRun → Bool) (hpq : ∀ r, p r = true → q r = true)
    (l : List InlineRun) : (l.filter q).filter p = l.filter p := by
  induction l with
  | nil => rfl
  | cons x xs ih =>
    by_cases hq : q x = true
    · by_cases hp : p x = true
      · simp [List.filter_cons, hq, hp, ih]
      · simp [List.filter_cons, hq, hp, ih]
    · have hp : ¬ p x = true := fun h => hq (hpq x h)
      simp [List.filter_cons, hq, hp, ih]

theorem execAll_component (delim : Str) (component : Str → InlineRun) (skip off : Nat)
    (s : Str) (r : Replacement) (h : r ∈ execAll delim component skip off s) :
    ∃ content, r.component = component content := by
  obtain ⟨content, _, _, _, _, _, _, hco, _⟩ := execAll_mem _ _ _ _ _ r h
  exact ⟨content, hco⟩

theorem candidateMatches_formatted (text : Str) (r : Replacement)
    (h : r ∈ candidateMatches text) : r.component.isFormatted = true := by
  unfold candidateMatches at h
  simp only [List.mem_append] at h
  rcases h with (h | h) | h
  all_goals
    obtain ⟨content, hco⟩ := execAll_component _ _ _ _ _ r h
    rw [hco]
    rfl

theorem filter_foldl_emit (text : Str) (sorted : List Replacement) (st : Nat × List InlineRun)
    (h : ∀ r ∈ sorted, r.component.isFormatted = true) :
    ((sorted.foldl (emit text) st).2).filter InlineRun.isFormatted
      = st.2.filter InlineRun.isFormatted ++ sorted.map (fun r => r.component) := by
  induction sorted generalizing st with
  | nil => simp
  | cons r rs ih =>
    rw [List.foldl_cons, ih _ (fun r' hr' => h r' (by simp [hr']))]
    have hr := h r (by simp)
    have hp : ∀ s, InlineRun.isFormatted (InlineRun.plain s) = false := fun _ => rfl
    unfold emit
    split
    · simp [List.filter_append, List.filter_cons, hr, hp]
    · simp [List.filter_append, List.filter_cons, hr]

/-- The formatted runs of the result are the components of the candidate
matches, sorted by start offset. -/
theorem filter_parseInlineFormatting (text : Str) :
    (parseInlineFormatting text).filter InlineRun.isFormatted
      = (sortByStart (candidateMatches text)).map (fun r => r.component) := by
  have hf : ∀ r ∈ sortByStart (candidateMatches text), r.component.isFormatted = true :=
    fun r hr => candidateMatches_formatted text r ((perm_sortByStart _).subset hr)
  have key := filter_foldl_emit text _ (0, []) hf
  simp only [List.filter_nil, List.nil_append] at key
  obtain ⟨st, hst⟩ : ∃ st, st = (sortByStart (candidateMatches text)).foldl (emit text) (0, []) :=
    ⟨_, rfl⟩
  rw [← hst] at key
  rw [parseInlineFormatting_eq text st hst, ← key]
  have hres : (if st.1 < text.length then
      st.2 ++ [InlineRun.plain (text.drop st.1)] else st.2).filter InlineRun.isFormatted
      = st.2.filter InlineRun.isFormatted := by
    split
    · simp [List.filter_append, List.filter_cons, InlineRun.isFormatted]
    · rfl
  generalize (if st.1 < text.length then
      st.2 ++ [InlineRun.plain (text.drop st.1)] else st.2) = result at hres ⊢
  cases result with
  | nil =>
    rw [← hres]
    simp [List.filter_cons, InlineRun.isFormatted]
  | cons x xs => simpa using hres

theorem length_filter_components (p : InlineRun → Bool) (pool : List Replacement)
    (h : ∀ r ∈ pool, p r.component = true) :
    ((pool.map (fun r => r.component)).filter p).length = pool.length := by
  rw [List.filter_eq_self.2]
  · simp
  · intro x hx
    obtain ⟨r, hr, rfl⟩ := List.mem_map.1 hx
    exact h r hr

theorem filter_components_nil (p : InlineRun → Bool) (pool : List Replacement)
    (h : ∀ r ∈ pool, p r.component = false) :
    (pool.map (fun r => r.component)).filter p = [] := by
  rw [List.filter_eq_nil_iff]
  intro x hx
  obtain ⟨r, hr, rfl⟩ := List.mem_map.1 hx
  simp [h r hr]

theorem length_filter_kind (text : Str) (p : InlineRun → Bool)
    (hp : ∀ r, p r = true → r.isFormatted = true) :
    ((parseInlineFormatting text).filter p).length
      = (((candidateMatches text).map (fun r => r.component)).filter p).length := by
  rw [← filter_of_imp p InlineRun.isFormatted hp, filter_parseInlineFormatting]
  exact (((perm_sortByStart (candidateMatches text)).map _).filter p).length_eq

/-- C21: for every fragment, the formatted runs of `parseInlineFormatting` are
exactly the components of the candidate matches of the three scans, in
ascending order of start offset; the numbers of bold, italic and code runs are
the numbers of bold, italic and code matches, so no match is dropped, whether
or not it overlaps a match emitted before it. -/
theorem c21_one_run_per_match (text : Str) :
    (parseInlineFormatting text).filter InlineRun.isFormatted
      = (sortByStart (candidateMatches text)).map (fun r => r.component) ∧
    (sortByStart (candidateMatches text)).Pairwise (fun a b => a.start ≤ b.start) ∧
    (sortByStart (candidateMatches text)).Perm (candidateMatches text) ∧
    ((parseInlineFormatting text).filter InlineRun.isBold).length
      = (execAll ['*', '*'] InlineRun.bold 0 0 text).length ∧
    ((parseInlineFormatting text).filter InlineRun.isItalic).length
      = (execAll ['*'] InlineRun.italic 0 0 text).length ∧
    ((parseInlineFormatting text).filter InlineRun.isCode).length
      = (execAll [backtick] InlineRun.code 0 0 text).length := by
  have hb : ∀ r ∈ execAll ['*', '*'] InlineRun.bold 0 0 text, ∃ c, r.component = InlineRun.bold c :=
    fun r hr => execAll_component _ _ _ _ _ r hr
  have hi : ∀ r ∈ execAll ['*'] InlineRun.italic 0 0 text, ∃ c, r.component = InlineRun.italic c :=
    fun r hr => execAll_component _ _ _ _ _ r hr
  have hc : ∀ r ∈ execAll [backtick] InlineRun.code 0 0 text, ∃ c, r.component = InlineRun.code c :=
    fun r hr => execAll_component _ _ _ _ _ r hr
  refine ⟨filter_parseInlineFormatting text, sorted_sortByStart _, perm_sortByStart _, ?_, ?_, ?_⟩
  · rw [length_filter_kind text _ (fun r h => by cases r <;> simp_all [InlineRun.isBold,
      InlineRun.isFormatted])]
    unfold candidateMatches
    rw [List.map_append, List.map_append, List.filter_append, List.filter_append,
      filter_components_nil _ (execAll ['*'] InlineRun.italic 0 0 text)
        (fun r hr => by obtain ⟨c, h⟩ := hi r hr; rw [h]; rfl),
      filter_components_nil _ (execAll [backtick] InlineRun.code 0 0 text)
        (fun r hr => by obtain ⟨c, h⟩ := hc r hr; rw [h]; rfl),
      List.append_nil, List.append_nil,
      length_filter_components _ _ (fun r hr => by obtain ⟨c, h⟩ := hb r hr; rw [h]; rfl)]
  · rw [length_filter_kind text _ (fun r h => by cases r <;> simp_all [InlineRun.isItalic,
      InlineRun.isFormatted])]
    unfold candidateMatches
    rw [List.map_append, List.map_append, List.filter_append, List.filter_append,
      filter_components_nil _ (execAll ['*', '*'] InlineRun.bold 0 0 text)
        (fun r hr => by obtain ⟨c, h⟩ := hb r hr; rw [h]; rfl),
      filter_components_nil _ (execAll [backtick] InlineRun.code 0 0 text)
        (fun r hr => by obtain ⟨c, h⟩ := hc r hr; rw [h]; rfl),
      List.nil_append, List.append_nil,
      length_filter_components _ _ (fun r hr => by obtain ⟨c, h⟩ := hi r hr; rw [h]; rfl)]
  · rw [length_filter_kind text _ (fun r h => by cases r <;> simp_all [InlineRun.isCode,
      InlineRun.isFormatted])]
    unfold candidateMatches
    rw [List.map_append, List.map_append, List.filter_append, List.filter_append,
      filter_components_nil _ (execAll ['*', '*'] InlineRun.bold 0 0 text)
        (fun r hr => by obtain ⟨c, h⟩ := hb r hr; rw [h]; rfl),
      filter_components_nil _ (execAll ['*'] InlineRun.italic 0 0 text)
        (fun r hr => by obtain ⟨c, h⟩ := hi r hr; rw [h]; rfl),
      List.nil_append, List.nil_append,
      length_filter_components _ _ (fun r hr => by obtain ⟨c, h⟩ := hc r hr; rw [h]; rfl)]


/-! ## A keyword that is already bold -/

/-- C22: for every safety keyword `w` among Always, Never, Caution, Warning and
Important, `formatChatGPTAnalysis ("**" ++ w ++ "**")` is
`"****" ++ w ++ "****"`, and the runs of that result hold `Plain w` and no bold
run with the content `w`. -/
theorem c22_bold_keyword_wrapped_again (w : Str) (hw : w ∈ safetyKeywords) :
    formatChatGPTAnalysis (some (['*', '*'] ++ w ++ ['*', '*']))
      = ['*', '*', '*', '*'] ++ w ++ ['*', '*', '*', '*'] ∧
    InlineRun.plain w
      ∈ parseInlineFormatting (formatChatGPTAnalysis (some (['*', '*'] ++ w ++ ['*', '*']))) ∧
    InlineRun.bold w
      ∉ parseInlineFormatting (formatChatGPTAnalysis (some (['*', '*'] ++ w ++ ['*', '*']))) := by
  simp only [safetyKeywords, List.mem_cons, List.mem_singleton, List.not_mem_nil, or_false] at hw
  rcases hw with rfl | rfl | rfl | rfl | rfl <;> decide

/-- C22, witness: the keyword `Always`; the runs of `"****Always****"` are two
empty bold runs, four empty italic runs and `Plain "Always"`. -/
theorem c22_bold_keyword_wrapped_again_witness :
    "Always".toList ∈ safetyKeywords ∧
    formatChatGPTAnalysis (some ("**Always**".toList)) = "****Always****".toList ∧
    parseInlineFormatting ("****Always****".toList)
      = [InlineRun.bold [], InlineRun.italic [], InlineRun.italic [],
         InlineRun.plain ("Always".toList), InlineRun.bold [], InlineRun.italic [],
         InlineRun.italic []] ∧
    InlineRun.plain ("Always".toList)
      ∈ parseInlineFormatting (formatChatGPTAnalysis (some ("**Always**".toList))) :=
  ⟨by decide,
   (c22_bold_keyword_wrapped_again ("Always".toList) (by decide)).1.trans (by decide),
   by decide,
   (c22_bold_keyword_wrapped_again ("Always".toList) (by decide)).2.1⟩


/-! ## The fragments passed to the inline resolver -/

theorem trimEnd_cons_of_not_whiteSpace (c : Char) (r : Str) (hc : isWhiteSpace c = false) :
    ∃ r', trimEnd (c :: r) = c :: r' := by
  by_cases hr : trimEnd r = []
  · refine ⟨[], ?_⟩
    unfold trimEnd at hr ⊢
    rw [List.reverse_eq_nil_iff] at hr
    rw [List.reverse_cons, List.dropWhile_append, hr]
    simp [List.dropWhile_cons, hc]
  · exact ⟨trimEnd r, trimEnd_cons c r hr⟩

theorem trim_idempotent (s : Str) : trim (trim s) = trim s := by
  unfold trim
  cases hd : trimStart s with
  | nil => simp [trimEnd, trimStart]
  | cons c r =>
    have hc : isWhiteSpace c = false := dropWhile_head_false isWhiteSpace s c r hd
    obtain ⟨r', hr'⟩ := trimEnd_cons_of_not_whiteSpace c r hc
    have : trimStart (trimEnd (c :: r)) = trimEnd (c :: r) := by
      rw [hr']
      simp [trimStart, List.dropWhile_cons, hc]
    rw [this, trimEnd_idempotent]

/-- In a trimmed text, what follows a white-space code unit is not blank. -/
theorem trim_ne_nil_after_whiteSpace (t pre rest : Str) (w : Char)
    (ht : trimEnd t = t) (hsplit : t = pre ++ w :: rest) (hw : isWhiteSpace w = true) :
    trim rest ≠ [] := by
  intro h
  have hall := trim_eq_nil_imp rest h
  have hlen : (trimEnd t).length < t.length := by
    rw [hsplit]
    unfold trimEnd
    rw [List.reverse_append, List.reverse_cons, List.length_reverse, List.append_assoc,
      List.dropWhile_append_of_pos (fun a ha => hall a (List.mem_reverse.1 ha)),
      List.dropWhile_append_of_pos (fun a ha => by
        rw [List.mem_singleton.1 ha]; exact hw)]
    have := (List.dropWhile_suffix (l := pre.reverse) isWhiteSpace).length_le
    simp only [List.length_reverse] at this
    simp only [List.length_append, List.length_cons]
    omega
  rw [ht] at hlen
  exact Nat.lt_irrefl _ hlen

theorem stripOrderedMarker_split (t rest : Str) (h : stripOrderedMarker t = some rest) :
    ∃ pre w, t = pre ++ w :: rest ∧ isWhiteSpace w = true := by
  unfold stripOrderedMarker at h
  split at h
  · split at h
    · rename_i c w rest' hd
      split at h
      · rename_i hcw
        injection h with h
        subst h
        simp only [Bool.and_eq_true, decide_eq_true_eq] at hcw
        refine ⟨t.takeWhile isDigit ++ [c], w, ?_, hcw.2⟩
        have := List.takeWhile_append_dropWhile isDigit t
        rw [hd] at this
        simpa using this.symm
      · exact absurd h (by simp)
    · exact absurd h (by simp)
  · exact absurd h (by simp)

theorem drop_split_of_startsWith (t marker : Str) (w : Char) (h : startsWith t (marker ++ [w]) = true) :
    t = marker ++ w :: t.drop (marker.length + 1) := by
  have := startsWith_eq_append t (marker ++ [w]) h
  simpa using this

/-- Every fragment passed to the inline resolver is non-empty and trimmed. -/
theorem lineFragment_spec (line f : Str) (h : lineFragment line = some f) :
    f ≠ [] ∧ trim f = f := by
  have ht : trimEnd (trim line) = trim line :=
    trimEnd_eq_self_of_trim _ (trim_idempotent line)
  have hws : isWhiteSpace ' ' = true := by decide
  unfold lineFragment at h
  simp only at h
  split at h
  · exact absurd h (by simp)
  · rename_i hne
    split at h
    · rename_i hp
      injection h with h
      subst h
      exact ⟨trim_ne_nil_after_whiteSpace _ _ _ ' ' ht
        (drop_split_of_startsWith _ ['#', '#'] ' ' hp) hws, trim_idempotent _⟩
    · split at h
      · rename_i hp
        injection h with h
        subst h
        exact ⟨trim_ne_nil_after_whiteSpace _ _ _ ' ' ht
          (drop_split_of_startsWith _ ['#', '#', '#'] ' ' hp) hws, trim_idempotent _⟩
      · split at h
        · rename_i hp
          injection h with h
          subst h
          simp only [Bool.or_eq_true] at hp
          rcases hp with hp | hp
          · exact ⟨trim_ne_nil_after_whiteSpace _ _ _ ' ' ht
              (drop_split_of_startsWith _ ['-'] ' ' hp) hws, trim_idempotent _⟩
          · exact ⟨trim_ne_nil_after_whiteSpace _ _ _ ' ' ht
              (drop_split_of_startsWith _ ['*'] ' ' hp) hws, trim_idempotent _⟩
        · split at h
          · rename_i rest hs
            injection h with h
            subst h
            obtain ⟨pre, w, hsplit, hw⟩ := stripOrderedMarker_split _ _ hs
            exact ⟨trim_ne_nil_after_whiteSpace _ _ _ w ht hsplit hw, trim_idempotent _⟩
          · injection h with h
            subst h
            exact ⟨hne, trim_idempotent _⟩

theorem text_lineElem (line : Str) :
    (lineElem line).text = (lineFragment line).map parseInlineFormatting := by
  unfold lineElem lineFragment
  simp only
  by_cases h1 : trim line = []
  · simp only [h1, if_true]; rfl
  simp only [h1, if_false]
  by_cases h2 : startsWith (trim line) ['#', '#', ' '] = true
  · simp only [h2, if_true]; rfl
  simp only [h2, if_false]
  by_cases h3 : startsWith (trim line) ['#', '#', '#', ' '] = true
  · simp only [h3, if_true]; rfl
  simp only [h3, if_false]
  by_cases h4 : (startsWith (trim line) ['-', ' '] || startsWith (trim line) ['*', ' ']) = true
  · simp only [h4, if_true]; rfl
  simp only [h4, if_false]
  cases h : stripOrderedMarker (trim line) <;> rfl

/-- C23: for every input text, the inline content of every heading, paragraph
and list item of `parseMarkdown text` is `parseInlineFormatting` of the fragment
of its line, and every such fragment is non-empty and has no leading or trailing
white space; the resolver is never called on an empty fragment. -/
theorem c23_fragments_nonempty_trimmed (text : Str) :
    (flatten (parseMarkdown text)).map Elem.text
      = (splitLines text).map (fun line => (lineFragment line).map parseInlineFormatting) ∧
    ∀ line f, lineFragment line = some f → f ≠ [] ∧ trim f = f := by
  refine ⟨?_, lineFragment_spec⟩
  rw [flatten_parseMarkdown, List.map_map]
  apply List.map_congr_left
  intro line _
  exact text_lineElem line

/-- C23, witness: the line `"  ##   Root Causes  "` gives the fragment
`"Root Causes"`. -/
theorem c23_fragments_nonempty_trimmed_witness :
    lineFragment ("  ##   Root Causes  ".toList) = some ("Root Causes".toList) ∧
    "Root Causes".toList ≠ [] ∧ trim ("Root Causes".toList) = "Root Causes".toList :=
  ⟨by decide,
   (c23_fragments_nonempty_trimmed []).2 ("  ##   Root Causes  ".toList) ("Root Causes".toList)
    (by decide)⟩


/-! ## Trimming the lines of a text -/

theorem splitLines_ne_nil (text : Str) : splitLines text ≠ [] := by
  induction text with
  | nil => simp [splitLines]
  | cons c cs ih =>
    unfold splitLines
    split
    · simp
    · cases h : splitLines cs with
      | nil => simp
      | cons l ls => simp

theorem not_mem_of_mem_splitLines (text : Str) : ∀ l ∈ splitLines text, '\n' ∉ l := by
  induction text with
  | nil => simp [splitLines]
  | cons c cs ih =>
    intro l hl
    unfold splitLines at hl
    split at hl
    · rcases List.mem_cons.1 hl with h | h
      · rw [h]; simp
      · exact ih l h
    · rename_i hc
      cases h : splitLines cs with
      | nil =>
        rw [h] at hl
        simp only [List.mem_singleton] at hl
        rw [hl]
        simpa using Ne.symm hc
      | cons l' ls =>
        rw [h] at hl ih
        rcases List.mem_cons.1 hl with h' | h'
        · rw [h']
          have := ih l' (by simp)
          simp only [List.mem_cons, not_or]
          exact ⟨Ne.symm hc, this⟩
        · exact ih l (by simp [h'])

theorem joinLines_cons (l : Str) (ls : List Str) (h : ls ≠ []) :
    joinLines (l :: ls) = l ++ '\n' :: joinLines ls := by
  cases ls with
  | nil => exact absurd rfl h
  | cons l' ls' => rfl

theorem joinLines_cons_cons (c : Char) (l : Str) (ls : List Str) :
    joinLines ((c :: l) :: ls) = c :: joinLines (l :: ls) := by
  cases ls with
  | nil => rfl
  | cons l' ls' => rfl

theorem joinLines_splitLines (text : Str) : joinLines (splitLines text) = text := by
  induction text with
  | nil => rfl
  | cons c cs ih =>
    unfold splitLines
    split
    · rename_i hc
      rw [joinLines_cons _ _ (splitLines_ne_nil cs), ih, hc]
      rfl
    · cases h : splitLines cs with
      | nil => exact absurd h (splitLines_ne_nil cs)
      | cons l ls =>
        rw [h] at ih
        simp only
        rw [joinLines_cons_cons, ih]

theorem splitLines_joinLines (ls : List Str) (hne : ls ≠ []) (h : ∀ l ∈ ls, '\n' ∉ l) :
    splitLines (joinLines ls) = ls := by
  induction ls with
  | nil => exact absurd rfl hne
  | cons l rest ih =>
    cases rest with
    | nil => exact splitLines_of_not_mem l (h l (by simp))
    | cons l' rest' =>
      rw [joinLines_cons _ _ (by simp), splitLines_append_newline _ _ (h l (by simp)),
        ih (by simp) (fun x hx => h x (by simp [hx]))]

theorem mem_of_mem_trim (c : Char) (s : Str) (h : c ∈ trim s) : c ∈ s := by
  unfold trim trimEnd at h
  have h1 := (List.dropWhile_suffix (l := (trimStart s).reverse) isWhiteSpace).subset
    (List.mem_reverse.1 h)
  have h2 := (List.dropWhile_suffix (l := s) isWhiteSpace).subset (List.mem_reverse.1 h1)
  exact h2

theorem lineElem_trim (line : Str) : lineElem (trim line) = lineElem line := by
  unfold lineElem
  rw [trim_idempotent]

theorem foldl_processLine_trim (ls : List Str) (st : ParserState) :
    (ls.map trim).foldl processLine st = ls.foldl processLine st := by
  induction ls generalizing st with
  | nil => rfl
  | cons l rest ih =>
    simp only [List.map_cons, List.foldl_cons, processLine_eq_applyElem, lineElem_trim]
    exact ih _

theorem splitLines_trimLines (text : Str) :
    splitLines (trimLines text) = (splitLines text).map trim := by
  unfold trimLines
  apply splitLines_joinLines
  · simpa using splitLines_ne_nil text
  · intro l hl
    obtain ⟨l0, hl0, rfl⟩ := List.mem_map.1 hl
    exact fun hm => not_mem_of_mem_splitLines text l0 hl0 (mem_of_mem_trim _ _ hm)

theorem parseMarkdown_trimLines (text : Str) :
    parseMarkdown (trimLines text) = parseMarkdown text := by
  unfold parseMarkdown
  rw [splitLines_trimLines, foldl_processLine_trim]

theorem trimLines_ne_nil (text : Str) (h : ∃ c ∈ text, isWhiteSpace c = false) :
    trimLines text ≠ [] := by
  intro e
  have hs := splitLines_trimLines text
  rw [e] at hs
  have hone : (splitLines text).map trim = [[]] := hs.symm
  cases hl : splitLines text with
  | nil => exact absurd hl (splitLines_ne_nil text)
  | cons l ls =>
    rw [hl] at hone
    simp only [List.map_cons, List.cons.injEq, List.map_eq_nil_iff] at hone
    obtain ⟨ht, hnil⟩ := hone
    subst hnil
    have htext : text = l := by
      have := joinLines_splitLines text
      rw [hl] at this
      exact this.symm
    obtain ⟨c, hc, hw⟩ := h
    have := trim_eq_nil_imp l ht c (htext ▸ hc)
    rw [hw] at this
    exact absurd this (by simp)

/-- C24: `parseMarkdown` ignores leading and trailing white space on every
line: parsing the text with every line trimmed gives the same document, a line
contributes the same element as its trimmed form, and for a text with a
character that is not white space the component renders the same blocks. -/
theorem c24_parse_ignores_outer_whiteSpace (text : Str) :
    parseMarkdown (trimLines text) = parseMarkdown text ∧
    (∀ line, lineElem (trim line) = lineElem line) ∧
    ((∃ c ∈ text, isWhiteSpace c = false) →
      renderedBlocks (some (trimLines text)) = renderedBlocks (some text)) := by
  refine ⟨parseMarkdown_trimLines text, lineElem_trim, ?_⟩
  intro h
  have h1 : text ≠ [] := by
    obtain ⟨c, hc, _⟩ := h
    exact List.ne_nil_of_mem hc
  have h2 := trimLines_ne_nil text h
  have hr : ∀ t : Str, t ≠ [] → renderedBlocks (some t) = parseMarkdown t := by
    intro t ht
    cases t with
    | nil => exact absurd rfl ht
    | cons c cs => simp [renderedBlocks, markdownRenderer]
  rw [hr _ h1, hr _ h2, parseMarkdown_trimLines]

/-- C24, witness: an indented heading, an indented bullet and an indented
numbered line. -/
theorem c24_parse_ignores_outer_whiteSpace_witness :
    (∃ c ∈ "  ## Fix \n\t- a \n 1. b ".toList, isWhiteSpace c = false) ∧
    trimLines ("  ## Fix \n\t- a \n 1. b ".toList) = "## Fix\n- a\n1. b".toList ∧
    parseMarkdown ("  ## Fix \n\t- a \n 1. b ".toList)
      = [Block.heading 2 [InlineRun.plain ("Fix".toList)],
         Block.list false [[InlineRun.plain ['a']]],
         Block.list true [[InlineRun.plain ['b']]]] ∧
    renderedBlocks (some (trimLines ("  ## Fix \n\t- a \n 1. b ".toList)))
      = renderedBlocks (some ("  ## Fix \n\t- a \n 1. b ".toList)) :=
  ⟨⟨'#', by decide, by decide⟩, by decide, by decide,
   (c24_parse_ignores_outer_whiteSpace ("  ## Fix \n\t- a \n 1. b ".toList)).2.2
    ⟨'#', by decide, by decide⟩⟩


/-! ## Texts that no rewrite touches -/

theorem replaceAll_id_of_none (m : Str → Option (Nat × Str)) (s : Str)
    (h : ∀ a b, s = a ++ b → m b = none) : replaceAll m 0 s = s := by
  have := replaceAll_quiet m s [] (fun a b hab _ => by
    rw [List.append_nil]
    exact h a b hab)
  simpa [replaceAll] using this

theorem sectionPattern_none_of_no_dot (s : Str) (h : '.' ∉ s) : sectionPattern s = none := by
  unfold sectionPattern
  simp only
  split
  · rfl
  · cases hd : s.dropWhile isDigit with
    | nil => rfl
    | cons c rest =>
      have hc : c ≠ '.' := fun e => h (e ▸ dropWhile_head_mem _ _ _ _ hd)
      simp [hc]

theorem hoursPattern_none_of_no_hyphen (s : Str) (h : '-' ∉ s) : hoursPattern s = none := by
  unfold hoursPattern
  simp only
  split
  · rfl
  · cases hd : s.dropWhile isDigit with
    | nil => rfl
    | cons c rest =>
      have hc : c ≠ '-' := fun e => h (e ▸ dropWhile_head_mem _ _ _ _ hd)
      simp [hc]

/-- An alternation of literals matches nowhere in a text that contains none of
them as a case-insensitive substring. -/
theorem matchAlternatives_none_of_not_contains (alts : List Str) (text a b : Str)
    (hab : text = a ++ b) (h : ∀ kw ∈ alts, ¬ ContainsKeyword kw text) :
    matchAlternatives alts b = none := by
  apply matchAlternatives_none_of_canon
  rw [List.all_eq_true]
  intro kw hkw
  simp only [Bool.not_eq_true', ← Bool.not_eq_true]
  intro hp
  apply h kw hkw
  rw [ List.isPrefixOf_iff_prefix] at hp
  unfold ContainsKeyword
  rw [hab, List.map_append]
  exact List.infix_iff_prefix_suffix.2 ⟨_, hp, List.suffix_append _ _⟩

/-- C25: for every text that contains no `.`, no `-`, no `(` and none of the
nine keywords as a case-insensitive substring, `formatChatGPTAnalysis text` is
`text`. -/
theorem c25_untouched_text (text : Str)
    (hdot : '.' ∉ text) (hhyp : '-' ∉ text) (hpar : '(' ∉ text)
    (hkw : ∀ kw ∈ keywords, ¬ ContainsKeyword kw text) :
    formatChatGPTAnalysis (some text) = text := by
  by_cases hne : text = []
  · subst hne
    rfl
  have sub : ∀ (x : Char), x ∉ text → ∀ a b : Str, text = a ++ b → x ∉ b :=
    fun x hx a b hab hm => hx (by rw [hab]; simp [hm])
  have beq : ∀ (x : Char), x ∉ text → ∀ c ∈ text, (c == x) = false := by
    intro x hx c hc
    simp only [beq_eq_false_iff_ne, ne_eq]
    exact fun e => hx (e ▸ hc)
  have r1 : replaceAll sectionPattern 0 text = text :=
    replaceAll_id_of_none _ _ (fun a b hab =>
      sectionPattern_none_of_no_dot b (sub '.' hdot a b hab))
  have r2 : replaceAll subsectionPattern 0 text = text :=
    replaceAll_id_of_first _ _ subsectionPattern_first text (beq '-' hhyp)
  have r3 : replaceAll likelihoodPattern 0 text = text :=
    replaceAll_id_of_first _ _ likelihoodPattern_first text (beq '(' hpar)
  have r4 : replaceAll toolPattern 0 text = text :=
    replaceAll_id_of_none _ _ (fun a b hab =>
      toolPattern_none b (matchAlternatives_none_of_not_contains toolNames text a b hab
        (fun kw h => hkw kw (by simp [keywords, h]))))
  have r5 : replaceAll safetyPattern 0 text = text :=
    replaceAll_id_of_none _ _ (fun a b hab =>
      safetyPattern_none b (matchAlternatives_none_of_not_contains safetyKeywords text a b hab
        (fun kw h => hkw kw (by simp [keywords, h]))))
  have r6 : replaceAll hoursPattern 0 text = text :=
    replaceAll_id_of_none _ _ (fun a b hab =>
      hoursPattern_none_of_no_hyphen b (sub '-' hhyp a b hab))
  have r7 : replaceAll bulletBreakPattern 0 text = text :=
    replaceAll_id_of_first _ _ bulletBreakPattern_first text (beq '.' hdot)
  have r8 : replaceAll numberBreakPattern 0 text = text :=
    replaceAll_id_of_first _ _ numberBreakPattern_first text (beq '.' hdot)
  rw [formatChatGPTAnalysis_some text hne, r1, r2, r3, r4, r5, r6, r7, r8]

/-- C25, witness: the text `"Check the 2 filters and the fan"`. -/
theorem c25_untouched_text_witness :
    ('.' ∉ "Check the 2 filters and the fan".toList ∧
      '-' ∉ "Check the 2 filters and the fan".toList ∧
      '(' ∉ "Check the 2 filters and the fan".toList ∧
      ∀ kw ∈ keywords, ¬ ContainsKeyword kw ("Check the 2 filters and the fan".toList)) ∧
    formatChatGPTAnalysis (some ("Check the 2 filters and the fan".toList))
      = "Check the 2 filters and the fan".toList :=
  ⟨by decide,
   c25_untouched_text ("Check the 2 filters and the fan".toList)
    (by decide) (by decide) (by decide) (by decide)⟩

end MarkdownRenderer
